import Mathlib

/-!
Shallow embedding of the Wsnly routing engine (RoutingEngine/, C++) in Lean 4.

The embedding covers the routing kernel: the schedule-to-graph compiler
(`Graph::loadStopTimes`, `Graph::generateTransferEdges` in src/graph.cpp) and
the multi-source / multi-target A* search (`Pathfinder::FindPath` in
src/pathfinder.cpp), together with the data model from include/types.hpp.

Modelling conventions:
  * C++ `double` values (coordinates, weights, durations) are embedded as `ℚ`;
    the sentinel `INF = std::numeric_limits<double>::max()` is embedded as `⊤`
    of `WithTop ℚ`.
  * The C++ code computes geographic distances with `haversine` (a `double`
    function built from `sin`, `cos`, `atan2`).  The algorithms are embedded
    parametrically in a distance function `hv : ℚ → ℚ → ℚ → ℚ → ℚ` with the
    same argument order `lat1 lon1 lat2 lon2`, so that they stay executable;
    the exact real-valued haversine of types.hpp is embedded separately as
    `haversineR : ℝ → ℝ → ℝ → ℝ → ℝ` and is used for the geometric facts.
  * `std::unordered_map` becomes an association list (only lookups and
    insertions are used); `std::priority_queue` (a binary min-heap on
    `f_score`) becomes a list with an extract-min that takes the earliest
    entry of minimal `f_score` — one deterministic refinement of the
    unspecified heap tie-breaking.
  * The C++ `while` loops of the A* search are embedded with explicit fuel;
    termination of the search is itself one of the verified properties.
-/

set_option maxHeartbeats 2000000

namespace Wsnly

/-! ## Constants (types.hpp) -/

/-- Constant `AVG_BUS_SPEED_MPS = 8.33` from types.hpp. -/
def AVG_BUS_SPEED_MPS : ℚ := 833/100

/-- Constant `WALK_SPEED_MPS = 1.4` from types.hpp. -/
def WALK_SPEED_MPS : ℚ := 14/10

/-- Constant `METRO_SPEED_MPS = 16.67` from types.hpp. -/
def METRO_SPEED_MPS : ℚ := 1667/100

/-- Constant `MICROBUS_SPEED_MPS = 11.11` from types.hpp. -/
def MICROBUS_SPEED_MPS : ℚ := 1111/100

/-- Constant `TRANSFER_PENALTY = 60.0` from types.hpp. -/
def TRANSFER_PENALTY : ℚ := 60

/-- Constant `STOP_DWELL_TIME = 30.0` from types.hpp. -/
def STOP_DWELL_TIME : ℚ := 30

/-- Constant `MAX_SPEED_MPS = 25.0` from types.hpp (A* heuristic divisor). -/
def MAX_SPEED_MPS : ℚ := 25

/-- Constant `MAX_WALK_DISTANCE = 1500.0` from types.hpp. -/
def MAX_WALK_DISTANCE : ℚ := 1500

/-- Constant `R_EARTH = 6371000.0` from types.hpp. -/
def R_EARTH : ℚ := 6371000

/-- Constant `PI = 3.14159265358979323846` from types.hpp.  The source uses
this rational literal, not the mathematical π. -/
def PI_SRC : ℚ := 3.14159265358979323846

/-- Mode bit `METRO = 1 << 0` from the `Mode` enum of types.hpp. -/
def METRO : Nat := 1

/-- Mode bit `BUS = 1 << 1` from the `Mode` enum of types.hpp. -/
def BUS : Nat := 2

/-- Mode bit `MICROBUS = 1 << 2` from the `Mode` enum of types.hpp. -/
def MICROBUS : Nat := 4

/-- Mode bit `WALK = 1 << 3` from the `Mode` enum of types.hpp. -/
def WALK : Nat := 8

/-- Mode mask `ANY = METRO | BUS | MICROBUS` from the `Mode` enum of types.hpp. -/
def ANY : Nat := 7

/-- Function `modeToString` from types.hpp. -/
def modeToString (mode : Nat) : String :=
  if mode = METRO then "metro"
  else if mode = BUS then "bus"
  else if mode = MICROBUS then "microbus"
  else if mode = WALK then "walking"
  else if mode = ANY then "optimal"
  else "unknown"

/-! ## Data model (types.hpp) -/

/-- Struct `Edge` from types.hpp: directed edge with target node index,
weight in seconds, originating trip id (or `"WALK"`) and mode bit.  The C++
field `to` (the target node index) is embedded as `tgt`, since `to` is a
reserved token in Lean. -/
structure EdgeT where
  tgt : Nat
  weight : ℚ
  trip_id : String
  mode : Nat
deriving DecidableEq

instance : Inhabited EdgeT := ⟨⟨0, 0, "", 0⟩⟩

/-- Struct `Node` from types.hpp: a stop with its external GTFS id, display
name, coordinates, and adjacency list.  The C++ `id` field always equals the
node's index in `nodes_`; the embedding uses list positions as ids. -/
structure NodeT where
  gtfs_stop_id : String
  stop_name : String
  lat : ℚ
  lon : ℚ
  outgoing : List EdgeT
deriving DecidableEq

instance : Inhabited NodeT := ⟨⟨"", "", 0, 0, []⟩⟩

/-- Struct `RouteSegment` from types.hpp. -/
structure RouteSegmentT where
  startLon : ℚ
  startLat : ℚ
  startName : String
  endLon : ℚ
  endLat : ℚ
  endName : String
  method : String
  numStops : Nat
deriving DecidableEq

instance : Inhabited RouteSegmentT := ⟨⟨0, 0, "", 0, 0, "", "", 0⟩⟩

/-- Struct `RouteResult` from types.hpp; `totalDuration = ⊤` embeds the C++
`INF` sentinel (the callers read `found = totalDuration < INF`). -/
structure RouteResultT where
  type : String
  totalDuration : WithTop ℚ
  segments : List RouteSegmentT
deriving DecidableEq

/-- Class `Graph` data members used by the routing kernel (graph.hpp):
the node array and the GTFS lookup tables. -/
structure GraphT where
  nodes : List NodeT
  stop_id_map : List (String × Nat)
  route_modes : List (String × Nat)
  trip_routes : List (String × String)

/-- Method `Graph::getTripMode` from src/graph.cpp lines 110-121. -/
def getTripMode (g : GraphT) (trip_id : String) : String :=
  if trip_id = "WALK" then "walking"
  else
    match List.lookup trip_id g.trip_routes with
    | some route_id =>
      match List.lookup route_id g.route_modes with
      | some m => modeToString m
      | none => "unknown"
    | none => "unknown"

/-- Mode resolution used at graph-build time (src/graph.cpp lines 296-302):
`mode = BUS` unless `trip_routes` and `route_modes` both resolve. -/
def tripModeOf (g : GraphT) (trip_id : String) : Nat :=
  match List.lookup trip_id g.trip_routes with
  | some route_id =>
    match List.lookup route_id g.route_modes with
    | some m => m
    | none => BUS
  | none => BUS

/-! ## Transit edges (`Graph::loadStopTimes`, src/graph.cpp lines 253-328)

The CSV-parsing stage is outside the routing kernel; the embedding starts
from the collected `entries` vector (trip id, stop id, sequence number),
mirrors the `std::sort` by (trip_id, seq) and the loop over consecutive
pairs that creates the transit edges. -/

/-- Struct `StopTimeEntry` from src/graph.cpp lines 248-251. -/
structure StopTimeEntry where
  trip_id : String
  stop_id : String
  seq : Int
deriving DecidableEq

/-- Comparator of the `std::sort` call in src/graph.cpp lines 279-284, widened
to its reflexive closure so that insertion sort below is stable. -/
def entryLe (a b : StopTimeEntry) : Bool :=
  decide (a.trip_id < b.trip_id ∨ (a.trip_id = b.trip_id ∧ a.seq ≤ b.seq))

/-- Insertion step of the stable sort of the stop-time entries. -/
def insertEntry (e : StopTimeEntry) : List StopTimeEntry → List StopTimeEntry
  | [] => [e]
  | x :: xs => if entryLe e x then e :: x :: xs else x :: insertEntry e xs

/-- Stable sort by (trip_id, seq) embedding the `std::sort` call of
src/graph.cpp lines 279-284 (the comparator is a strict weak order on the
sort key, so any conforming sort yields this order up to ties). -/
def sortEntries : List StopTimeEntry → List StopTimeEntry
  | [] => []
  | e :: es => insertEntry e (sortEntries es)

/-- Append one outgoing edge to the node at index `u` (the
`nodes_[u].outgoing.push_back(...)` calls); out-of-range indices leave the
list unchanged (the C++ behaviour there is undefined). -/
def pushEdgeAt (nodes : List NodeT) (u : Nat) (e : EdgeT) : List NodeT :=
  match nodes.get? u with
  | none => nodes
  | some n => nodes.set u { n with outgoing := n.outgoing ++ [e] }

/-- Per-speed selection of src/graph.cpp lines 304-309. -/
def speedFor (mode : Nat) : ℚ :=
  if mode = METRO then METRO_SPEED_MPS
  else if mode = MICROBUS then MICROBUS_SPEED_MPS
  else AVG_BUS_SPEED_MPS

/-- Body of the consecutive-pair loop of `Graph::loadStopTimes`
(src/graph.cpp lines 287-325): if the two entries belong to the same trip,
add the forward transit edge, and for `MICROBUS` also the reverse edge. -/
def transitStep (hv : ℚ → ℚ → ℚ → ℚ → ℚ) (g : GraphT)
    (prev curr : StopTimeEntry) : GraphT :=
  if prev.trip_id = curr.trip_id then
    let u := (List.lookup prev.stop_id g.stop_id_map).getD 0
    let v := (List.lookup curr.stop_id g.stop_id_map).getD 0
    let mode := tripModeOf g prev.trip_id
    let nu := g.nodes.getD u default
    let nv := g.nodes.getD v default
    let dist := hv nu.lat nu.lon nv.lat nv.lon
    let timeWeight := dist / speedFor mode + STOP_DWELL_TIME
    let ns1 := pushEdgeAt g.nodes u ⟨v, timeWeight, prev.trip_id, mode⟩
    let ns2 :=
      if mode = MICROBUS then pushEdgeAt ns1 v ⟨u, timeWeight, prev.trip_id, mode⟩
      else ns1
    { g with nodes := ns2 }
  else g

/-- Loop over consecutive entries (`for i in 1..entries.size()`) of
`Graph::loadStopTimes`. -/
def addTransitPairs (hv : ℚ → ℚ → ℚ → ℚ → ℚ) : GraphT → List StopTimeEntry → GraphT
  | g, prev :: curr :: rest => addTransitPairs hv (transitStep hv g prev curr) (curr :: rest)
  | g, _ => g

/-- Method `Graph::loadStopTimes` from the collected entries onwards
(src/graph.cpp lines 279-325): sort by (trip_id, seq), then add an edge per
consecutive same-trip pair. -/
def loadStopTimesE (hv : ℚ → ℚ → ℚ → ℚ → ℚ) (g : GraphT)
    (entries : List StopTimeEntry) : GraphT :=
  addTransitPairs hv g (sortEntries entries)

/-! ## Walking transfer edges (`Graph::generateTransferEdges`,
src/graph.cpp lines 330-381) -/

/-- Grid cell size `MAX_WALK_DISTANCE / 111000.0` degrees
(src/graph.cpp line 336). -/
def cellSize : ℚ := MAX_WALK_DISTANCE / 111000

/-- Cell key `cy * 1000000 + cx` with `cx = floor(lon / cellSize)` and
`cy = floor(lat / cellSize)` (src/graph.cpp lines 339-343). -/
def cellKey (lat lon : ℚ) : Int :=
  ⌊lat / cellSize⌋ * 1000000 + ⌊lon / cellSize⌋

/-- Spatial grid (`std::unordered_map<long long, std::vector<NodeID>>`) as an
association list from cell key to the bucket of node indices. -/
def gridInsert (grid : List (Int × List Nat)) (k : Int) (i : Nat) :
    List (Int × List Nat) :=
  match grid with
  | [] => [(k, [i])]
  | (k0, b) :: rest =>
    if k0 = k then (k0, b ++ [i]) :: rest else (k0, b) :: gridInsert rest k i

/-- Bucket lookup in the spatial grid; a missing key yields the empty bucket. -/
def gridFind (grid : List (Int × List Nat)) (k : Int) : List Nat :=
  (List.lookup k grid).getD []

/-- Grid population loop of src/graph.cpp lines 346-348: insert every node
index into the bucket of its cell. -/
def buildGrid (nodes : List NodeT) : List (Int × List Nat) :=
  (List.range nodes.length).foldl
    (fun grid i =>
      let n := nodes.getD i default
      gridInsert grid (cellKey n.lat n.lon) i)
    []

/-- Inner candidate loop of src/graph.cpp lines 362-375: for each candidate
`j` of one bucket, skip unless `i < j`, and add the pair of walking edges
when `0 < d ≤ MAX_WALK_DISTANCE`. -/
def sweepCell (hv : ℚ → ℚ → ℚ → ℚ → ℚ) (i : Nat) (bucket : List Nat)
    (nodes : List NodeT) : List NodeT :=
  bucket.foldl
    (fun ns j =>
      if i ≥ j then ns
      else
        let ni := ns.getD i default
        let nj := ns.getD j default
        let dist := hv ni.lat ni.lon nj.lat nj.lon
        if dist ≤ MAX_WALK_DISTANCE ∧ dist > 0 then
          let walkTime := dist / WALK_SPEED_MPS
          pushEdgeAt (pushEdgeAt ns i ⟨j, walkTime, "WALK", WALK⟩) j
            ⟨i, walkTime, "WALK", WALK⟩
        else ns)
    nodes

/-- Neighbourhood offsets `(dx, dy)` in the iteration order of the two
nested loops of src/graph.cpp lines 355-356. -/
def neighborOffsets : List (Int × Int) :=
  [(-1, -1), (-1, 0), (-1, 1), (0, -1), (0, 0), (0, 1), (1, -1), (1, 0), (1, 1)]

/-- Per-node 3×3 sweep of src/graph.cpp lines 351-377. -/
def sweepNode (hv : ℚ → ℚ → ℚ → ℚ → ℚ) (grid : List (Int × List Nat))
    (nodes : List NodeT) (i : Nat) : List NodeT :=
  let n := nodes.getD i default
  let cx := ⌊n.lon / cellSize⌋
  let cy := ⌊n.lat / cellSize⌋
  neighborOffsets.foldl
    (fun ns o => sweepCell hv i (gridFind grid ((cy + o.2) * 1000000 + (cx + o.1))) ns)
    nodes

/-- Method `Graph::generateTransferEdges` (src/graph.cpp lines 330-381):
build the spatial grid, then sweep the 3×3 neighbourhood of every node. -/
def generateTransferEdges (hv : ℚ → ℚ → ℚ → ℚ → ℚ) (nodes : List NodeT) :
    List NodeT :=
  let grid := buildGrid nodes
  (List.range nodes.length).foldl (sweepNode hv grid) nodes

/-- Tail of `Graph::loadGTFS` (src/graph.cpp lines 125-145) relevant to the
routing kernel: transit edges from the stop-time entries, then walking
transfer edges. -/
def loadPipeline (hv : ℚ → ℚ → ℚ → ℚ → ℚ) (g : GraphT)
    (entries : List StopTimeEntry) : GraphT :=
  let g1 := loadStopTimesE hv g entries
  { g1 with nodes := generateTransferEdges hv g1.nodes }


/-! ## A* search (`Pathfinder::FindPath`, src/pathfinder.cpp lines 23-189) -/

/-- Struct `State` from src/pathfinder.cpp lines 8-15: a priority-queue
entry.  Queue entries always carry finite scores, so `ℚ` suffices here. -/
structure QEntry where
  u : Nat
  g_score : ℚ
  f_score : ℚ
  arrival_trip_id : String
deriving DecidableEq

/-- Struct `PathInfo` from src/pathfinder.cpp lines 17-21, with the
`g_score = INF` initial value embedded as `⊤` and `parent = -1` kept as an
`Int` sentinel exactly as in the source. -/
structure PathInfoT where
  g_score : WithTop ℚ
  parent : Int
  trip_id : String
deriving DecidableEq

/-- Default-constructed `PathInfo` (src/pathfinder.cpp lines 17-21). -/
def initInfo : PathInfoT := ⟨⊤, -1, ""⟩

instance : Inhabited PathInfoT := ⟨initInfo⟩

/-- Mutable state of the A* loop: the per-node `info` array, the priority
queue, and the running best alighting candidate (`best_total`,
`best_end_node` of src/pathfinder.cpp lines 84-89). -/
structure SearchState where
  info : List PathInfoT
  pq : List QEntry
  best_total : WithTop ℚ
  best_end : Int
deriving DecidableEq

/-- Extract-min of the `std::priority_queue` on `f_score`
(`std::greater<State>` comparator): the earliest entry of minimal `f_score`
is returned together with the remaining entries.  The C++ heap's order among
equal `f_score` entries is unspecified; this is one deterministic
refinement of it. -/
def extractMin : List QEntry → Option (QEntry × List QEntry)
  | [] => none
  | x :: xs =>
    match extractMin xs with
    | none => some (x, [])
    | some (m, rest) => if x.f_score ≤ m.f_score then some (x, xs) else some (m, x :: rest)

/-- Edge cost of src/pathfinder.cpp lines 115-119: the edge weight plus
`TRANSFER_PENALTY` when the arriving trip is a different vehicle trip. -/
def transferCost (arrival : String) (e : EdgeT) : ℚ :=
  if arrival ≠ "" ∧ arrival ≠ e.trip_id ∧ e.trip_id ≠ "WALK" ∧ arrival ≠ "WALK" then
    e.weight + TRANSFER_PENALTY
  else e.weight

/-- A* heuristic of src/pathfinder.cpp lines 65-67:
`haversine(u, dest) / MAX_SPEED_MPS`. -/
def heuristicOf (hv : ℚ → ℚ → ℚ → ℚ → ℚ) (nodes : List NodeT)
    (dLat dLon : ℚ) (u : Nat) : ℚ :=
  let n := nodes.getD u default
  hv n.lat n.lon dLat dLon / MAX_SPEED_MPS

/-- Relaxation of one outgoing edge (src/pathfinder.cpp lines 111-129). -/
def relaxOne (hv : ℚ → ℚ → ℚ → ℚ → ℚ) (nodes : List NodeT) (dLat dLon : ℚ)
    (modeMask : Nat) (top : QEntry) (st : SearchState) (e : EdgeT) : SearchState :=
  if e.mode &&& modeMask = 0 then st
  else
    let edgeCost := transferCost top.arrival_trip_id e
    let newG := top.g_score + edgeCost
    if (newG : WithTop ℚ) < (st.info.getD e.tgt initInfo).g_score ∧
        (newG : WithTop ℚ) < st.best_total then
      { st with
        info := st.info.set e.tgt ⟨(newG : WithTop ℚ), Int.ofNat top.u, e.trip_id⟩
        pq := st.pq ++ [⟨e.tgt, newG, newG + heuristicOf hv nodes dLat dLon e.tgt, e.trip_id⟩] }
    else st

/-- Relaxation of every outgoing edge of the popped node, in adjacency-list
order (the `for (const auto &edge : nodes[top.u].outgoing)` loop). -/
def relaxEdges (hv : ℚ → ℚ → ℚ → ℚ → ℚ) (nodes : List NodeT) (dLat dLon : ℚ)
    (modeMask : Nat) (top : QEntry) (st : SearchState) (edges : List EdgeT) :
    SearchState :=
  edges.foldl (relaxOne hv nodes dLat dLon modeMask top) st

/-- Body of one iteration of the A* `while` loop (src/pathfinder.cpp lines
92-131): pop, skip stale or pruned entries, fold in the alighting candidate,
relax the outgoing edges.  `endWalk` is the `end_walk_dist` array (walk
distance to the destination, `-1` for non-candidates). -/
def stepPop (hv : ℚ → ℚ → ℚ → ℚ → ℚ) (nodes : List NodeT) (dLat dLon : ℚ)
    (modeMask : Nat) (endWalk : List ℚ) (st : SearchState) :
    Option SearchState :=
  match extractMin st.pq with
  | none => none
  | some (top, rest) =>
    let st1 : SearchState := { st with pq := rest }
    some (
      if (top.g_score : WithTop ℚ) > (st1.info.getD top.u initInfo).g_score then st1
      else if (top.g_score : WithTop ℚ) ≥ st1.best_total then st1
      else
        let st2 :=
          if 0 ≤ endWalk.getD top.u (-1) then
            let total := top.g_score + endWalk.getD top.u (-1) / WALK_SPEED_MPS
            if (total : WithTop ℚ) < st1.best_total then
              { st1 with best_total := (total : WithTop ℚ), best_end := Int.ofNat top.u }
            else st1
          else st1
        relaxEdges hv nodes dLat dLon modeMask top st2
          (nodes.getD top.u default).outgoing)

/-- The A* `while (!pq.empty())` loop with explicit fuel; the returned flag
is `true` when the queue was exhausted before the fuel. -/
def runLoop (hv : ℚ → ℚ → ℚ → ℚ → ℚ) (nodes : List NodeT) (dLat dLon : ℚ)
    (modeMask : Nat) (endWalk : List ℚ) : Nat → SearchState → SearchState × Bool
  | 0, st => (st, st.pq.isEmpty)
  | fuel + 1, st =>
    match stepPop hv nodes dLat dLon modeMask endWalk st with
    | none => (st, true)
    | some st1 => runLoop hv nodes dLat dLon modeMask endWalk fuel st1

/-- Seeding of one boarding candidate (src/pathfinder.cpp lines 72-82). -/
def seedStart (hv : ℚ → ℚ → ℚ → ℚ → ℚ) (nodes : List NodeT) (dLat dLon : ℚ)
    (st : SearchState) (sn : Nat × ℚ) : SearchState :=
  let cost := sn.2 / WALK_SPEED_MPS
  { st with
    info := st.info.set sn.1 ⟨(cost : WithTop ℚ), -1, "WALK"⟩
    pq := st.pq ++ [⟨sn.1, cost, cost + heuristicOf hv nodes dLat dLon sn.1, "WALK"⟩] }

/-- The `end_walk_dist` array construction of src/pathfinder.cpp lines
59-63: a `-1.0`-filled vector with the alighting candidates' walk
distances written in. -/
def mkEndWalk (n : Nat) (endNodes : List (Nat × ℚ)) : List ℚ :=
  endNodes.foldl (fun arr en => arr.set en.1 en.2) (List.replicate n (-1))

/-- Path reconstruction loop of src/pathfinder.cpp lines 146-152: follow the
`parent` chain from the winning end node, then reverse.  The fuel bounds the
chain; the list is produced directly in the reversed (travel) order.
A negative `curr` other than the C++ loop's `-1` sentinel would index out of
bounds in the source; the embedding stops there as well. -/
def extractPath (info : List PathInfoT) : Nat → Int → List Nat
  | 0, _ => []
  | fuel + 1, curr =>
    if curr < 0 then []
    else extractPath info fuel (info.getD curr.toNat initInfo).parent ++ [curr.toNat]

/-- Grouping loop of src/pathfinder.cpp lines 158-182: scan the path from
index 1, emitting one segment per maximal run of equal `trip_id`, with
`numStops = i - startIdx`.  `s` is the node at `startIdx` and `k` the
current value of `i - startIdx`. -/
def groupGo (g : GraphT) (info : List PathInfoT) : Nat → Nat → List Nat →
    List RouteSegmentT
  | _, _, [] => []
  | s, k, v :: rest =>
    let currentTrip := (info.getD v initInfo).trip_id
    let nextDifferent :=
      match rest with
      | [] => false
      | v1 :: _ => decide ((info.getD v1 initInfo).trip_id ≠ currentTrip)
    if rest.isEmpty || nextDifferent then
      let nu := g.nodes.getD s default
      let nv := g.nodes.getD v default
      ⟨nu.lon, nu.lat, nu.stop_name, nv.lon, nv.lat, nv.stop_name,
        getTripMode g currentTrip, k⟩ :: groupGo g info v 1 rest
    else groupGo g info s (k + 1) rest

/-- Segment assembly of src/pathfinder.cpp lines 154-186: leading walking
segment from the origin to `path[0]`, grouped transit segments, trailing
walking segment from `best_end_node` to the destination. -/
def buildSegments (g : GraphT) (info : List PathInfoT) (path : List Nat)
    (sLat sLon dLat dLon : ℚ) (bestEnd : Int) : List RouteSegmentT :=
  let p0 := g.nodes.getD (path.getD 0 0) default
  let firstSeg : RouteSegmentT :=
    ⟨sLon, sLat, "Origin", p0.lon, p0.lat, p0.stop_name, "walking", 0⟩
  let mid :=
    match path with
    | x :: y :: rest => groupGo g info x 1 (y :: rest)
    | _ => []
  let en := g.nodes.getD bestEnd.toNat default
  firstSeg :: (mid ++
    [⟨en.lon, en.lat, en.stop_name, dLon, dLat, "Destination", "walking", 0⟩])

/-- Modelled from the spec: the implementation of
`Graph::getNodesWithinRadius` is not among the repository's files (graph.hpp
declares it and src/pathfinder.cpp calls it).  Spec section 4.3 specifies
`radius_query(lat, lon, r, mode_mask)` as returning every stop within `r`
meters with its exact haversine distance, post-filtered by mode eligibility
("a stop usable by the given modes"), for which the reference uses the
external-id prefix conventions `M_` / `B1_` / `MB_` of
`Graph::findNearestNode` (src/graph.cpp lines 67-100).  Result order is
unspecified in the spec; the embedding enumerates stops by node index. -/
def getNodesWithinRadius (hv : ℚ → ℚ → ℚ → ℚ → ℚ) (nodes : List NodeT)
    (lat lon radius : ℚ) (modeMask : Nat) : List (Nat × ℚ) :=
  let prefixes :=
    (if METRO &&& modeMask ≠ 0 then ["M_"] else []) ++
    (if BUS &&& modeMask ≠ 0 then ["B1_"] else []) ++
    (if MICROBUS &&& modeMask ≠ 0 then ["MB_"] else [])
  (List.range nodes.length).filterMap (fun i =>
    let n := nodes.getD i default
    let d := hv lat lon n.lat n.lon
    if (prefixes.any (fun p => p.isPrefixOf n.gtfs_stop_id)) ∧ d ≤ radius then
      some (i, d)
    else none)

/-- Candidate-radius retry loop of src/pathfinder.cpp lines 32-45: try the
radii in order and stop at the first one yielding both a boarding and an
alighting set. -/
def pickCandidates (hv : ℚ → ℚ → ℚ → ℚ → ℚ) (nodes : List NodeT)
    (sLat sLon dLat dLon : ℚ) (modeMask : Nat) (radii : List ℚ) :
    List (Nat × ℚ) × List (Nat × ℚ) :=
  radii.foldl
    (fun acc r =>
      if acc.1 ≠ [] ∧ acc.2 ≠ [] then acc
      else (getNodesWithinRadius hv nodes sLat sLon r modeMask,
            getNodesWithinRadius hv nodes dLat dLon r modeMask))
    ([], [])

/-- Method `Pathfinder::FindPath` (src/pathfinder.cpp lines 23-189) with the
while-loop fuel made explicit; the second component records whether the A*
loop ran to completion within the fuel (`true` on the loop-free early
returns). -/
def FindPathAux (hv : ℚ → ℚ → ℚ → ℚ → ℚ) (fuel : Nat) (graph : GraphT)
    (sLat sLon dLat dLon : ℚ) (modeMask : Nat) (typeLabel : String) :
    RouteResultT × Bool :=
  let nodes := graph.nodes
  let cand := pickCandidates hv nodes sLat sLon dLat dLon modeMask
    [MAX_WALK_DISTANCE, 2500, 4000, 6000]
  let startNodes := cand.1
  let endNodes := cand.2
  let directDist := hv sLat sLon dLat dLon
  let canDirectWalk := directDist ≤ MAX_WALK_DISTANCE * 2
  if startNodes = [] ∨ endNodes = [] then
    if canDirectWalk then
      (⟨typeLabel, ((directDist / WALK_SPEED_MPS : ℚ) : WithTop ℚ),
        [⟨sLon, sLat, "Origin", dLon, dLat, "Destination", "walking", 0⟩]⟩, true)
    else (⟨typeLabel, ⊤, []⟩, true)
  else
    let endWalk := mkEndWalk nodes.length endNodes
    let st0 : SearchState :=
      startNodes.foldl (seedStart hv nodes dLat dLon)
        ⟨List.replicate nodes.length initInfo, [],
          if canDirectWalk then ((directDist / WALK_SPEED_MPS : ℚ) : WithTop ℚ) else ⊤,
          if canDirectWalk then -2 else -1⟩
    let res := runLoop hv nodes dLat dLon modeMask endWalk fuel st0
    let stF := res.1
    if stF.best_total = ⊤ then (⟨typeLabel, ⊤, []⟩, res.2)
    else if stF.best_end = -2 then
      (⟨typeLabel, stF.best_total,
        [⟨sLon, sLat, "Origin", dLon, dLat, "Destination", "walking", 0⟩]⟩, res.2)
    else
      let path := extractPath stF.info (nodes.length + 1) stF.best_end
      (⟨typeLabel, stF.best_total,
        buildSegments graph stF.info path sLat sLon dLat dLon stF.best_end⟩, res.2)

/-- Method `Pathfinder::FindPath`: the route result of `FindPathAux`. -/
def FindPath (hv : ℚ → ℚ → ℚ → ℚ → ℚ) (fuel : Nat) (graph : GraphT)
    (sLat sLon dLat dLon : ℚ) (modeMask : Nat) (typeLabel : String) :
    RouteResultT :=
  (FindPathAux hv fuel graph sLat sLon dLat dLon modeMask typeLabel).1

/-! ## The exact haversine of types.hpp over the reals -/

/-- C library `atan2`, restricted to the conventions the haversine formula
relies on (the argument `x` is a square root, hence nonnegative, and the
code never reaches the `x ≤ 0` branches with `y ≠ 0`); defined on all of
`ℝ × ℝ` following the C standard anyway. -/
noncomputable def atan2R (y x : ℝ) : ℝ :=
  if 0 < x then Real.arctan (y / x)
  else if x < 0 ∧ 0 ≤ y then Real.arctan (y / x) + Real.pi
  else if x < 0 then Real.arctan (y / x) - Real.pi
  else if 0 < y then Real.pi / 2
  else if y < 0 then -(Real.pi / 2)
  else 0

/-- Function `toRadians` from types.hpp: `degree * PI / 180` with the
source's rational `PI` literal. -/
noncomputable def toRadiansR (degree : ℝ) : ℝ := degree * (PI_SRC : ℝ) / 180

/-- Function `haversine` from types.hpp lines 57-67, over the reals. -/
noncomputable def haversineR (lat1 lon1 lat2 lon2 : ℝ) : ℝ :=
  let dLat := toRadiansR (lat2 - lat1)
  let dLon := toRadiansR (lon2 - lon1)
  let l1 := toRadiansR lat1
  let l2 := toRadiansR lat2
  let a := Real.sin (dLat / 2) * Real.sin (dLat / 2) +
    Real.sin (dLon / 2) * Real.sin (dLon / 2) * Real.cos l1 * Real.cos l2
  let c := 2 * atan2R (Real.sqrt a) (Real.sqrt (1 - a))
  (R_EARTH : ℝ) * c


/-! ## Theorems -/

/-- C2: during A* edge relaxation the cost charged for an edge carrying trip
tag `e.trip_id` equals the edge weight plus `TRANSFER_PENALTY = 60` exactly
when the arrival trip tag is non-empty, is not `"WALK"`, and the edge's tag
is neither the arrival tag nor `"WALK"`; walking edges never incur the
penalty, and relaxation from a seeded start node (arrival tag `"WALK"`)
never incurs it. -/
theorem C2_transfer_penalty (arrival : String) (e : EdgeT) :
    (transferCost arrival e = e.weight + TRANSFER_PENALTY ↔
      (arrival ≠ "" ∧ arrival ≠ "WALK" ∧ e.trip_id ≠ arrival ∧ e.trip_id ≠ "WALK")) ∧
    (e.trip_id = "WALK" → transferCost arrival e = e.weight) ∧
    transferCost "WALK" e = e.weight := by
  have hw : e.weight + TRANSFER_PENALTY ≠ e.weight := by
    simp [TRANSFER_PENALTY]
  refine ⟨⟨fun h => ?_, fun h => ?_⟩, fun h => ?_, ?_⟩
  · by_cases hc : arrival ≠ "" ∧ arrival ≠ e.trip_id ∧ e.trip_id ≠ "WALK" ∧ arrival ≠ "WALK"
    · exact ⟨hc.1, hc.2.2.2, fun h2 => hc.2.1 h2.symm, hc.2.2.1⟩
    · rw [transferCost, if_neg hc] at h
      exact absurd h.symm hw
  · rw [transferCost, if_pos ⟨h.1, fun h2 => h.2.2.1 h2.symm, h.2.2.2, h.2.1⟩]
  · rw [transferCost, if_neg]
    rintro ⟨-, -, hne, -⟩
    exact hne h
  · rw [transferCost, if_neg]
    rintro ⟨-, -, -, hne⟩
    exact hne rfl


/-! ### Monotonicity of `best_total` -/

theorem relaxOne_best_total (hv : ℚ → ℚ → ℚ → ℚ → ℚ) (nodes : List NodeT)
    (dLat dLon : ℚ) (mask : Nat) (top : QEntry) (st : SearchState) (e : EdgeT) :
    (relaxOne hv nodes dLat dLon mask top st e).best_total = st.best_total := by
  simp only [relaxOne]
  split_ifs <;> rfl

theorem relaxEdges_best_total (hv : ℚ → ℚ → ℚ → ℚ → ℚ) (nodes : List NodeT)
    (dLat dLon : ℚ) (mask : Nat) (top : QEntry) (st : SearchState)
    (edges : List EdgeT) :
    (relaxEdges hv nodes dLat dLon mask top st edges).best_total = st.best_total := by
  induction edges generalizing st with
  | nil => rfl
  | cons e es ih =>
    have hstep : relaxEdges hv nodes dLat dLon mask top st (e :: es) =
        relaxEdges hv nodes dLat dLon mask top
          (relaxOne hv nodes dLat dLon mask top st e) es := rfl
    rw [hstep, ih, relaxOne_best_total]

theorem stepPop_best_total (hv : ℚ → ℚ → ℚ → ℚ → ℚ) (nodes : List NodeT)
    (dLat dLon : ℚ) (mask : Nat) (endWalk : List ℚ) (st st1 : SearchState)
    (h : stepPop hv nodes dLat dLon mask endWalk st = some st1) :
    st1.best_total ≤ st.best_total := by
  unfold stepPop at h
  rcases hq : extractMin st.pq with - | ⟨top, rest⟩ <;> rw [hq] at h
  · exact absurd h (by simp)
  simp only [Option.some.injEq] at h
  subst h
  split_ifs with h1 h2 h3 h4
  · exact le_refl _
  · exact le_refl _
  · rw [relaxEdges_best_total]
    exact le_of_lt h4
  · rw [relaxEdges_best_total]
  · rw [relaxEdges_best_total]

theorem runLoop_best_total (hv : ℚ → ℚ → ℚ → ℚ → ℚ) (nodes : List NodeT)
    (dLat dLon : ℚ) (mask : Nat) (endWalk : List ℚ) (fuel : Nat)
    (st : SearchState) :
    (runLoop hv nodes dLat dLon mask endWalk fuel st).1.best_total ≤ st.best_total := by
  induction fuel generalizing st with
  | zero => exact le_refl _
  | succ n ih =>
    rw [runLoop]
    rcases hq : stepPop hv nodes dLat dLon mask endWalk st with - | st1
    · exact le_refl _
    · exact le_trans (ih st1) (stepPop_best_total hv nodes dLat dLon mask endWalk st st1 hq)

theorem seedStart_best_total (hv : ℚ → ℚ → ℚ → ℚ → ℚ) (nodes : List NodeT)
    (dLat dLon : ℚ) (st : SearchState) (sn : Nat × ℚ) :
    (seedStart hv nodes dLat dLon st sn).best_total = st.best_total := rfl

theorem seedFold_best_total (hv : ℚ → ℚ → ℚ → ℚ → ℚ) (nodes : List NodeT)
    (dLat dLon : ℚ) (startNodes : List (Nat × ℚ)) (st : SearchState) :
    (startNodes.foldl (seedStart hv nodes dLat dLon) st).best_total = st.best_total := by
  induction startNodes generalizing st with
  | nil => rfl
  | cons sn rest ih => rw [List.foldl_cons, ih, seedStart_best_total]

/-- Core bound behind C9: whenever the direct-walk shortcut is eligible
(`haversine(origin, dest) ≤ 2 · MAX_WALK_DISTANCE`), the search never
returns a duration above the direct-walk cost, because `best_total` starts
at that cost and only decreases. -/
theorem FindPathAux_le_direct (hv : ℚ → ℚ → ℚ → ℚ → ℚ) (fuel : Nat)
    (g : GraphT) (sLat sLon dLat dLon : ℚ) (mask : Nat) (label : String)
    (h : hv sLat sLon dLat dLon ≤ MAX_WALK_DISTANCE * 2) :
    (FindPathAux hv fuel g sLat sLon dLat dLon mask label).1.totalDuration ≤
      ((hv sLat sLon dLat dLon / WALK_SPEED_MPS : ℚ) : WithTop ℚ) := by
  unfold FindPathAux
  simp only [h, if_true]
  split_ifs with h1 h2 h3
  · exact le_refl _
  · -- loop branch with best_total = ⊤: contradiction with monotonicity
    exfalso
    have hb := runLoop_best_total hv g.nodes dLat dLon mask
      (mkEndWalk g.nodes.length
        (pickCandidates hv g.nodes sLat sLon dLat dLon mask
          [MAX_WALK_DISTANCE, 2500, 4000, 6000]).2)
      fuel
      ((pickCandidates hv g.nodes sLat sLon dLat dLon mask
          [MAX_WALK_DISTANCE, 2500, 4000, 6000]).1.foldl
        (seedStart hv g.nodes dLat dLon)
        ⟨List.replicate g.nodes.length initInfo, [],
          ((hv sLat sLon dLat dLon / WALK_SPEED_MPS : ℚ) : WithTop ℚ), -2⟩)
    rw [seedFold_best_total] at hb
    rw [h2] at hb
    exact absurd (top_le_iff.mp hb) (WithTop.coe_ne_top)
  · -- direct-walk winner
    have hb := runLoop_best_total hv g.nodes dLat dLon mask
      (mkEndWalk g.nodes.length
        (pickCandidates hv g.nodes sLat sLon dLat dLon mask
          [MAX_WALK_DISTANCE, 2500, 4000, 6000]).2)
      fuel
      ((pickCandidates hv g.nodes sLat sLon dLat dLon mask
          [MAX_WALK_DISTANCE, 2500, 4000, 6000]).1.foldl
        (seedStart hv g.nodes dLat dLon)
        ⟨List.replicate g.nodes.length initInfo, [],
          ((hv sLat sLon dLat dLon / WALK_SPEED_MPS : ℚ) : WithTop ℚ), -2⟩)
    rw [seedFold_best_total] at hb
    exact hb
  · have hb := runLoop_best_total hv g.nodes dLat dLon mask
      (mkEndWalk g.nodes.length
        (pickCandidates hv g.nodes sLat sLon dLat dLon mask
          [MAX_WALK_DISTANCE, 2500, 4000, 6000]).2)
      fuel
      ((pickCandidates hv g.nodes sLat sLon dLat dLon mask
          [MAX_WALK_DISTANCE, 2500, 4000, 6000]).1.foldl
        (seedStart hv g.nodes dLat dLon)
        ⟨List.replicate g.nodes.length initInfo, [],
          ((hv sLat sLon dLat dLon / WALK_SPEED_MPS : ℚ) : WithTop ℚ), -2⟩)
    rw [seedFold_best_total] at hb
    exact hb


/-- Empty graph (no stops loaded). -/
def emptyGraphT : GraphT := ⟨[], [], [], []⟩

/-- C9: for every graph and every query whose haversine origin-destination
distance is at most 200 m, the mode-agnostic (`ANY | WALK`, label
`"optimal"`) search returns `totalDuration ≤ haversine / WALK_SPEED_MPS`:
the direct-walk candidate initialises `best_total`, and the loop only ever
lowers it. -/
theorem C9_walking_dominance (hv : ℚ → ℚ → ℚ → ℚ → ℚ) (fuel : Nat) (g : GraphT)
    (sLat sLon dLat dLon : ℚ)
    (h : hv sLat sLon dLat dLon ≤ 200) :
    (FindPath hv fuel g sLat sLon dLat dLon (ANY ||| WALK) "optimal").totalDuration ≤
      ((hv sLat sLon dLat dLon / WALK_SPEED_MPS : ℚ) : WithTop ℚ) :=
  FindPathAux_le_direct hv fuel g sLat sLon dLat dLon (ANY ||| WALK) "optimal"
    (le_trans h (by norm_num [MAX_WALK_DISTANCE]))

/-- Witness for C9 at a concrete input: constant 100 m distance on the
empty graph. -/
theorem C9_walking_dominance_witness :
    (FindPath (fun _ _ _ _ => (100:ℚ)) 3 emptyGraphT 0 0 0 0 (ANY ||| WALK)
        "optimal").totalDuration ≤
      (((100:ℚ) / WALK_SPEED_MPS) : WithTop ℚ) :=
  C9_walking_dominance (fun _ _ _ _ => 100) 3 emptyGraphT 0 0 0 0 (by norm_num)


/-! ### Segment continuity (C7) -/

/-- Continuity check for a segment list: the first segment starts at
`(aLat, aLon)`, consecutive segments share their endpoints, and the last
segment ends at `(bLat, bLon)` (for the empty list the two points must
coincide). -/
def chainFromB (aLat aLon : ℚ) (segs : List RouteSegmentT) (bLat bLon : ℚ) : Bool :=
  match segs with
  | [] => decide (aLat = bLat ∧ aLon = bLon)
  | s :: rest =>
    decide (s.startLat = aLat ∧ s.startLon = aLon) &&
      chainFromB s.endLat s.endLon rest bLat bLon

theorem chainFromB_append (xs : List RouteSegmentT) :
    ∀ (aLat aLon mLat mLon bLat bLon : ℚ) (ys : List RouteSegmentT),
    chainFromB aLat aLon xs mLat mLon = true →
    chainFromB mLat mLon ys bLat bLon = true →
    chainFromB aLat aLon (xs ++ ys) bLat bLon = true := by
  induction xs with
  | nil =>
    intro aLat aLon mLat mLon bLat bLon ys h1 h2
    simp only [chainFromB, decide_eq_true_eq] at h1
    rw [List.nil_append, h1.1, h1.2]
    exact h2
  | cons s rest ih =>
    intro aLat aLon mLat mLon bLat bLon ys h1 h2
    simp only [chainFromB, Bool.and_eq_true] at h1 ⊢
    exact ⟨h1.1, ih _ _ _ _ _ _ _ h1.2 h2⟩

theorem groupGo_chain (g : GraphT) (info : List PathInfoT) :
    ∀ (l : List Nat) (s k v : Nat), l.getLast? = some v →
    chainFromB (g.nodes.getD s default).lat (g.nodes.getD s default).lon
      (groupGo g info s k l)
      (g.nodes.getD v default).lat (g.nodes.getD v default).lon = true := by
  intro l
  induction l with
  | nil => intro s k v h; cases h
  | cons v0 rest ih =>
    intro s k v h
    cases rest with
    | nil =>
      simp only [List.getLast?_singleton, Option.some.injEq] at h
      subst h
      simp [groupGo, chainFromB]
    | cons v1 rest2 =>
      rw [List.getLast?_cons_cons] at h
      show chainFromB _ _ (groupGo g info s k (v0 :: v1 :: rest2)) _ _ = true
      rw [groupGo]
      by_cases hd : (info.getD v1 initInfo).trip_id = (info.getD v0 initInfo).trip_id
      · have hb : ((v1 :: rest2).isEmpty ||
            decide ((info.getD v1 initInfo).trip_id ≠ (info.getD v0 initInfo).trip_id)) = false := by
          simp only [List.isEmpty_cons, Bool.false_or, decide_eq_false_iff_not, not_not]
          exact hd
        rw [hb]
        simp only [Bool.false_eq_true, if_false]
        exact ih s (k + 1) v h
      · have hb : ((v1 :: rest2).isEmpty ||
            decide ((info.getD v1 initInfo).trip_id ≠ (info.getD v0 initInfo).trip_id)) = true := by
          simp only [List.isEmpty_cons, Bool.false_or, decide_eq_true_eq]
          exact hd
        rw [hb]
        simp only [if_true]
        simp only [chainFromB, Bool.and_eq_true]
        exact ⟨by simp, ih v0 1 v h⟩

theorem extractPath_getLast (info : List PathInfoT) :
    ∀ (fuel : Nat) (curr : Int), ¬ curr < 0 →
    extractPath info (fuel + 1) curr ≠ [] ∧
      (extractPath info (fuel + 1) curr).getLast? = some curr.toNat := by
  intro fuel curr h
  rw [extractPath, if_neg h]
  constructor
  · simp
  · simp [List.getLast?_append]

theorem buildSegments_chain (g : GraphT) (info : List PathInfoT)
    (path : List Nat) (sLat sLon dLat dLon : ℚ) (bestEnd : Int)
    (hlast : path.getLast? = some bestEnd.toNat) :
    chainFromB sLat sLon (buildSegments g info path sLat sLon dLat dLon bestEnd)
      dLat dLon = true := by
  cases path with
  | nil => cases hlast
  | cons x rest =>
    cases rest with
    | nil =>
      simp only [List.getLast?_singleton, Option.some.injEq] at hlast
      subst hlast
      simp [buildSegments, chainFromB]
    | cons y rest2 =>
      rw [List.getLast?_cons_cons] at hlast
      show chainFromB _ _
        ((⟨sLon, sLat, "Origin", (g.nodes.getD x default).lon,
            (g.nodes.getD x default).lat, (g.nodes.getD x default).stop_name,
            "walking", 0⟩ : RouteSegmentT) ::
          (groupGo g info x 1 (y :: rest2) ++
            [⟨(g.nodes.getD bestEnd.toNat default).lon,
              (g.nodes.getD bestEnd.toNat default).lat,
              (g.nodes.getD bestEnd.toNat default).stop_name, dLon, dLat,
              "Destination", "walking", 0⟩])) _ _ = true
      simp only [chainFromB, Bool.and_eq_true]
      refine ⟨by simp, ?_⟩
      refine chainFromB_append _ _ _
        (g.nodes.getD bestEnd.toNat default).lat
        (g.nodes.getD bestEnd.toNat default).lon _ _ _
        (groupGo_chain g info (y :: rest2) x 1 bestEnd.toNat hlast) ?_
      simp [chainFromB]


theorem relaxOne_best_end (hv : ℚ → ℚ → ℚ → ℚ → ℚ) (nodes : List NodeT)
    (dLat dLon : ℚ) (mask : Nat) (top : QEntry) (st : SearchState) (e : EdgeT) :
    (relaxOne hv nodes dLat dLon mask top st e).best_end = st.best_end := by
  simp only [relaxOne]
  split_ifs <;> rfl

theorem relaxEdges_best_end (hv : ℚ → ℚ → ℚ → ℚ → ℚ) (nodes : List NodeT)
    (dLat dLon : ℚ) (mask : Nat) (top : QEntry) (st : SearchState)
    (edges : List EdgeT) :
    (relaxEdges hv nodes dLat dLon mask top st edges).best_end = st.best_end := by
  induction edges generalizing st with
  | nil => rfl
  | cons e es ih =>
    have hstep : relaxEdges hv nodes dLat dLon mask top st (e :: es) =
        relaxEdges hv nodes dLat dLon mask top
          (relaxOne hv nodes dLat dLon mask top st e) es := rfl
    rw [hstep, ih, relaxOne_best_end]

/-- Invariant tying the winner sentinel to a finite `best_total`: when the
best total is finite, `best_end_node` is the direct-walk sentinel `-2` or an
actual node index. -/
def BestEndInv (st : SearchState) : Prop :=
  st.best_total ≠ ⊤ → st.best_end = -2 ∨ 0 ≤ st.best_end

theorem stepPop_bestEndInv (hv : ℚ → ℚ → ℚ → ℚ → ℚ) (nodes : List NodeT)
    (dLat dLon : ℚ) (mask : Nat) (endWalk : List ℚ) (st st1 : SearchState)
    (h : stepPop hv nodes dLat dLon mask endWalk st = some st1)
    (hP : BestEndInv st) : BestEndInv st1 := by
  unfold stepPop at h
  rcases hq : extractMin st.pq with - | ⟨top, rest⟩ <;> rw [hq] at h
  · exact absurd h (by simp)
  simp only [Option.some.injEq] at h
  subst h
  have hrelax : ∀ st2 : SearchState, BestEndInv st2 →
      BestEndInv (relaxEdges hv nodes dLat dLon mask top st2
        (nodes.getD top.u default).outgoing) := by
    intro st2 h2
    unfold BestEndInv
    rw [relaxEdges_best_end, relaxEdges_best_total]
    exact h2
  split_ifs with h1 h2 h3 h4
  · exact hP
  · exact hP
  · exact hrelax _ (fun _ => Or.inr (Int.ofNat_nonneg top.u))
  · exact hrelax _ hP
  · exact hrelax _ hP

theorem runLoop_bestEndInv (hv : ℚ → ℚ → ℚ → ℚ → ℚ) (nodes : List NodeT)
    (dLat dLon : ℚ) (mask : Nat) (endWalk : List ℚ) (fuel : Nat)
    (st : SearchState) (hP : BestEndInv st) :
    BestEndInv (runLoop hv nodes dLat dLon mask endWalk fuel st).1 := by
  induction fuel generalizing st with
  | zero => exact hP
  | succ n ih =>
    rw [runLoop]
    rcases hq : stepPop hv nodes dLat dLon mask endWalk st with - | st1
    · exact hP
    · exact ih st1 (stepPop_bestEndInv hv nodes dLat dLon mask endWalk st st1 hq hP)

theorem seedStart_best_end (hv : ℚ → ℚ → ℚ → ℚ → ℚ) (nodes : List NodeT)
    (dLat dLon : ℚ) (st : SearchState) (sn : Nat × ℚ) :
    (seedStart hv nodes dLat dLon st sn).best_end = st.best_end := rfl

theorem seedFold_best_end (hv : ℚ → ℚ → ℚ → ℚ → ℚ) (nodes : List NodeT)
    (dLat dLon : ℚ) (startNodes : List (Nat × ℚ)) (st : SearchState) :
    (startNodes.foldl (seedStart hv nodes dLat dLon) st).best_end = st.best_end := by
  induction startNodes generalizing st with
  | nil => rfl
  | cons sn rest ih => rw [List.foldl_cons, ih, seedStart_best_end]

/-- Reconstruction branch of C7: after the loop, when the best total is
finite and the winner is not the direct-walk sentinel, the rebuilt segment
list chains from the origin to the destination. -/
theorem runLoop_reconstruction_chain (hv : ℚ → ℚ → ℚ → ℚ → ℚ) (g : GraphT)
    (mask : Nat) (endWalk : List ℚ) (fuel : Nat) (st0 : SearchState)
    (sLat sLon dLat dLon : ℚ) (hI : BestEndInv st0)
    (hT : (runLoop hv g.nodes dLat dLon mask endWalk fuel st0).1.best_total ≠ ⊤)
    (hE : ¬ (runLoop hv g.nodes dLat dLon mask endWalk fuel st0).1.best_end = -2) :
    chainFromB sLat sLon
      (buildSegments g (runLoop hv g.nodes dLat dLon mask endWalk fuel st0).1.info
        (extractPath (runLoop hv g.nodes dLat dLon mask endWalk fuel st0).1.info
          (g.nodes.length + 1)
          (runLoop hv g.nodes dLat dLon mask endWalk fuel st0).1.best_end)
        sLat sLon dLat dLon
        (runLoop hv g.nodes dLat dLon mask endWalk fuel st0).1.best_end)
      dLat dLon = true := by
  have hinv := runLoop_bestEndInv hv g.nodes dLat dLon mask endWalk fuel st0 hI
  have hge : 0 ≤ (runLoop hv g.nodes dLat dLon mask endWalk fuel st0).1.best_end := by
    rcases hinv hT with hm | hge
    · exact absurd hm hE
    · exact hge
  exact buildSegments_chain g _ _ sLat sLon dLat dLon _
    (extractPath_getLast _ g.nodes.length _ (not_lt.mpr hge)).2

/-- C7: for every found route (`totalDuration ≠ ⊤`) returned by
`Pathfinder::FindPath`, the segment list is a nonempty continuous chain:
the first segment starts at the query origin, every later segment starts at
the previous segment's end point, and the last segment ends at the query
destination. -/
theorem C7_segment_continuity (hv : ℚ → ℚ → ℚ → ℚ → ℚ) (fuel : Nat)
    (g : GraphT) (sLat sLon dLat dLon : ℚ) (mask : Nat) (label : String)
    (h : (FindPath hv fuel g sLat sLon dLat dLon mask label).totalDuration ≠ ⊤) :
    (FindPath hv fuel g sLat sLon dLat dLon mask label).segments ≠ [] ∧
    chainFromB sLat sLon
      (FindPath hv fuel g sLat sLon dLat dLon mask label).segments dLat dLon = true := by
  unfold FindPath FindPathAux at h ⊢
  simp only [] at h ⊢
  split_ifs at h ⊢ with hc1 hc2 hc3 hc4 hc5 hc6 hc7
  · exact ⟨by simp, by simp [chainFromB]⟩
  · exact absurd rfl h
  · exact absurd rfl h
  · exact ⟨by simp, by simp [chainFromB]⟩
  · refine ⟨by simp [buildSegments], ?_⟩
    exact runLoop_reconstruction_chain hv g mask _ fuel _ sLat sLon dLat dLon
      (fun _ => Or.inl (by rw [seedFold_best_end])) hc4 hc5
  · exact absurd rfl h
  · exact ⟨by simp, by simp [chainFromB]⟩
  · refine ⟨by simp [buildSegments], ?_⟩
    exact runLoop_reconstruction_chain hv g mask _ fuel _ sLat sLon dLat dLon
      (fun hx => absurd (by rw [seedFold_best_total]) hx) hc6 hc7


/-- Witness for C7 at a concrete input: the direct-walk route on the empty
graph is found and chains from origin to destination. -/
theorem C7_segment_continuity_witness :
    (FindPath (fun _ _ _ _ => (100:ℚ)) 3 emptyGraphT 0 0 0 0 (ANY ||| WALK)
        "optimal").segments ≠ [] ∧
    chainFromB 0 0
      (FindPath (fun _ _ _ _ => (100:ℚ)) 3 emptyGraphT 0 0 0 0 (ANY ||| WALK)
        "optimal").segments 0 0 = true :=
  C7_segment_continuity (fun _ _ _ _ => 100) 3 emptyGraphT 0 0 0 0 (ANY ||| WALK)
    "optimal" (by with_unfolding_all decide)

/-! ### Microbus bidirectionality (C8) -/

theorem pushEdgeAt_length (nodes : List NodeT) (u : Nat) (x : EdgeT) :
    (pushEdgeAt nodes u x).length = nodes.length := by
  unfold pushEdgeAt
  cases h : nodes.get? u with
  | none => rfl
  | some n => exact List.length_set nodes u _

/-- Full characterization of `pushEdgeAt` through `getD`. -/
theorem pushEdgeAt_getD (nodes : List NodeT) (u : Nat) (x : EdgeT) (i : Nat) :
    (pushEdgeAt nodes u x).getD i default =
      if i = u ∧ u < nodes.length then
        { nodes.getD i default with
          outgoing := (nodes.getD i default).outgoing ++ [x] }
      else nodes.getD i default := by
  unfold pushEdgeAt
  cases h : nodes.get? u with
  | none =>
    have hlen : ¬ u < nodes.length := by
      intro hc
      rw [List.get?_eq_getElem?, List.getElem?_eq_getElem hc] at h
      cases h
    rw [if_neg (fun hc => hlen hc.2)]
  | some n =>
    have hlen : u < nodes.length := by
      by_contra hc
      rw [List.get?_eq_getElem?, List.getElem?_eq_none (by omega)] at h
      cases h
    have hn : nodes.getD u default = n := by
      rw [List.getD_eq_getElem?_getD, ← List.get?_eq_getElem?, h]
      rfl
    by_cases hi : i = u
    · subst hi
      rw [if_pos ⟨rfl, hlen⟩]
      rw [List.getD_eq_getElem?_getD, List.getElem?_set_self hlen, hn]
      rfl
    · rw [if_neg (fun hc => hi hc.1)]
      rw [List.getD_eq_getElem?_getD,
        List.getElem?_set_ne (fun hc => hi hc.symm), ← List.getD_eq_getElem?_getD]

/-- Predicate of C8: every `MICROBUS` edge has a reverse edge with identical
weight, trip tag and mode. -/
def MicrobusSym (nodes : List NodeT) : Prop :=
  ∀ (a : Nat), ∀ e ∈ (nodes.getD a default).outgoing, e.mode = MICROBUS →
    ∃ e2 ∈ (nodes.getD e.tgt default).outgoing,
      e2.tgt = a ∧ e2.weight = e.weight ∧ e2.trip_id = e.trip_id ∧
        e2.mode = MICROBUS

/-- Well-formedness of `stop_id_map`: every stored node index is in range
(this is how `Graph::loadStops` populates it). -/
def MapBounded (g : GraphT) : Prop :=
  ∀ p ∈ g.stop_id_map, p.2 < g.nodes.length

theorem lookup_getD_lt (m : List (String × Nat)) (len : Nat) (s : String)
    (hb : ∀ p ∈ m, p.2 < len) (hlen : 0 < len) :
    (List.lookup s m).getD 0 < len := by
  induction m with
  | nil => simpa using hlen
  | cons p rest ih =>
    rw [List.lookup]
    by_cases hc : s = p.1
    · have : (s == p.1) = true := by simpa using hc
      rw [this]
      exact hb p (by simp)
    · have : (s == p.1) = false := by simpa using hc
      rw [this]
      exact ih (fun q hq => hb q (List.mem_cons_of_mem p hq))

/-- Membership survives any `pushEdgeAt`. -/
theorem mem_pushEdgeAt (nodes : List NodeT) (u : Nat) (x : EdgeT) (i : Nat)
    (e : EdgeT) (he : e ∈ (nodes.getD i default).outgoing) :
    e ∈ ((pushEdgeAt nodes u x).getD i default).outgoing := by
  rw [pushEdgeAt_getD]
  split_ifs
  · exact List.mem_append_left _ he
  · exact he

/-- The pushed edge is a member when the index is in range. -/
theorem pushEdgeAt_self (nodes : List NodeT) (u : Nat) (x : EdgeT)
    (h : u < nodes.length) :
    x ∈ ((pushEdgeAt nodes u x).getD u default).outgoing := by
  rw [pushEdgeAt_getD, if_pos ⟨rfl, h⟩]
  exact List.mem_append_right _ (by simp)

/-- Members of the updated list are old members or the pushed edge. -/
theorem mem_pushEdgeAt_elim (nodes : List NodeT) (u : Nat) (x : EdgeT) (i : Nat)
    (e : EdgeT) (he : e ∈ ((pushEdgeAt nodes u x).getD i default).outgoing) :
    e ∈ (nodes.getD i default).outgoing ∨ (i = u ∧ u < nodes.length ∧ e = x) := by
  rw [pushEdgeAt_getD] at he
  split_ifs at he with hc
  · rcases List.mem_append.mp he with h1 | h1
    · exact Or.inl h1
    · exact Or.inr ⟨hc.1, hc.2, by simpa using h1⟩
  · exact Or.inl he

/-- Pushing a non-microbus edge preserves `MicrobusSym`. -/
theorem pushEdgeAt_microbusSym (nodes : List NodeT) (u : Nat) (x : EdgeT)
    (hx : x.mode ≠ MICROBUS) (hs : MicrobusSym nodes) :
    MicrobusSym (pushEdgeAt nodes u x) := by
  intro a e he hm
  rcases mem_pushEdgeAt_elim nodes u x a e he with h1 | ⟨-, -, rfl⟩
  · rcases hs a e h1 hm with ⟨e2, h2, hprop⟩
    exact ⟨e2, mem_pushEdgeAt nodes u x e.tgt e2 h2, hprop⟩
  · exact absurd hm hx

/-- One `transitStep` preserves `MicrobusSym` (the microbus case adds the
two opposite edges together). -/
theorem transitStep_microbusSym (hv : ℚ → ℚ → ℚ → ℚ → ℚ) (g : GraphT)
    (prev curr : StopTimeEntry) (hb : MapBounded g)
    (hs : MicrobusSym g.nodes) :
    MicrobusSym (transitStep hv g prev curr).nodes := by
  unfold transitStep
  simp only []
  split_ifs with htrip hmb
  · -- microbus case: both directions are pushed together
    by_cases hlen : 0 < g.nodes.length
    · have hul : (List.lookup prev.stop_id g.stop_id_map).getD 0 < g.nodes.length :=
        lookup_getD_lt _ _ _ hb hlen
      have hvl : (List.lookup curr.stop_id g.stop_id_map).getD 0 < g.nodes.length :=
        lookup_getD_lt _ _ _ hb hlen
      set u := (List.lookup prev.stop_id g.stop_id_map).getD 0 with hu
      set v := (List.lookup curr.stop_id g.stop_id_map).getD 0 with hvv
      set w := hv (g.nodes.getD u default).lat (g.nodes.getD u default).lon
          (g.nodes.getD v default).lat (g.nodes.getD v default).lon /
          speedFor (tripModeOf g prev.trip_id) + STOP_DWELL_TIME with hw
      set fwd : EdgeT := ⟨v, w, prev.trip_id, tripModeOf g prev.trip_id⟩ with hfwd
      set rev : EdgeT := ⟨u, w, prev.trip_id, tripModeOf g prev.trip_id⟩ with hrev
      set ns1 := pushEdgeAt g.nodes u fwd with hns1
      intro a e he hm
      rcases mem_pushEdgeAt_elim ns1 v rev a e he with h1 | ⟨rfl, -, rfl⟩
      · rcases mem_pushEdgeAt_elim g.nodes u fwd a e h1 with h2 | ⟨rfl, -, rfl⟩
        · rcases hs a e h2 hm with ⟨e2, h3, hprop⟩
          exact ⟨e2, mem_pushEdgeAt ns1 v rev e.tgt e2
            (mem_pushEdgeAt g.nodes u fwd e.tgt e2 h3), hprop⟩
        · -- e is the forward edge: the reverse edge is at v
          refine ⟨rev, ?_, rfl, rfl, rfl, hmb⟩
          show rev ∈ ((pushEdgeAt ns1 v rev).getD fwd.tgt default).outgoing
          have hft : fwd.tgt = v := rfl
          rw [hft]
          exact pushEdgeAt_self ns1 v rev (by rw [hns1, pushEdgeAt_length]; exact hvl)
      · -- e is the reverse edge: the forward edge is at u
        refine ⟨fwd, ?_, rfl, rfl, rfl, hmb⟩
        show fwd ∈ ((pushEdgeAt ns1 v rev).getD rev.tgt default).outgoing
        have hrt : rev.tgt = u := rfl
        rw [hrt]
        exact mem_pushEdgeAt ns1 v rev u fwd (pushEdgeAt_self g.nodes u fwd hul)
    · -- empty node list: both pushes are no-ops
      have h0 : g.nodes = [] := by
        cases hn : g.nodes with
        | nil => rfl
        | cons n rest => rw [hn] at hlen; exact absurd (by simp) hlen
      rw [h0]
      intro a e he hm
      exact absurd he (List.not_mem_nil e)
  · -- non-microbus transit edge
    exact pushEdgeAt_microbusSym g.nodes _ _ hmb hs
  · exact hs


theorem transitStep_length (hv : ℚ → ℚ → ℚ → ℚ → ℚ) (g : GraphT)
    (prev curr : StopTimeEntry) :
    (transitStep hv g prev curr).nodes.length = g.nodes.length := by
  unfold transitStep
  simp only []
  split_ifs <;> simp [pushEdgeAt_length]

theorem transitStep_stop_id_map (hv : ℚ → ℚ → ℚ → ℚ → ℚ) (g : GraphT)
    (prev curr : StopTimeEntry) :
    (transitStep hv g prev curr).stop_id_map = g.stop_id_map := by
  unfold transitStep
  simp only []
  split_ifs <;> rfl

theorem transitStep_mapBounded (hv : ℚ → ℚ → ℚ → ℚ → ℚ) (g : GraphT)
    (prev curr : StopTimeEntry) (hb : MapBounded g) :
    MapBounded (transitStep hv g prev curr) := by
  intro p hp
  rw [transitStep_length]
  rw [transitStep_stop_id_map] at hp
  exact hb p hp

theorem addTransitPairs_microbusSym (hv : ℚ → ℚ → ℚ → ℚ → ℚ) :
    ∀ (entries : List StopTimeEntry) (g : GraphT), MapBounded g →
    MicrobusSym g.nodes → MicrobusSym (addTransitPairs hv g entries).nodes := by
  intro entries
  induction entries with
  | nil => intro g _ hs; exact hs
  | cons e1 rest ih =>
    intro g hb hs
    cases rest with
    | nil => exact hs
    | cons e2 rest2 =>
      rw [addTransitPairs]
      exact ih (transitStep hv g e1 e2) (transitStep_mapBounded hv g e1 e2 hb)
        (transitStep_microbusSym hv g e1 e2 hb hs)

theorem walk_ne_microbus : WALK ≠ MICROBUS := by decide

theorem foldl_preserve {α β : Type} (P : β → Prop) (f : β → α → β)
    (hf : ∀ (b : β) (a : α), P b → P (f b a)) :
    ∀ (l : List α) (b : β), P b → P (l.foldl f b) := by
  intro l
  induction l with
  | nil => intro b hb; exact hb
  | cons x xs ih =>
    intro b hb
    rw [List.foldl_cons]
    exact ih _ (hf b x hb)

theorem sweepCell_microbusSym (hv : ℚ → ℚ → ℚ → ℚ → ℚ) (i : Nat)
    (bucket : List Nat) (nodes : List NodeT) (hs : MicrobusSym nodes) :
    MicrobusSym (sweepCell hv i bucket nodes) := by
  refine foldl_preserve MicrobusSym _ ?_ bucket nodes hs
  intro ns j hsj
  dsimp only
  split_ifs with h1 h2
  · exact hsj
  · exact pushEdgeAt_microbusSym _ _ _ walk_ne_microbus
      (pushEdgeAt_microbusSym _ _ _ walk_ne_microbus hsj)
  · exact hsj

theorem generateTransferEdges_microbusSym (hv : ℚ → ℚ → ℚ → ℚ → ℚ)
    (nodes : List NodeT) (hs : MicrobusSym nodes) :
    MicrobusSym (generateTransferEdges hv nodes) := by
  unfold generateTransferEdges
  refine foldl_preserve MicrobusSym _ ?_ _ nodes hs
  intro ns i hsi
  unfold sweepNode
  refine foldl_preserve MicrobusSym _ ?_ _ ns hsi
  intro ns2 o hso
  exact sweepCell_microbusSym hv i _ ns2 hso

theorem microbusSym_of_no_edges (nodes : List NodeT)
    (h0 : ∀ n ∈ nodes, n.outgoing = []) : MicrobusSym nodes := by
  intro a e he hm
  exfalso
  by_cases ha : a < nodes.length
  · have hmem : nodes.getD a default ∈ nodes := by
      rw [List.getD_eq_getElem _ _ ha]
      exact List.getElem_mem ha
    rw [h0 _ hmem] at he
    exact List.not_mem_nil e he
  · rw [List.getD_eq_default _ _ (by omega)] at he
    exact List.not_mem_nil e he

/-- C8: for every microbus transit edge `a → b` created by the graph
compiler from a consecutive stop-time pair, the reverse edge `b → a` with
identical weight, trip tag and mode is also created: starting from an
edge-free graph with an in-range stop index map, the full build pipeline
yields a microbus-symmetric edge set. -/
theorem C8_microbus_bidirectional (hv : ℚ → ℚ → ℚ → ℚ → ℚ) (g : GraphT)
    (entries : List StopTimeEntry)
    (h0 : ∀ n ∈ g.nodes, n.outgoing = []) (hb : MapBounded g) :
    MicrobusSym (loadPipeline hv g entries).nodes := by
  unfold loadPipeline loadStopTimesE
  exact generateTransferEdges_microbusSym hv _
    (addTransitPairs_microbusSym hv (sortEntries entries) g hb
      (microbusSym_of_no_edges g.nodes h0))

/-- Two-stop microbus feed used by the C8 witness. -/
def gW8 : GraphT :=
  { nodes := [⟨"MB_A", "A", 0, 0, []⟩, ⟨"MB_B", "B", 0, 1, []⟩],
    stop_id_map := [("MB_A", 0), ("MB_B", 1)],
    route_modes := [("R", MICROBUS)],
    trip_routes := [("T", "R")] }

/-- Stop-time entries of the single microbus trip of `gW8`. -/
def entriesW8 : List StopTimeEntry := [⟨"T", "MB_A", 1⟩, ⟨"T", "MB_B", 2⟩]

/-- Witness for C8 at a concrete input: in the built two-stop microbus
graph, the forward edge `0 → 1` has its reverse edge at node 1. -/
theorem C8_microbus_bidirectional_witness :
    ∃ e2 ∈ (((loadPipeline (fun _ _ _ _ => 0) gW8 entriesW8).nodes.getD
        (1 : Nat) default).outgoing),
      e2.tgt = 0 ∧ e2.weight = 30 ∧ e2.trip_id = "T" ∧ e2.mode = MICROBUS :=
  C8_microbus_bidirectional (fun _ _ _ _ => 0) gW8 entriesW8
    (by decide) (by unfold MapBounded; decide) 0 ⟨1, 30, "T", MICROBUS⟩
    (by with_unfolding_all decide) rfl


/-! ### Heuristic admissibility (C3) -/

/-- A chained walk in the graph: the edge list `es` leaves `u`, each edge
belongs to its source node's adjacency list, and the walk ends at `v`. -/
def IsPathFrom (g : GraphT) : Nat → List EdgeT → Nat → Prop
  | u, [], v => u = v
  | u, e :: es, v => e ∈ (g.nodes.getD u default).outgoing ∧ IsPathFrom g e.tgt es v

/-- Realised cost of a walk during the A* search: edge weights plus the
transfer penalties charged by `transferCost`, threading the arrival trip
tag exactly as the relaxation loop does. -/
def realisedCost (arrival : String) : List EdgeT → ℚ
  | [] => 0
  | e :: es => transferCost arrival e + realisedCost e.trip_id es

/-- Every edge's weight is at least the distance between its endpoints
divided by `MAX_SPEED_MPS = 25` (the A* heuristic's speed). -/
def EdgeWeightLB (hv : ℚ → ℚ → ℚ → ℚ → ℚ) (nodes : List NodeT) : Prop :=
  ∀ (u : Nat), ∀ e ∈ (nodes.getD u default).outgoing,
    hv (nodes.getD u default).lat (nodes.getD u default).lon
      (nodes.getD e.tgt default).lat (nodes.getD e.tgt default).lon /
      MAX_SPEED_MPS ≤ e.weight

theorem pushEdgeAt_lat (nodes : List NodeT) (u : Nat) (x : EdgeT) (i : Nat) :
    ((pushEdgeAt nodes u x).getD i default).lat = (nodes.getD i default).lat := by
  rw [pushEdgeAt_getD]
  split_ifs <;> rfl

theorem pushEdgeAt_lon (nodes : List NodeT) (u : Nat) (x : EdgeT) (i : Nat) :
    ((pushEdgeAt nodes u x).getD i default).lon = (nodes.getD i default).lon := by
  rw [pushEdgeAt_getD]
  split_ifs <;> rfl

/-- Arithmetic core of the loader bound: transit weights
`d / speed + STOP_DWELL_TIME` dominate `d / MAX_SPEED_MPS` because every
mode speed is below 25 m/s. -/
theorem transit_weight_lb (d : ℚ) (hd : 0 ≤ d) (mode : Nat) :
    d / MAX_SPEED_MPS ≤ d / speedFor mode + STOP_DWELL_TIME := by
  have h1 : d / MAX_SPEED_MPS ≤ d / speedFor mode := by
    unfold speedFor MAX_SPEED_MPS METRO_SPEED_MPS MICROBUS_SPEED_MPS AVG_BUS_SPEED_MPS
    split_ifs <;>
      exact div_le_div_of_nonneg_left hd (by norm_num) (by norm_num)
  calc d / MAX_SPEED_MPS ≤ d / speedFor mode := h1
    _ ≤ d / speedFor mode + STOP_DWELL_TIME := by
        unfold STOP_DWELL_TIME
        linarith

/-- Walking weights `d / WALK_SPEED_MPS` dominate `d / MAX_SPEED_MPS`. -/
theorem walk_weight_lb (d : ℚ) (hd : 0 ≤ d) :
    d / MAX_SPEED_MPS ≤ d / WALK_SPEED_MPS := by
  unfold MAX_SPEED_MPS WALK_SPEED_MPS
  exact div_le_div_of_nonneg_left hd (by norm_num) (by norm_num)

theorem transitStep_edgeWeightLB (hv : ℚ → ℚ → ℚ → ℚ → ℚ) (g : GraphT)
    (prev curr : StopTimeEntry)
    (hnn : ∀ a b c d, 0 ≤ hv a b c d)
    (hsymm : ∀ a b c d, hv a b c d = hv c d a b)
    (hlb : EdgeWeightLB hv g.nodes) :
    EdgeWeightLB hv (transitStep hv g prev curr).nodes := by
  unfold transitStep
  simp only []
  split_ifs with htrip hmb
  · -- microbus: forward and reverse edges
    set u := (List.lookup prev.stop_id g.stop_id_map).getD 0 with hu
    set v := (List.lookup curr.stop_id g.stop_id_map).getD 0 with hvv
    set d := hv (g.nodes.getD u default).lat (g.nodes.getD u default).lon
        (g.nodes.getD v default).lat (g.nodes.getD v default).lon with hd
    set fwd : EdgeT := ⟨v, d / speedFor (tripModeOf g prev.trip_id) + STOP_DWELL_TIME,
        prev.trip_id, tripModeOf g prev.trip_id⟩ with hfwd
    set rev : EdgeT := ⟨u, d / speedFor (tripModeOf g prev.trip_id) + STOP_DWELL_TIME,
        prev.trip_id, tripModeOf g prev.trip_id⟩ with hrev
    set ns1 := pushEdgeAt g.nodes u fwd with hns1
    intro a e he
    rw [pushEdgeAt_lat, pushEdgeAt_lat, pushEdgeAt_lon, pushEdgeAt_lon,
      pushEdgeAt_lat, pushEdgeAt_lat, pushEdgeAt_lon, pushEdgeAt_lon]
    rcases mem_pushEdgeAt_elim ns1 v rev a e he with h1 | ⟨rfl, -, rfl⟩
    · rcases mem_pushEdgeAt_elim g.nodes u fwd a e h1 with h2 | ⟨rfl, -, rfl⟩
      · exact hlb a e h2
      · show hv _ _ _ _ / MAX_SPEED_MPS ≤ d / speedFor (tripModeOf g prev.trip_id) +
          STOP_DWELL_TIME
        exact transit_weight_lb d (hnn _ _ _ _) _
    · show hv _ _ _ _ / MAX_SPEED_MPS ≤ d / speedFor (tripModeOf g prev.trip_id) +
        STOP_DWELL_TIME
      have hsy : hv (g.nodes.getD v default).lat (g.nodes.getD v default).lon
          (g.nodes.getD u default).lat (g.nodes.getD u default).lon = d := by
        rw [hd]
        exact hsymm _ _ _ _
      rw [hsy]
      exact transit_weight_lb d (hnn _ _ _ _) _
  · -- non-microbus transit edge
    intro a e he
    rw [pushEdgeAt_lat, pushEdgeAt_lat, pushEdgeAt_lon, pushEdgeAt_lon]
    rcases mem_pushEdgeAt_elim g.nodes _ _ a e he with h2 | ⟨rfl, -, rfl⟩
    · exact hlb a e h2
    · exact transit_weight_lb _ (hnn _ _ _ _) _
  · exact hlb

theorem sweepCell_edgeWeightLB (hv : ℚ → ℚ → ℚ → ℚ → ℚ) (i : Nat)
    (bucket : List Nat) (nodes : List NodeT)
    (hnn : ∀ a b c d, 0 ≤ hv a b c d)
    (hsymm : ∀ a b c d, hv a b c d = hv c d a b)
    (hlb : EdgeWeightLB hv nodes) :
    EdgeWeightLB hv (sweepCell hv i bucket nodes) := by
  refine foldl_preserve (EdgeWeightLB hv) _ ?_ bucket nodes hlb
  intro ns j hsj
  dsimp only
  split_ifs with h1 h2
  · exact hsj
  · set d := hv (ns.getD i default).lat (ns.getD i default).lon
        (ns.getD j default).lat (ns.getD j default).lon with hd
    intro a e he
    rw [pushEdgeAt_lat, pushEdgeAt_lat, pushEdgeAt_lon, pushEdgeAt_lon,
      pushEdgeAt_lat, pushEdgeAt_lat, pushEdgeAt_lon, pushEdgeAt_lon]
    rcases mem_pushEdgeAt_elim _ _ _ a e he with hh1 | ⟨rfl, -, rfl⟩
    · rcases mem_pushEdgeAt_elim ns _ _ a e hh1 with hh2 | ⟨rfl, -, rfl⟩
      · exact hsj a e hh2
      · show hv _ _ _ _ / MAX_SPEED_MPS ≤ d / WALK_SPEED_MPS
        exact walk_weight_lb d (hnn _ _ _ _)
    · rw [hsymm]
      exact walk_weight_lb _ (hnn _ _ _ _)
  · exact hsj

theorem pipeline_edgeWeightLB (hv : ℚ → ℚ → ℚ → ℚ → ℚ) (g : GraphT)
    (entries : List StopTimeEntry)
    (hnn : ∀ a b c d, 0 ≤ hv a b c d)
    (hsymm : ∀ a b c d, hv a b c d = hv c d a b)
    (h0 : ∀ n ∈ g.nodes, n.outgoing = []) :
    EdgeWeightLB hv (loadPipeline hv g entries).nodes := by
  have hbase : EdgeWeightLB hv g.nodes := by
    intro a e he
    exfalso
    by_cases ha : a < g.nodes.length
    · have hmem : g.nodes.getD a default ∈ g.nodes := by
        rw [List.getD_eq_getElem _ _ ha]
        exact List.getElem_mem ha
      rw [h0 _ hmem] at he
      exact List.not_mem_nil e he
    · rw [List.getD_eq_default _ _ (by omega)] at he
      exact List.not_mem_nil e he
  have htransit : ∀ (es : List StopTimeEntry) (g2 : GraphT),
      EdgeWeightLB hv g2.nodes → EdgeWeightLB hv (addTransitPairs hv g2 es).nodes := by
    intro es
    induction es with
    | nil => intro g2 h2; exact h2
    | cons e1 rest ih =>
      intro g2 h2
      cases rest with
      | nil => exact h2
      | cons e2 rest2 =>
        rw [addTransitPairs]
        exact ih (transitStep hv g2 e1 e2)
          (transitStep_edgeWeightLB hv g2 e1 e2 hnn hsymm h2)
  unfold loadPipeline loadStopTimesE
  simp only []
  refine foldl_preserve (EdgeWeightLB hv) _ ?_ _ _ (htransit (sortEntries entries) g hbase)
  intro ns i hlbi
  unfold sweepNode
  refine foldl_preserve (EdgeWeightLB hv) _ ?_ _ ns hlbi
  intro ns2 o hso
  exact sweepCell_edgeWeightLB hv i _ ns2 hnn hsymm hso

/-- Weight never exceeds the charged relaxation cost. -/
theorem weight_le_transferCost (arrival : String) (e : EdgeT) :
    e.weight ≤ transferCost arrival e := by
  unfold transferCost
  split_ifs
  · unfold TRANSFER_PENALTY
    linarith
  · exact le_refl _

/-- Admissibility over any graph whose edges satisfy the loader's weight
lower bound: the heuristic never exceeds the realised remaining cost of any
walk plus the final alighting walk. -/
theorem path_admissible (hv : ℚ → ℚ → ℚ → ℚ → ℚ) (g : GraphT) (dLat dLon : ℚ)
    (hnn : ∀ a b c d, 0 ≤ hv a b c d)
    (htri : ∀ a b c d e f, hv a b e f ≤ hv a b c d + hv c d e f)
    (hlb : EdgeWeightLB hv g.nodes) :
    ∀ (es : List EdgeT) (u v : Nat) (arrival : String), IsPathFrom g u es v →
    hv (g.nodes.getD u default).lat (g.nodes.getD u default).lon dLat dLon /
        MAX_SPEED_MPS ≤
      realisedCost arrival es +
        hv (g.nodes.getD v default).lat (g.nodes.getD v default).lon dLat dLon /
          WALK_SPEED_MPS := by
  intro es
  induction es with
  | nil =>
    intro u v arrival hpath
    have huv : u = v := hpath
    subst huv
    rw [realisedCost, zero_add]
    exact walk_weight_lb _ (hnn _ _ _ _)
  | cons e es2 ih =>
    intro u v arrival hpath
    rcases hpath with ⟨hmem, hrest⟩
    have h1 : hv (g.nodes.getD u default).lat (g.nodes.getD u default).lon dLat dLon ≤
        hv (g.nodes.getD u default).lat (g.nodes.getD u default).lon
          (g.nodes.getD e.tgt default).lat (g.nodes.getD e.tgt default).lon +
        hv (g.nodes.getD e.tgt default).lat (g.nodes.getD e.tgt default).lon dLat dLon :=
      htri _ _ _ _ _ _
    have h2 : hv (g.nodes.getD u default).lat (g.nodes.getD u default).lon dLat dLon /
        MAX_SPEED_MPS ≤
        hv (g.nodes.getD u default).lat (g.nodes.getD u default).lon
          (g.nodes.getD e.tgt default).lat (g.nodes.getD e.tgt default).lon /
          MAX_SPEED_MPS +
        hv (g.nodes.getD e.tgt default).lat (g.nodes.getD e.tgt default).lon dLat dLon /
          MAX_SPEED_MPS := by
      rw [div_add_div_same]
      refine (div_le_div_iff_of_pos_right ?_).mpr h1
      unfold MAX_SPEED_MPS
      norm_num
    have h3 : hv (g.nodes.getD u default).lat (g.nodes.getD u default).lon
        (g.nodes.getD e.tgt default).lat (g.nodes.getD e.tgt default).lon /
        MAX_SPEED_MPS ≤ transferCost arrival e :=
      le_trans (hlb u e hmem) (weight_le_transferCost arrival e)
    have h4 := ih e.tgt v e.trip_id hrest
    rw [realisedCost]
    linarith

/-- C3: the A* heuristic `hv(u, dest) / MAX_SPEED_MPS` is admissible on
every graph the loader builds: every built edge's weight is at least its
distance divided by 25 m/s, and along any walk the heuristic never exceeds
the realised remaining cost (edge weights plus transfer penalties plus the
final alighting walk at `WALK_SPEED_MPS`), given that the distance function
is nonnegative, symmetric, and satisfies the triangle inequality (true of
the great-circle haversine). -/
theorem C3_heuristic_admissible (hv : ℚ → ℚ → ℚ → ℚ → ℚ) (g : GraphT)
    (entries : List StopTimeEntry) (dLat dLon : ℚ)
    (hnn : ∀ a b c d, 0 ≤ hv a b c d)
    (hsymm : ∀ a b c d, hv a b c d = hv c d a b)
    (htri : ∀ a b c d e f, hv a b e f ≤ hv a b c d + hv c d e f)
    (h0 : ∀ n ∈ g.nodes, n.outgoing = []) :
    EdgeWeightLB hv (loadPipeline hv g entries).nodes ∧
    (∀ (es : List EdgeT) (u v : Nat) (arrival : String),
      IsPathFrom (loadPipeline hv g entries) u es v →
      hv ((loadPipeline hv g entries).nodes.getD u default).lat
          ((loadPipeline hv g entries).nodes.getD u default).lon dLat dLon /
          MAX_SPEED_MPS ≤
        realisedCost arrival es +
          hv ((loadPipeline hv g entries).nodes.getD v default).lat
            ((loadPipeline hv g entries).nodes.getD v default).lon dLat dLon /
            WALK_SPEED_MPS) := by
  have hlb := pipeline_edgeWeightLB hv g entries hnn hsymm h0
  exact ⟨hlb, fun es u v arrival hpath =>
    path_admissible hv (loadPipeline hv g entries) dLat dLon hnn htri hlb
      es u v arrival hpath⟩

/-- Witness for C3 at a concrete input: the zero distance function (which
is trivially nonnegative, symmetric and triangular) on the two-stop feed,
with the empty walk at node 0. -/
theorem C3_heuristic_admissible_witness :
    EdgeWeightLB (fun _ _ _ _ => 0) (loadPipeline (fun _ _ _ _ => 0) gW8 entriesW8).nodes ∧
    (∀ (es : List EdgeT) (u v : Nat) (arrival : String),
      IsPathFrom (loadPipeline (fun _ _ _ _ => 0) gW8 entriesW8) u es v →
      (fun (_ _ _ _ : ℚ) => (0:ℚ))
          ((loadPipeline (fun _ _ _ _ => 0) gW8 entriesW8).nodes.getD u default).lat
          ((loadPipeline (fun _ _ _ _ => 0) gW8 entriesW8).nodes.getD u default).lon 3 4 /
          MAX_SPEED_MPS ≤
        realisedCost arrival es +
          (fun (_ _ _ _ : ℚ) => (0:ℚ))
            ((loadPipeline (fun _ _ _ _ => 0) gW8 entriesW8).nodes.getD v default).lat
            ((loadPipeline (fun _ _ _ _ => 0) gW8 entriesW8).nodes.getD v default).lon 3 4 /
            WALK_SPEED_MPS) :=
  C3_heuristic_admissible (fun _ _ _ _ => 0) gW8 entriesW8 3 4
    (fun _ _ _ _ => le_refl 0) (fun _ _ _ _ => rfl)
    (fun _ _ _ _ _ _ => by norm_num) (by decide)


/-! ### Mode isolation (C4) -/

/-- Generic pointwise characterization of `List.set` through `getD`. -/
theorem getD_set {α : Type} (l : List α) (x : Nat) (a : α) (v : Nat) (d : α) :
    (l.set x a).getD v d = if v = x ∧ x < l.length then a else l.getD v d := by
  by_cases hx : x < l.length
  · by_cases hvx : v = x
    · subst hvx
      rw [if_pos ⟨rfl, hx⟩, List.getD_eq_getElem?_getD, List.getElem?_set_self hx]
      rfl
    · rw [if_neg (fun hc => hvx hc.1), List.getD_eq_getElem?_getD,
        List.getElem?_set_ne (fun hc => hvx hc.symm), ← List.getD_eq_getElem?_getD]
  · rw [if_neg (fun hc => hx hc.2), List.set_eq_of_length_le (by omega)]

/-- The node `v` has been reached: its stored `g_score` is finite. -/
def FiniteAt (info : List PathInfoT) (v : Nat) : Prop :=
  (info.getD v initInfo).g_score ≠ ⊤

/-- The trip tag is `"WALK"` or the tag of some edge that passes the mode
mask — the only tags the A* loop ever records. -/
def TagOK (nodes : List NodeT) (mask : Nat) (tag : String) : Prop :=
  tag = "WALK" ∨ ∃ (u : Nat), ∃ e ∈ (nodes.getD u default).outgoing,
    e.trip_id = tag ∧ e.mode &&& mask ≠ 0

/-- Invariant of the `info` array: reached nodes carry an admissible trip
tag, and parent pointers are in-range indices of reached nodes. -/
def InfoOK (nodes : List NodeT) (mask : Nat) (info : List PathInfoT) : Prop :=
  ∀ (v : Nat),
    (FiniteAt info v → TagOK nodes mask (info.getD v initInfo).trip_id) ∧
    ((info.getD v initInfo).parent ≠ -1 →
      0 ≤ (info.getD v initInfo).parent ∧
      FiniteAt info (info.getD v initInfo).parent.toNat)

theorem finiteAt_set (info : List PathInfoT) (x : Nat) (pi : PathInfoT)
    (hpi : pi.g_score ≠ ⊤) (w : Nat) (h : FiniteAt info w) :
    FiniteAt (info.set x pi) w := by
  unfold FiniteAt at h ⊢
  rw [getD_set]
  split_ifs
  · exact hpi
  · exact h

/-- Writing a finite entry whose tag and parent are admissible preserves
`InfoOK`. -/
theorem infoOK_set (nodes : List NodeT) (mask : Nat) (info : List PathInfoT)
    (x : Nat) (pi : PathInfoT) (hOK : InfoOK nodes mask info)
    (hfin : pi.g_score ≠ ⊤)
    (htag : TagOK nodes mask pi.trip_id)
    (hpar : pi.parent ≠ -1 → 0 ≤ pi.parent ∧ FiniteAt info pi.parent.toNat) :
    InfoOK nodes mask (info.set x pi) := by
  intro v
  constructor
  · intro hf
    rw [getD_set]
    rw [FiniteAt, getD_set] at hf
    split_ifs with hc
    · exact htag
    · rw [if_neg hc] at hf
      exact (hOK v).1 hf
  · rw [getD_set]
    split_ifs with hc
    · intro hne
      exact ⟨(hpar hne).1, finiteAt_set info x pi hfin _ (hpar hne).2⟩
    · intro hne
      exact ⟨((hOK v).2 hne).1, finiteAt_set info x pi hfin _ ((hOK v).2 hne).2⟩

/-- Edge targets are in-range node indices (true of loader-built graphs;
out-of-range targets would be undefined behaviour in the C++ source). -/
def EdgesValid (nodes : List NodeT) : Prop :=
  ∀ (u : Nat), ∀ e ∈ (nodes.getD u default).outgoing, e.tgt < nodes.length

/-- Queue invariant: every queued entry's node already stores a `g_score`
at most the entry's (pushes write `info` and later updates only lower it). -/
def QInv (info : List PathInfoT) (pq : List QEntry) : Prop :=
  ∀ q ∈ pq, (info.getD q.u initInfo).g_score ≤ (q.g_score : WithTop ℚ)

/-- Invariant of the whole search state. -/
def SearchInv (nodes : List NodeT) (mask : Nat) (st : SearchState) : Prop :=
  st.info.length = nodes.length ∧
  InfoOK nodes mask st.info ∧
  (0 ≤ st.best_end → FiniteAt st.info st.best_end.toNat) ∧
  QInv st.info st.pq

theorem extractMin_none : ∀ (l : List QEntry), extractMin l = none → l = [] := by
  intro l h
  cases l with
  | nil => rfl
  | cons x xs =>
    rw [extractMin] at h
    split at h
    · exact Option.noConfusion h
    · split_ifs at h

theorem extractMin_perm : ∀ (l : List QEntry) (top : QEntry) (rest : List QEntry),
    extractMin l = some (top, rest) → l.Perm (top :: rest) := by
  intro l
  induction l with
  | nil => intro top rest h; cases h
  | cons x xs ih =>
    intro top rest h
    rw [extractMin] at h
    split at h
    next hnone =>
      obtain ⟨rfl, rfl⟩ : x = top ∧ [] = rest := by
        simpa using h
      rw [extractMin_none xs hnone]
    next m r2 hsome =>
      split_ifs at h with hle
      · obtain ⟨rfl, rfl⟩ : x = top ∧ xs = rest := by simpa using h
        exact List.Perm.refl _
      · obtain ⟨rfl, rfl⟩ : m = top ∧ x :: r2 = rest := by simpa using h
        exact List.Perm.trans (List.Perm.cons x (ih m r2 hsome))
          (List.Perm.swap m x r2)

theorem extractMin_mem (l : List QEntry) (top : QEntry) (rest : List QEntry)
    (h : extractMin l = some (top, rest)) :
    top ∈ l ∧ (∀ q ∈ rest, q ∈ l) ∧ l.length = rest.length + 1 := by
  have hp := extractMin_perm l top rest h
  refine ⟨hp.mem_iff.mpr (by simp), fun q hq => hp.mem_iff.mpr (by simp [hq]), ?_⟩
  rw [hp.length_eq]
  rfl

theorem relaxOne_searchInv (hv : ℚ → ℚ → ℚ → ℚ → ℚ) (nodes : List NodeT)
    (dLat dLon : ℚ) (mask : Nat) (top : QEntry) (st : SearchState) (e : EdgeT)
    (u0 : Nat) (hmem : e ∈ (nodes.getD u0 default).outgoing)
    (hval : EdgesValid nodes)
    (htop : FiniteAt st.info top.u) (hInv : SearchInv nodes mask st) :
    SearchInv nodes mask (relaxOne hv nodes dLat dLon mask top st e) ∧
      FiniteAt (relaxOne hv nodes dLat dLon mask top st e).info top.u := by
  obtain ⟨hlen, hOK, hbe, hq⟩ := hInv
  simp only [relaxOne]
  split_ifs with h1 h2
  · exact ⟨⟨hlen, hOK, hbe, hq⟩, htop⟩
  · have htgt : e.tgt < st.info.length := by
      rw [hlen]
      exact hval u0 e hmem
    refine ⟨⟨?_, ?_, ?_, ?_⟩, ?_⟩
    · rw [List.length_set]
      exact hlen
    · refine infoOK_set nodes mask st.info e.tgt _ hOK WithTop.coe_ne_top
        (Or.inr ⟨u0, e, hmem, rfl, h1⟩) ?_
      intro hne
      exact ⟨Int.ofNat_nonneg top.u, htop⟩
    · intro hb
      exact finiteAt_set st.info e.tgt _ WithTop.coe_ne_top _ (hbe hb)
    · intro q hqmem
      rcases List.mem_append.mp hqmem with hold | hnew
      · have hq1 := hq q hold
        rw [getD_set]
        split_ifs with hc
        · rcases hc with ⟨hc1, -⟩
          rw [hc1] at hq1
          exact le_trans (le_of_lt h2.1) hq1
        · exact hq1
      · have hq2 : q = ⟨e.tgt, top.g_score + transferCost top.arrival_trip_id e,
            top.g_score + transferCost top.arrival_trip_id e +
              heuristicOf hv nodes dLat dLon e.tgt, e.trip_id⟩ := by
          simpa using hnew
        subst hq2
        rw [getD_set, if_pos ⟨rfl, htgt⟩]
    · exact finiteAt_set st.info e.tgt _ WithTop.coe_ne_top _ htop
  · exact ⟨⟨hlen, hOK, hbe, hq⟩, htop⟩

theorem relaxEdges_searchInv (hv : ℚ → ℚ → ℚ → ℚ → ℚ) (nodes : List NodeT)
    (dLat dLon : ℚ) (mask : Nat) (top : QEntry) (u0 : Nat)
    (hval : EdgesValid nodes) :
    ∀ (edges : List EdgeT) (st : SearchState),
    (∀ e ∈ edges, e ∈ (nodes.getD u0 default).outgoing) →
    FiniteAt st.info top.u → SearchInv nodes mask st →
    SearchInv nodes mask (relaxEdges hv nodes dLat dLon mask top st edges) := by
  intro edges
  induction edges with
  | nil => intro st _ _ hInv; exact hInv
  | cons e es ih =>
    intro st hsub htop hInv
    have hstep : relaxEdges hv nodes dLat dLon mask top st (e :: es) =
        relaxEdges hv nodes dLat dLon mask top
          (relaxOne hv nodes dLat dLon mask top st e) es := rfl
    rw [hstep]
    have h := relaxOne_searchInv hv nodes dLat dLon mask top st e u0
      (hsub e (by simp)) hval htop hInv
    exact ih _ (fun e2 he2 => hsub e2 (List.mem_cons_of_mem e he2)) h.2 h.1

theorem stepPop_searchInv (hv : ℚ → ℚ → ℚ → ℚ → ℚ) (nodes : List NodeT)
    (dLat dLon : ℚ) (mask : Nat) (endWalk : List ℚ) (st st1 : SearchState)
    (hval : EdgesValid nodes)
    (h : stepPop hv nodes dLat dLon mask endWalk st = some st1)
    (hInv : SearchInv nodes mask st) : SearchInv nodes mask st1 := by
  unfold stepPop at h
  rcases hq : extractMin st.pq with - | ⟨top, rest⟩ <;> rw [hq] at h
  · exact absurd h (by simp)
  simp only [Option.some.injEq] at h
  subst h
  obtain ⟨hlen, hOK, hbe, hqi⟩ := hInv
  have hmemq := extractMin_mem st.pq top rest hq
  have hrest : QInv st.info rest := fun q hq2 => hqi q (hmemq.2.1 q hq2)
  have hInv1 : SearchInv nodes mask { st with pq := rest } :=
    ⟨hlen, hOK, hbe, hrest⟩
  split_ifs with h1 h2 h3 h4
  · exact hInv1
  · exact hInv1
  · have htop : FiniteAt st.info top.u :=
      ne_top_of_le_ne_top WithTop.coe_ne_top (hqi top hmemq.1)
    refine relaxEdges_searchInv hv nodes dLat dLon mask top top.u hval _ _
      (fun e2 he2 => he2) htop ?_
    exact ⟨hlen, hOK, fun _ => htop, hrest⟩
  · have htop : FiniteAt st.info top.u :=
      ne_top_of_le_ne_top WithTop.coe_ne_top (hqi top hmemq.1)
    exact relaxEdges_searchInv hv nodes dLat dLon mask top top.u hval _ _
      (fun e2 he2 => he2) htop hInv1
  · have htop : FiniteAt st.info top.u :=
      ne_top_of_le_ne_top WithTop.coe_ne_top (hqi top hmemq.1)
    exact relaxEdges_searchInv hv nodes dLat dLon mask top top.u hval _ _
      (fun e2 he2 => he2) htop hInv1

theorem runLoop_searchInv (hv : ℚ → ℚ → ℚ → ℚ → ℚ) (nodes : List NodeT)
    (dLat dLon : ℚ) (mask : Nat) (endWalk : List ℚ) (fuel : Nat)
    (st : SearchState) (hval : EdgesValid nodes)
    (hInv : SearchInv nodes mask st) :
    SearchInv nodes mask (runLoop hv nodes dLat dLon mask endWalk fuel st).1 := by
  induction fuel generalizing st with
  | zero => exact hInv
  | succ n ih =>
    rw [runLoop]
    rcases hq : stepPop hv nodes dLat dLon mask endWalk st with - | st1
    · exact hInv
    · exact ih st1 (stepPop_searchInv hv nodes dLat dLon mask endWalk st st1 hval hq hInv)

/-- Seeding a pairwise-distinct, in-range boarding list establishes the
search invariant from the initial state. -/
theorem seedFold_searchInv (hv : ℚ → ℚ → ℚ → ℚ → ℚ) (nodes : List NodeT)
    (dLat dLon : ℚ) (mask : Nat) :
    ∀ (sns : List (Nat × ℚ)) (st : SearchState),
    (∀ sn ∈ sns, sn.1 < nodes.length) →
    List.Pairwise (fun a b : Nat × ℚ => a.1 ≠ b.1) sns →
    (∀ q ∈ st.pq, ∀ sn ∈ sns, q.u ≠ sn.1) →
    SearchInv nodes mask st →
    SearchInv nodes mask (sns.foldl (seedStart hv nodes dLat dLon) st) := by
  intro sns
  induction sns with
  | nil => intro st _ _ _ hInv; exact hInv
  | cons sn rest ih =>
    intro st hrange hpw hdisj hInv
    obtain ⟨hlen, hOK, hbe, hqi⟩ := hInv
    rw [List.foldl_cons]
    have hsn : sn.1 < nodes.length := hrange sn (by simp)
    refine ih _ (fun s hs => hrange s (List.mem_cons_of_mem sn hs))
      (List.Pairwise.of_cons hpw) ?_ ?_
    · -- disjointness of the grown queue from the remaining seeds
      intro q hqmem s hs
      unfold seedStart at hqmem
      rcases List.mem_append.mp hqmem with hold | hnew
      · exact hdisj q hold s (List.mem_cons_of_mem sn hs)
      · have : q.u = sn.1 := by
          have hq2 : q = ⟨sn.1, sn.2 / WALK_SPEED_MPS, sn.2 / WALK_SPEED_MPS +
              heuristicOf hv nodes dLat dLon sn.1, "WALK"⟩ := by simpa using hnew
          rw [hq2]
        rw [this]
        exact (List.rel_of_pairwise_cons hpw hs)
    · -- the one-step invariant
      unfold seedStart
      refine ⟨?_, ?_, ?_, ?_⟩
      · rw [List.length_set]
        exact hlen
      · refine infoOK_set nodes mask st.info sn.1 _ hOK WithTop.coe_ne_top
          (Or.inl rfl) ?_
        intro hc
        exact absurd rfl hc
      · intro hb
        exact finiteAt_set st.info sn.1 _ WithTop.coe_ne_top _ (hbe hb)
      · intro q hqmem
        rcases List.mem_append.mp hqmem with hold | hnew
        · have hne : q.u ≠ sn.1 := hdisj q hold sn (by simp)
          have hq1 := hqi q hold
          rw [getD_set, if_neg (fun hc => hne hc.1)]
          exact hq1
        · have hq2 : q = ⟨sn.1, sn.2 / WALK_SPEED_MPS, sn.2 / WALK_SPEED_MPS +
              heuristicOf hv nodes dLat dLon sn.1, "WALK"⟩ := by simpa using hnew
          subst hq2
          rw [getD_set, if_pos ⟨rfl, by rw [hlen]; exact hsn⟩]


/-- Every node of the extracted path has been reached (finite `g_score`),
assuming the parent clauses of `InfoOK`. -/
theorem extractPath_finite (info : List PathInfoT)
    (hpar : ∀ (v : Nat), (info.getD v initInfo).parent ≠ -1 →
      0 ≤ (info.getD v initInfo).parent ∧
      FiniteAt info (info.getD v initInfo).parent.toNat) :
    ∀ (fuel : Nat) (curr : Int), ¬ curr < 0 → FiniteAt info curr.toNat →
    ∀ x ∈ extractPath info fuel curr, FiniteAt info x := by
  intro fuel
  induction fuel with
  | zero => intro curr _ _ x hx; cases hx
  | succ n ih =>
    intro curr hneg hfin x hx
    rw [extractPath, if_neg hneg] at hx
    rcases List.mem_append.mp hx with hx1 | hx2
    · by_cases hpc : (info.getD curr.toNat initInfo).parent = -1
      · -- the recursive call starts at -1 and yields []
        rw [hpc] at hx1
        cases n with
        | zero => cases hx1
        | succ n2 =>
          rw [extractPath, if_pos (by norm_num)] at hx1
          cases hx1
      · have h2 := hpar curr.toNat hpc
        exact ih _ (not_lt.mpr h2.1) h2.2 x hx1
    · have : x = curr.toNat := by simpa using hx2
      rw [this]
      exact hfin

theorem ite_some_elim {α : Type} (c : Prop) [Decidable c] (a b : α)
    (h : (if c then some a else none) = some b) : b = a ∧ c := by
  by_cases hc : c
  · rw [if_pos hc] at h
    exact ⟨(Option.some.inj h).symm, hc⟩
  · rw [if_neg hc] at h
    exact absurd h (by simp)

/-- Nodes returned by the modelled radius query are in-range. -/
theorem getNodesWithinRadius_lt (hv : ℚ → ℚ → ℚ → ℚ → ℚ) (nodes : List NodeT)
    (lat lon radius : ℚ) (mask : Nat) :
    ∀ sn ∈ getNodesWithinRadius hv nodes lat lon radius mask,
      sn.1 < nodes.length := by
  intro sn hsn
  unfold getNodesWithinRadius at hsn
  rcases List.mem_filterMap.mp hsn with ⟨i, hi, hf⟩
  have hrange := List.mem_range.mp hi
  obtain ⟨rfl, -⟩ := ite_some_elim _ _ _ hf
  exact hrange

/-- Nodes returned by the modelled radius query are pairwise distinct. -/
theorem getNodesWithinRadius_pairwise (hv : ℚ → ℚ → ℚ → ℚ → ℚ)
    (nodes : List NodeT) (lat lon radius : ℚ) (mask : Nat) :
    List.Pairwise (fun a b : Nat × ℚ => a.1 ≠ b.1)
      (getNodesWithinRadius hv nodes lat lon radius mask) := by
  unfold getNodesWithinRadius
  refine List.Pairwise.filterMap _ ?_ (List.pairwise_lt_range nodes.length)
  intro a b hab x hx y hy
  obtain ⟨rfl, -⟩ := ite_some_elim _ _ _ hx
  obtain ⟨rfl, -⟩ := ite_some_elim _ _ _ hy
  exact fun hc => absurd hc (Nat.ne_of_lt hab)

/-- The retry loop returns candidate lists that are in-range and pairwise
distinct (either empty or one of the radius-query results). -/
theorem pickCandidates_props (hv : ℚ → ℚ → ℚ → ℚ → ℚ) (nodes : List NodeT)
    (sLat sLon dLat dLon : ℚ) (mask : Nat) (radii : List ℚ) :
    ((∀ sn ∈ (pickCandidates hv nodes sLat sLon dLat dLon mask radii).1,
        sn.1 < nodes.length) ∧
      List.Pairwise (fun a b : Nat × ℚ => a.1 ≠ b.1)
        (pickCandidates hv nodes sLat sLon dLat dLon mask radii).1) ∧
    ((∀ sn ∈ (pickCandidates hv nodes sLat sLon dLat dLon mask radii).2,
        sn.1 < nodes.length) ∧
      List.Pairwise (fun a b : Nat × ℚ => a.1 ≠ b.1)
        (pickCandidates hv nodes sLat sLon dLat dLon mask radii).2) := by
  unfold pickCandidates
  refine foldl_preserve (fun acc : List (Nat × ℚ) × List (Nat × ℚ) =>
    ((∀ sn ∈ acc.1, sn.1 < nodes.length) ∧
      List.Pairwise (fun a b : Nat × ℚ => a.1 ≠ b.1) acc.1) ∧
    ((∀ sn ∈ acc.2, sn.1 < nodes.length) ∧
      List.Pairwise (fun a b : Nat × ℚ => a.1 ≠ b.1) acc.2)) _ ?_ radii ([], [])
    (by simp)
  intro acc r hacc
  dsimp only
  split_ifs
  · exact hacc
  · exact ⟨⟨getNodesWithinRadius_lt hv nodes sLat sLon r mask,
      getNodesWithinRadius_pairwise hv nodes sLat sLon r mask⟩,
      ⟨getNodesWithinRadius_lt hv nodes dLat dLon r mask,
      getNodesWithinRadius_pairwise hv nodes dLat dLon r mask⟩⟩

theorem getD_replicate (n : Nat) (a : PathInfoT) (v : Nat) :
    (List.replicate n a).getD v a = a := by
  rw [List.getD_eq_getElem?_getD, List.getElem?_replicate]
  split_ifs <;> rfl


/-- Build-time consistency of edge modes: a walking edge is tagged `"WALK"`
with mode `WALK`, and a transit edge's recorded mode is exactly what
`loadStopTimes` computed from the (immutable) lookup tables. -/
def EdgeModeConsistent (g : GraphT) : Prop :=
  ∀ (u : Nat), ∀ e ∈ (g.nodes.getD u default).outgoing,
    (e.trip_id = "WALK" ∧ e.mode = WALK) ∨
    (e.trip_id ≠ "WALK" ∧ e.mode = tripModeOf g e.trip_id)

/-- The `route_modes` table only holds the three transit modes, as
`loadRoutes` populates it. -/
def RouteModesValid (g : GraphT) : Prop :=
  ∀ p ∈ g.route_modes, p.2 = METRO ∨ p.2 = BUS ∨ p.2 = MICROBUS

theorem lookup_mem_pair {β : Type} (m : List (String × β)) (s : String) (v : β)
    (h : List.lookup s m = some v) : (s, v) ∈ m := by
  induction m with
  | nil => cases h
  | cons p rest ih =>
    rcases p with ⟨k, pv⟩
    rw [List.lookup] at h
    cases hbe : (s == k) with
    | false =>
      rw [hbe] at h
      exact List.mem_cons_of_mem _ (ih h)
    | true =>
      rw [hbe] at h
      have hs : s = k := eq_of_beq hbe
      have hval : pv = v := Option.some.inj h
      rw [hs, hval]
      exact List.mem_cons_self _ _

/-- Any trip tag the masked search can record resolves to `"walking"`, the
selected mode's label, or `"unknown"`. -/
theorem tag_method (g : GraphT) (M : Nat) (tag : String)
    (hM : M = METRO ∨ M = BUS ∨ M = MICROBUS)
    (hcons : EdgeModeConsistent g) (hrv : RouteModesValid g)
    (ht : TagOK g.nodes (M ||| WALK) tag) :
    getTripMode g tag = "walking" ∨ getTripMode g tag = modeToString M ∨
      getTripMode g tag = "unknown" := by
  rcases ht with rfl | ⟨u, e, hmem, rfl, hmask⟩
  · left
    rfl
  · rcases hcons u e hmem with ⟨hw, -⟩ | ⟨hnw, hmode⟩
    · rw [hw]
      left
      rfl
    · unfold getTripMode
      rw [if_neg hnw]
      unfold tripModeOf at hmode
      rcases hl1 : List.lookup e.trip_id g.trip_routes with - | r
      · right
        right
        rfl
      · rw [hl1] at hmode
        rcases hl2 : List.lookup r g.route_modes with - | m
        · right
          right
          simp only [hl2]
        · simp only [hl2] at hmode
          have hm2 : e.mode = m := hmode
          have hmv := hrv (r, m) (lookup_mem_pair _ _ _ hl2)
          rw [hm2] at hmask
          rcases hmv with rfl | rfl | rfl <;> rcases hM with rfl | rfl | rfl <;>
            first
              | (right; left; simp only [hl2]; done)
              | exact absurd (by decide) hmask

/-- Every segment the grouping loop emits carries the method of a recorded
trip tag, so is `"walking"`, the selected mode's label, or `"unknown"`. -/
theorem groupGo_methods (g : GraphT) (M : Nat) (info : List PathInfoT)
    (hM : M = METRO ∨ M = BUS ∨ M = MICROBUS)
    (hcons : EdgeModeConsistent g) (hrv : RouteModesValid g) :
    ∀ (l : List Nat) (s k : Nat),
    (∀ v ∈ l, TagOK g.nodes (M ||| WALK) (info.getD v initInfo).trip_id) →
    ∀ seg ∈ groupGo g info s k l,
      seg.method = "walking" ∨ seg.method = modeToString M ∨
        seg.method = "unknown" := by
  intro l
  induction l with
  | nil => intro s k _ seg hseg; cases hseg
  | cons v rest ih =>
    intro s k htags seg hseg
    rw [groupGo.eq_def] at hseg
    simp only [] at hseg
    split_ifs at hseg with hc
    · rcases List.mem_cons.mp hseg with rfl | hseg2
      · exact tag_method g M _ hM hcons hrv (htags v (by simp))
      · exact ih v 1 (fun w hw => htags w (List.mem_cons_of_mem v hw)) seg hseg2
    · exact ih s (k + 1) (fun w hw => htags w (List.mem_cons_of_mem v hw)) seg hseg

/-- Reconstruction branch of C4: after the loop, every rebuilt segment's
method is `"walking"`, the selected mode's label, or `"unknown"`. -/
theorem runLoop_reconstruction_methods (hv : ℚ → ℚ → ℚ → ℚ → ℚ) (g : GraphT)
    (M : Nat) (endWalk : List ℚ) (fuel : Nat) (st0 : SearchState)
    (sLat sLon dLat dLon : ℚ)
    (hM : M = METRO ∨ M = BUS ∨ M = MICROBUS)
    (hcons : EdgeModeConsistent g) (hrv : RouteModesValid g)
    (hval : EdgesValid g.nodes)
    (hI : BestEndInv st0) (hSI : SearchInv g.nodes (M ||| WALK) st0)
    (hT : (runLoop hv g.nodes dLat dLon (M ||| WALK) endWalk fuel st0).1.best_total ≠ ⊤)
    (hE : ¬ (runLoop hv g.nodes dLat dLon (M ||| WALK) endWalk fuel st0).1.best_end = -2) :
    ∀ seg ∈ buildSegments g
      (runLoop hv g.nodes dLat dLon (M ||| WALK) endWalk fuel st0).1.info
      (extractPath (runLoop hv g.nodes dLat dLon (M ||| WALK) endWalk fuel st0).1.info
        (g.nodes.length + 1)
        (runLoop hv g.nodes dLat dLon (M ||| WALK) endWalk fuel st0).1.best_end)
      sLat sLon dLat dLon
      (runLoop hv g.nodes dLat dLon (M ||| WALK) endWalk fuel st0).1.best_end,
      seg.method = "walking" ∨ seg.method = modeToString M ∨
        seg.method = "unknown" := by
  have hSIF := runLoop_searchInv hv g.nodes dLat dLon (M ||| WALK) endWalk fuel
    st0 hval hSI
  have hinv := runLoop_bestEndInv hv g.nodes dLat dLon (M ||| WALK) endWalk fuel
    st0 hI
  have hge : 0 ≤ (runLoop hv g.nodes dLat dLon (M ||| WALK) endWalk fuel
      st0).1.best_end := by
    rcases hinv hT with hm | hge
    · exact absurd hm hE
    · exact hge
  obtain ⟨hlen, hOK, hbe, hqi⟩ := hSIF
  have htagAll : ∀ x ∈ extractPath
      (runLoop hv g.nodes dLat dLon (M ||| WALK) endWalk fuel st0).1.info
      (g.nodes.length + 1)
      (runLoop hv g.nodes dLat dLon (M ||| WALK) endWalk fuel st0).1.best_end,
      TagOK g.nodes (M ||| WALK)
        (((runLoop hv g.nodes dLat dLon (M ||| WALK) endWalk fuel
          st0).1.info).getD x initInfo).trip_id := by
    intro x hx
    have hfin := extractPath_finite _ (fun v => (hOK v).2) (g.nodes.length + 1)
      _ (not_lt.mpr hge) (hbe hge) x hx
    exact (hOK x).1 hfin
  intro seg hseg
  unfold buildSegments at hseg
  simp only [] at hseg
  rcases List.mem_cons.mp hseg with rfl | hseg1
  · left
    rfl
  rcases List.mem_append.mp hseg1 with hmid | hlast
  · rcases hp : extractPath
        (runLoop hv g.nodes dLat dLon (M ||| WALK) endWalk fuel st0).1.info
        (g.nodes.length + 1)
        (runLoop hv g.nodes dLat dLon (M ||| WALK) endWalk fuel st0).1.best_end
      with - | ⟨x, - | ⟨y, rest⟩⟩ <;> rw [hp] at hmid htagAll
    · cases hmid
    · cases hmid
    · exact groupGo_methods g M _ hM hcons hrv (y :: rest) x 1
        (fun w hw => htagAll w (List.mem_cons_of_mem x hw)) seg hmid
  · obtain rfl := List.mem_singleton.mp hlast
    left
    rfl

/-- C4, amended: with mask `M ||| WALK` for a transit mode `M`, on a graph
whose edge modes are build-consistent, whose `route_modes` table holds only
transit modes, and whose edge targets are in range, every segment of the
result has method `"walking"`, `modeToString M`, or `"unknown"` — the
spec's claim that every non-walking segment shows `modeToString M` fails
because trips absent from the lookup tables are labelled `"unknown"`. -/
theorem C4_mode_isolation_amended (hv : ℚ → ℚ → ℚ → ℚ → ℚ) (fuel : Nat)
    (g : GraphT) (sLat sLon dLat dLon : ℚ) (M : Nat) (label : String)
    (hM : M = METRO ∨ M = BUS ∨ M = MICROBUS)
    (hcons : EdgeModeConsistent g) (hrv : RouteModesValid g)
    (hval : EdgesValid g.nodes) :
    ∀ seg ∈ (FindPath hv fuel g sLat sLon dLat dLon (M ||| WALK)
        label).segments,
      seg.method = "walking" ∨ seg.method = modeToString M ∨
        seg.method = "unknown" := by
  have hprops := pickCandidates_props hv g.nodes sLat sLon dLat dLon
    (M ||| WALK) [MAX_WALK_DISTANCE, 2500, 4000, 6000]
  unfold FindPath FindPathAux
  simp only []
  split_ifs with hc1 hc2 hc3 hc4 hc5 hc6 hc7
  all_goals intro seg hseg
  · have : seg = ⟨sLon, sLat, "Origin", dLon, dLat, "Destination",
        "walking", 0⟩ := by simpa using hseg
    rw [this]
    left
    rfl
  · cases hseg
  · cases hseg
  · have : seg = ⟨sLon, sLat, "Origin", dLon, dLat, "Destination",
        "walking", 0⟩ := by simpa using hseg
    rw [this]
    left
    rfl
  · refine runLoop_reconstruction_methods hv g M _ fuel _ sLat sLon dLat dLon
      hM hcons hrv hval (fun _ => Or.inl (by rw [seedFold_best_end])) ?_
      hc4 hc5 seg hseg
    refine seedFold_searchInv hv g.nodes dLat dLon (M ||| WALK) _ _
      hprops.1.1 hprops.1.2 (fun q hq => absurd hq (by simp)) ?_
    refine ⟨List.length_replicate _ _, ?_, ?_, fun q hq => absurd hq (by simp)⟩
    · intro v
      rw [getD_replicate]
      refine ⟨fun hf => ?_, fun hp => absurd rfl hp⟩
      unfold FiniteAt at hf
      rw [getD_replicate] at hf
      exact absurd rfl hf
    · intro hb
      have hb2 : (0 : Int) ≤ -2 := hb
      exact absurd hb2 (by decide)
  · cases hseg
  · have : seg = ⟨sLon, sLat, "Origin", dLon, dLat, "Destination",
        "walking", 0⟩ := by simpa using hseg
    rw [this]
    left
    rfl
  · refine runLoop_reconstruction_methods hv g M _ fuel _ sLat sLon dLat dLon
      hM hcons hrv hval (fun hx => absurd (by rw [seedFold_best_total]) hx) ?_
      hc6 hc7 seg hseg
    refine seedFold_searchInv hv g.nodes dLat dLon (M ||| WALK) _ _
      hprops.1.1 hprops.1.2 (fun q hq => absurd hq (by simp)) ?_
    refine ⟨List.length_replicate _ _, ?_, ?_, fun q hq => absurd hq (by simp)⟩
    · intro v
      rw [getD_replicate]
      refine ⟨fun hf => ?_, fun hp => absurd rfl hp⟩
      unfold FiniteAt at hf
      rw [getD_replicate] at hf
      exact absurd rfl hf
    · intro hb
      have hb2 : (0 : Int) ≤ -1 := hb
      exact absurd hb2 (by decide)

/-- Taxicab-style computable stand-in distance used for the concrete runs:
`(|dLat| + |dLon|) * 1000` meters. -/
def hvC4 : ℚ → ℚ → ℚ → ℚ → ℚ := fun lat1 lon1 lat2 lon2 =>
  (|lat1 - lat2| + |lon1 - lon2|) * 1000

/-- Two bus stops joined by an edge whose trip `"T1"` is absent from the
`trip_routes` table. -/
def gC4 : GraphT :=
  { nodes := [⟨"B1_a", "a", 0, 0, [⟨1, 100, "T1", BUS⟩]⟩,
              ⟨"B1_b", "b", 0, 1, []⟩],
    stop_id_map := [("B1_a", 0), ("B1_b", 1)],
    route_modes := [],
    trip_routes := [] }

/-- C4, counterexample to the literal claim: on `gC4` the bus-only search
(`BUS ||| WALK`) rides the edge of the unmapped trip `"T1"`, and the
resulting transit segment's method is neither `"walking"` nor
`modeToString BUS = "bus"` (it is `"unknown"`). -/
theorem C4_mode_isolation_counterexample :
    ∃ seg ∈ (FindPath hvC4 4 gC4 0 0 0 1 (BUS ||| WALK) "bus_only").segments,
      seg.method ≠ "walking" ∧ seg.method ≠ modeToString BUS := by
  with_unfolding_all decide

/-- Witness for the amended C4 at a concrete input: the `"unknown"` segment
produced by the `gC4` run satisfies the amended disjunction. -/
theorem C4_mode_isolation_amended_witness :
    (⟨0, 0, "a", 1, 0, "b", "unknown", 1⟩ : RouteSegmentT).method = "walking" ∨
    (⟨0, 0, "a", 1, 0, "b", "unknown", 1⟩ : RouteSegmentT).method =
      modeToString BUS ∨
    (⟨0, 0, "a", 1, 0, "b", "unknown", 1⟩ : RouteSegmentT).method =
      "unknown" :=
  C4_mode_isolation_amended hvC4 4 gC4 0 0 0 1 BUS "bus_only"
    (Or.inr (Or.inl rfl))
    (by
      intro u e he
      rcases u with - | u1
      · obtain rfl := List.mem_singleton.mp he
        exact Or.inr ⟨by with_unfolding_all decide, rfl⟩
      · rcases u1 with - | n
        · exact absurd he (List.not_mem_nil e)
        · exact absurd he (List.not_mem_nil e))
    (by intro p hp; exact absurd hp (List.not_mem_nil p))
    (by
      intro u e he
      rcases u with - | u1
      · obtain rfl := List.mem_singleton.mp he
        with_unfolding_all decide
      · rcases u1 with - | n
        · exact absurd he (List.not_mem_nil e)
        · exact absurd he (List.not_mem_nil e))
    ⟨0, 0, "a", 1, 0, "b", "unknown", 1⟩
    (by with_unfolding_all decide)

/-! ### Segment stop counts (C6) -/

/-- The grouping loop only emits segments with `numStops` at least the
running count `k`, which never drops below 1. -/
theorem groupGo_numStops (g : GraphT) (info : List PathInfoT) :
    ∀ (l : List Nat) (s k : Nat), 1 ≤ k →
    ∀ seg ∈ groupGo g info s k l, 1 ≤ seg.numStops := by
  intro l
  induction l with
  | nil => intro s k _ seg hseg; cases hseg
  | cons v rest ih =>
    intro s k hk seg hseg
    rw [groupGo.eq_def] at hseg
    simp only [] at hseg
    split_ifs at hseg with hc
    · rcases List.mem_cons.mp hseg with rfl | hseg2
      · exact hk
      · exact ih v 1 le_rfl seg hseg2
    · exact ih s (k + 1) (le_trans hk (Nat.le_succ k)) seg hseg

/-- Every rebuilt segment either is one of the two boundary walking
segments (`numStops = 0`) or came from the grouping loop
(`numStops ≥ 1`). -/
theorem buildSegments_numStops (g : GraphT) (info : List PathInfoT)
    (path : List Nat) (sLat sLon dLat dLon : ℚ) (bestEnd : Int) :
    ∀ seg ∈ buildSegments g info path sLat sLon dLat dLon bestEnd,
      (seg.numStops = 0 → seg.method = "walking") ∧
      (seg.method ≠ "walking" → 1 ≤ seg.numStops) := by
  intro seg hseg
  unfold buildSegments at hseg
  simp only [] at hseg
  rcases List.mem_cons.mp hseg with rfl | hseg1
  · exact ⟨fun _ => rfl, fun hne => absurd rfl hne⟩
  rcases List.mem_append.mp hseg1 with hmid | hlast
  · have h1 : 1 ≤ seg.numStops := by
      rcases hp : path with - | ⟨x, - | ⟨y, rest⟩⟩ <;> rw [hp] at hmid
      · cases hmid
      · cases hmid
      · exact groupGo_numStops g info (y :: rest) x 1 le_rfl seg hmid
    exact ⟨fun h0 => absurd h0 (by omega), fun _ => h1⟩
  · obtain rfl := List.mem_singleton.mp hlast
    exact ⟨fun _ => rfl, fun hne => absurd rfl hne⟩

/-- C6, amended: in every result of `Pathfinder::FindPath`, a segment with
`numStops = 0` is a walking segment, and every non-walking segment has
`numStops ≥ 1` — the spec's converse, that walking segments always have
`numStops = 0`, fails because a grouped run of walking transfer edges is
emitted with method `"walking"` and `numStops ≥ 1`. -/
theorem C6_numstops_amended (hv : ℚ → ℚ → ℚ → ℚ → ℚ) (fuel : Nat)
    (g : GraphT) (sLat sLon dLat dLon : ℚ) (mask : Nat) (label : String) :
    ∀ seg ∈ (FindPath hv fuel g sLat sLon dLat dLon mask label).segments,
      (seg.numStops = 0 → seg.method = "walking") ∧
      (seg.method ≠ "walking" → 1 ≤ seg.numStops) := by
  unfold FindPath FindPathAux
  simp only []
  split_ifs with hc1 hc2 hc3 hc4 hc5 hc6 hc7
  all_goals intro seg hseg
  · obtain rfl := List.mem_singleton.mp hseg
    exact ⟨fun _ => rfl, fun hne => absurd rfl hne⟩
  · cases hseg
  · cases hseg
  · obtain rfl := List.mem_singleton.mp hseg
    exact ⟨fun _ => rfl, fun hne => absurd rfl hne⟩
  · exact buildSegments_numStops g _ _ sLat sLon dLat dLon _ seg hseg
  · cases hseg
  · obtain rfl := List.mem_singleton.mp hseg
    exact ⟨fun _ => rfl, fun hne => absurd rfl hne⟩
  · exact buildSegments_numStops g _ _ sLat sLon dLat dLon _ seg hseg

/-- Two stops joined by a walking transfer edge (trip tag `"WALK"`), as
`generateTransferEdges` produces. -/
def gC6 : GraphT :=
  { nodes := [⟨"B1_a", "a", 0, 0, [⟨1, 100, "WALK", WALK⟩]⟩,
              ⟨"B1_b", "b", 0, 1, []⟩],
    stop_id_map := [("B1_a", 0), ("B1_b", 1)],
    route_modes := [],
    trip_routes := [] }

/-- C6, counterexample to the literal claim: on `gC6` the route rides a
walking transfer edge, and the resulting grouped segment has method
`"walking"` with `numStops = 1`, not 0. -/
theorem C6_numstops_counterexample :
    ∃ seg ∈ (FindPath hvC4 4 gC6 0 0 0 1 (ANY ||| WALK) "optimal").segments,
      seg.method = "walking" ∧ seg.numStops ≠ 0 := by
  with_unfolding_all decide

/-- Witness for the amended C6 at a concrete input: the leading walking
segment of the `gC6` run satisfies the amended conjunction. -/
theorem C6_numstops_amended_witness :
    ((⟨0, 0, "Origin", 0, 0, "a", "walking", 0⟩ : RouteSegmentT).numStops = 0 →
      (⟨0, 0, "Origin", 0, 0, "a", "walking", 0⟩ : RouteSegmentT).method =
        "walking") ∧
    ((⟨0, 0, "Origin", 0, 0, "a", "walking", 0⟩ : RouteSegmentT).method ≠
        "walking" →
      1 ≤ (⟨0, 0, "Origin", 0, 0, "a", "walking", 0⟩ :
        RouteSegmentT).numStops) :=
  C6_numstops_amended hvC4 4 gC6 0 0 0 1 (ANY ||| WALK) "optimal"
    ⟨0, 0, "Origin", 0, 0, "a", "walking", 0⟩ (by with_unfolding_all decide)

/-! ### Coordinate validation (C5) -/

theorem arctan_le_of_nonneg {t : ℝ} (ht : 0 ≤ t) : Real.arctan t ≤ t := by
  have h0 : 0 ≤ Real.arctan t := by
    have h := Real.arctan_strictMono.monotone ht
    rwa [Real.arctan_zero] at h
  have h2 := Real.le_tan h0 (Real.arctan_lt_pi_div_two t)
  rwa [Real.tan_arctan] at h2

/-- With equal longitudes the `dLon` term of the haversine vanishes. -/
theorem haversineR_same_lon (lat1 lon lat2 : ℝ) :
    haversineR lat1 lon lat2 lon =
      (R_EARTH : ℝ) * (2 * atan2R
        (Real.sqrt (Real.sin (toRadiansR (lat2 - lat1) / 2) *
          Real.sin (toRadiansR (lat2 - lat1) / 2)))
        (Real.sqrt (1 - Real.sin (toRadiansR (lat2 - lat1) / 2) *
          Real.sin (toRadiansR (lat2 - lat1) / 2)))) := by
  unfold haversineR
  simp only []
  rw [sub_self, show toRadiansR 0 / 2 = 0 from by unfold toRadiansR; ring,
    Real.sin_zero]
  norm_num

/-- The out-of-range latitude 390° behaves 360°-periodically like 30°: the
source's haversine puts (390, 31) about 111 m from (30.001, 31), far below
the 3000 m direct-walk threshold. -/
theorem haversineR_invalid_le :
    haversineR 390 31 (30001 / 1000) 31 ≤ 3000 := by
  have hp1 : (3.141592 : ℝ) ≤ ((PI_SRC : ℚ) : ℝ) := by
    have h : (3.141592 : ℚ) ≤ PI_SRC := by unfold PI_SRC; norm_num
    have h2 := (Rat.cast_le (K := ℝ)).mpr h
    push_cast at h2
    exact h2
  have hp2 : ((PI_SRC : ℚ) : ℝ) ≤ 3.141593 := by
    have h : PI_SRC ≤ (3.141593 : ℚ) := by unfold PI_SRC; norm_num
    have h2 := (Rat.cast_le (K := ℝ)).mpr h
    push_cast at h2
    exact h2
  have hpi1 := Real.pi_gt_d6
  have hpi2 := Real.pi_lt_d6
  rw [haversineR_same_lon]
  rw [show toRadiansR ((30001 : ℝ) / 1000 - 390) / 2 =
      -(359999 / 360000 * ((PI_SRC : ℚ) : ℝ)) from by unfold toRadiansR; ring]
  rw [Real.sin_neg, neg_mul_neg]
  rw [← Real.sin_pi_sub]
  obtain ⟨w, hw⟩ : ∃ w : ℝ,
      w = Real.pi - 359999 / 360000 * ((PI_SRC : ℚ) : ℝ) := ⟨_, rfl⟩
  rw [← hw]
  have hw_pos : 0 < w := by rw [hw]; linarith
  have hw_le : w ≤ 0.00001 := by rw [hw]; linarith
  have hs_nonneg : 0 ≤ Real.sin w :=
    Real.sin_nonneg_of_nonneg_of_le_pi (le_of_lt hw_pos) (by linarith)
  have hs_le : Real.sin w ≤ 0.00001 :=
    le_trans (le_of_lt (Real.sin_lt hw_pos)) hw_le
  have ha_le : Real.sin w * Real.sin w ≤ 0.0000000001 :=
    le_trans (mul_le_mul hs_le hs_le hs_nonneg (by norm_num)) (by norm_num)
  have hsqa : Real.sqrt (Real.sin w * Real.sin w) = Real.sin w :=
    Real.sqrt_mul_self hs_nonneg
  have hsq1 : (0.9 : ℝ) ≤ Real.sqrt (1 - Real.sin w * Real.sin w) := by
    have h1 : (0.81 : ℝ) ≤ 1 - Real.sin w * Real.sin w := by linarith
    calc (0.9 : ℝ) = Real.sqrt 0.81 := by
          rw [show (0.81 : ℝ) = 0.9 ^ 2 from by norm_num,
            Real.sqrt_sq (by norm_num)]
      _ ≤ Real.sqrt (1 - Real.sin w * Real.sin w) := Real.sqrt_le_sqrt h1
  have hpos : 0 < Real.sqrt (1 - Real.sin w * Real.sin w) :=
    lt_of_lt_of_le (by norm_num) hsq1
  rw [hsqa]
  unfold atan2R
  rw [if_pos hpos]
  have ht_nonneg : 0 ≤ Real.sin w / Real.sqrt (1 - Real.sin w * Real.sin w) :=
    div_nonneg hs_nonneg (Real.sqrt_nonneg _)
  have ht_le : Real.sin w / Real.sqrt (1 - Real.sin w * Real.sin w) ≤
      0.00001 / 0.9 :=
    div_le_div (by norm_num) hs_le (by norm_num) hsq1
  have harc := le_trans (arctan_le_of_nonneg ht_nonneg) ht_le
  have hR : ((R_EARTH : ℚ) : ℝ) = 6371000 := by unfold R_EARTH; norm_num
  rw [hR]
  linarith

/-- On a graph with no stops both candidate sets are empty, so any query
with direct distance at most `MAX_WALK_DISTANCE * 2` takes the early
direct-walk return, whatever the coordinates are. -/
theorem emptyGraph_direct_walk (hv : ℚ → ℚ → ℚ → ℚ → ℚ) (fuel : Nat)
    (sLat sLon dLat dLon : ℚ) (mask : Nat) (label : String)
    (h : hv sLat sLon dLat dLon ≤ MAX_WALK_DISTANCE * 2) :
    FindPath hv fuel emptyGraphT sLat sLon dLat dLon mask label =
      ⟨label, ((hv sLat sLon dLat dLon / WALK_SPEED_MPS : ℚ) : WithTop ℚ),
        [⟨sLon, sLat, "Origin", dLon, dLat, "Destination", "walking", 0⟩]⟩ := by
  unfold FindPath FindPathAux
  simp only []
  have hempty : (pickCandidates hv emptyGraphT.nodes sLat sLon dLat dLon mask
      [MAX_WALK_DISTANCE, 2500, 4000, 6000]).1 = [] := rfl
  rw [if_pos (Or.inl hempty), if_pos h]

/-- C5, amended: `Pathfinder::FindPath` contains no coordinate validation at
all — its outcome depends only on the numeric distance values.  For any
coordinates whatsoever, valid or not, a query on a stopless graph whose
direct distance is within `MAX_WALK_DISTANCE * 2` returns `found = true`
(finite `totalDuration`) with a nonempty (single walking) segment list,
contradicting the promised `found = false` on invalid input. -/
theorem C5_invalid_coords_amended (hv : ℚ → ℚ → ℚ → ℚ → ℚ) (fuel : Nat)
    (sLat sLon dLat dLon : ℚ) (mask : Nat) (label : String)
    (h : hv sLat sLon dLat dLon ≤ MAX_WALK_DISTANCE * 2) :
    (FindPath hv fuel emptyGraphT sLat sLon dLat dLon mask
      label).totalDuration ≠ ⊤ ∧
    (FindPath hv fuel emptyGraphT sLat sLon dLat dLon mask
      label).segments ≠ [] := by
  rw [emptyGraph_direct_walk hv fuel sLat sLon dLat dLon mask label h]
  exact ⟨WithTop.coe_ne_top, by simp⟩

/-- C5, counterexample to the literal claim: latitude 390 is outside
Earth's valid range, yet the source's haversine maps it 360°-periodically
next to latitude 30.001, so the direct distance is walkable and the search
returns `found = true` with a walking segment (for every distance function
within the 3000 m bound the real haversine obeys, in particular the
embedded one). -/
theorem C5_invalid_coords_counterexample :
    (90 : ℚ) < 390 ∧
    haversineR 390 31 (30001 / 1000) 31 ≤ 3000 ∧
    ∀ hv : ℚ → ℚ → ℚ → ℚ → ℚ, ∀ fuel : Nat,
      hv 390 31 (30001 / 1000) 31 ≤ MAX_WALK_DISTANCE * 2 →
      (FindPath hv fuel emptyGraphT 390 31 (30001 / 1000) 31
        (ANY ||| WALK) "optimal").totalDuration ≠ ⊤ ∧
      (FindPath hv fuel emptyGraphT 390 31 (30001 / 1000) 31
        (ANY ||| WALK) "optimal").segments ≠ [] := by
  refine ⟨by norm_num, haversineR_invalid_le, ?_⟩
  intro hv fuel h
  rw [emptyGraph_direct_walk hv fuel 390 31 (30001 / 1000) 31 (ANY ||| WALK)
    "optimal" h]
  exact ⟨WithTop.coe_ne_top, by simp⟩

/-- Witness for the amended C5 at a concrete input: a constant-100 m
distance stand-in at the out-of-range query returns a found direct walk. -/
theorem C5_invalid_coords_amended_witness :
    (FindPath (fun _ _ _ _ => (100 : ℚ)) 3 emptyGraphT 390 31 (30001 / 1000)
      31 (ANY ||| WALK) "optimal").totalDuration ≠ ⊤ ∧
    (FindPath (fun _ _ _ _ => (100 : ℚ)) 3 emptyGraphT 390 31 (30001 / 1000)
      31 (ANY ||| WALK) "optimal").segments ≠ [] :=
  C5_invalid_coords_amended (fun _ _ _ _ => 100) 3 390 31 (30001 / 1000) 31
    (ANY ||| WALK) "optimal" (by with_unfolding_all decide)

/-! ### Grid sweep coverage (C1) -/

theorem gridFind_nil (k : Int) : gridFind [] k = [] := rfl

theorem gridFind_cons_eq (k0 : Int) (b : List Nat)
    (rest : List (Int × List Nat)) : gridFind ((k0, b) :: rest) k0 = b := by
  unfold gridFind
  rw [List.lookup, show (k0 == k0) = true from beq_self_eq_true k0]
  rfl

theorem gridFind_cons_ne (k0 : Int) (b : List Nat)
    (rest : List (Int × List Nat)) (k2 : Int) (h : k2 ≠ k0) :
    gridFind ((k0, b) :: rest) k2 = gridFind rest k2 := by
  unfold gridFind
  rw [List.lookup, show (k2 == k0) = false from beq_eq_false_iff_ne.mpr h]

/-- Bucket contents after a grid insertion. -/
theorem gridFind_insert (k k2 : Int) (i : Nat) :
    ∀ grid : List (Int × List Nat),
    gridFind (gridInsert grid k i) k2 =
      if k2 = k then gridFind grid k ++ [i] else gridFind grid k2 := by
  intro grid
  induction grid with
  | nil =>
    unfold gridInsert
    by_cases h : k2 = k
    · subst h
      rw [if_pos rfl, gridFind_cons_eq, gridFind_nil]
      rfl
    · rw [if_neg h, gridFind_cons_ne k [i] [] k2 h]
  | cons p rest ih =>
    rcases p with ⟨k0, b⟩
    show gridFind (if k0 = k then (k0, b ++ [i]) :: rest
      else (k0, b) :: gridInsert rest k i) k2 = _
    by_cases hk0 : k0 = k
    · subst hk0
      rw [if_pos rfl]
      by_cases h2 : k2 = k0
      · subst h2
        rw [if_pos rfl, gridFind_cons_eq, gridFind_cons_eq]
      · rw [if_neg h2, gridFind_cons_ne _ _ _ _ h2, gridFind_cons_ne _ _ _ _ h2]
    · rw [if_neg hk0]
      by_cases h2 : k2 = k0
      · subst h2
        rw [if_neg hk0, gridFind_cons_eq, gridFind_cons_eq]
      · rw [gridFind_cons_ne _ _ _ _ h2, ih]
        by_cases h3 : k2 = k
        · rw [if_pos h3, if_pos h3,
            gridFind_cons_ne _ _ _ _ (fun hc => hk0 hc.symm)]
        · rw [if_neg h3, if_neg h3, gridFind_cons_ne _ _ _ _ h2]

/-- Grid insertions never remove bucket members. -/
theorem foldl_gridInsert_mono (key : Nat → Int) :
    ∀ (l : List Nat) (grid : List (Int × List Nat)) (x : Nat) (k2 : Int),
    x ∈ gridFind grid k2 →
    x ∈ gridFind (l.foldl (fun g i2 => gridInsert g (key i2) i2) grid) k2 := by
  intro l
  induction l with
  | nil => exact fun grid x k2 h => h
  | cons a as ih =>
    intro grid x k2 h
    rw [List.foldl_cons]
    refine ih _ x k2 ?_
    rw [gridFind_insert]
    split_ifs with hc
    · rw [← hc]
      exact List.mem_append_left _ h
    · exact h

/-- Every folded-in index lands in the bucket of its key. -/
theorem foldl_gridInsert_mem (key : Nat → Int) :
    ∀ (l : List Nat) (grid : List (Int × List Nat)) (j : Nat), j ∈ l →
    j ∈ gridFind (l.foldl (fun g i2 => gridInsert g (key i2) i2) grid)
      (key j) := by
  intro l
  induction l with
  | nil => intro grid j h; cases h
  | cons a as ih =>
    intro grid j h
    rw [List.foldl_cons]
    rcases List.mem_cons.mp h with rfl | h2
    · refine foldl_gridInsert_mono key as _ j (key j) ?_
      rw [gridFind_insert, if_pos rfl]
      exact List.mem_append_right _ (by simp)
    · exact ih _ j h2

/-- Every node index is in its cell's bucket of the built grid. -/
theorem buildGrid_mem (nodes : List NodeT) (j : Nat) (hj : j < nodes.length) :
    j ∈ gridFind (buildGrid nodes)
      (cellKey (nodes.getD j default).lat (nodes.getD j default).lon) := by
  unfold buildGrid
  exact foldl_gridInsert_mem
    (fun i2 => cellKey (nodes.getD i2 default).lat (nodes.getD i2 default).lon)
    (List.range nodes.length) [] j (List.mem_range.mpr hj)

/-- The sweep only appends edges: lengths and coordinates never change. -/
def SameGeom (nodes ns : List NodeT) : Prop :=
  ns.length = nodes.length ∧
  ∀ v : Nat, (ns.getD v default).lat = (nodes.getD v default).lat ∧
    (ns.getD v default).lon = (nodes.getD v default).lon

theorem sameGeom_push (nodes ns : List NodeT) (u : Nat) (x : EdgeT)
    (h : SameGeom nodes ns) : SameGeom nodes (pushEdgeAt ns u x) :=
  ⟨by rw [pushEdgeAt_length]; exact h.1,
   fun v => ⟨by rw [pushEdgeAt_lat]; exact (h.2 v).1,
             by rw [pushEdgeAt_lon]; exact (h.2 v).2⟩⟩

/-- One step of the candidate loop of `sweepCell`, unfolded. -/
theorem sweepCell_cons (hv : ℚ → ℚ → ℚ → ℚ → ℚ) (i a : Nat) (as : List Nat)
    (ns : List NodeT) :
    sweepCell hv i (a :: as) ns = sweepCell hv i as
      (if i ≥ a then ns
       else if hv (ns.getD i default).lat (ns.getD i default).lon
           (ns.getD a default).lat (ns.getD a default).lon ≤
           MAX_WALK_DISTANCE ∧
           hv (ns.getD i default).lat (ns.getD i default).lon
           (ns.getD a default).lat (ns.getD a default).lon > 0 then
         pushEdgeAt (pushEdgeAt ns i ⟨a, hv (ns.getD i default).lat
             (ns.getD i default).lon (ns.getD a default).lat
             (ns.getD a default).lon / WALK_SPEED_MPS, "WALK", WALK⟩) a
           ⟨i, hv (ns.getD i default).lat (ns.getD i default).lon
             (ns.getD a default).lat (ns.getD a default).lon /
             WALK_SPEED_MPS, "WALK", WALK⟩
       else ns) := rfl

theorem sweepCell_sameGeom (hv : ℚ → ℚ → ℚ → ℚ → ℚ) (i : Nat)
    (bucket : List Nat) (nodes ns : List NodeT) (h : SameGeom nodes ns) :
    SameGeom nodes (sweepCell hv i bucket ns) := by
  unfold sweepCell
  refine foldl_preserve (SameGeom nodes) _ ?_ bucket ns h
  intro b a hb
  dsimp only
  split_ifs
  · exact hb
  · exact sameGeom_push _ _ _ _ (sameGeom_push _ _ _ _ hb)
  · exact hb

theorem sweepCell_mem (hv : ℚ → ℚ → ℚ → ℚ → ℚ) (i : Nat) (bucket : List Nat)
    (u : Nat) (e : EdgeT) (ns : List NodeT)
    (h : e ∈ (ns.getD u default).outgoing) :
    e ∈ ((sweepCell hv i bucket ns).getD u default).outgoing := by
  unfold sweepCell
  refine foldl_preserve (fun b => e ∈ (b.getD u default).outgoing) _ ?_
    bucket ns h
  intro b a hb
  dsimp only
  split_ifs
  · exact hb
  · exact mem_pushEdgeAt _ _ _ _ _ (mem_pushEdgeAt _ _ _ _ _ hb)
  · exact hb

/-- A candidate `j` of the processed bucket with walkable distance gets its
pair of walking edges. -/
theorem sweepCell_adds (hv : ℚ → ℚ → ℚ → ℚ → ℚ) (nodes : List NodeT)
    (i j : Nat) (hij : i < j) (hjlen : j < nodes.length)
    (hd1 : 0 < hv (nodes.getD i default).lat (nodes.getD i default).lon
      (nodes.getD j default).lat (nodes.getD j default).lon)
    (hd2 : hv (nodes.getD i default).lat (nodes.getD i default).lon
      (nodes.getD j default).lat (nodes.getD j default).lon ≤
      MAX_WALK_DISTANCE) :
    ∀ (bucket : List Nat) (ns : List NodeT), j ∈ bucket → SameGeom nodes ns →
    (⟨j, hv (nodes.getD i default).lat (nodes.getD i default).lon
        (nodes.getD j default).lat (nodes.getD j default).lon /
        WALK_SPEED_MPS, "WALK", WALK⟩ : EdgeT) ∈
      ((sweepCell hv i bucket ns).getD i default).outgoing ∧
    (⟨i, hv (nodes.getD i default).lat (nodes.getD i default).lon
        (nodes.getD j default).lat (nodes.getD j default).lon /
        WALK_SPEED_MPS, "WALK", WALK⟩ : EdgeT) ∈
      ((sweepCell hv i bucket ns).getD j default).outgoing := by
  intro bucket
  induction bucket with
  | nil => intro ns hj; cases hj
  | cons a as ih =>
    intro ns hj hgeom
    rw [sweepCell_cons]
    by_cases ha : a = j
    · subst ha
      rw [if_neg (not_le.mpr hij)]
      rw [(hgeom.2 i).1, (hgeom.2 i).2, (hgeom.2 a).1, (hgeom.2 a).2]
      rw [if_pos ⟨hd2, hd1⟩]
      constructor
      · refine sweepCell_mem hv i as i _ _ ?_
        exact mem_pushEdgeAt _ _ _ _ _
          (pushEdgeAt_self ns i _ (by rw [hgeom.1]; exact lt_trans hij hjlen))
      · refine sweepCell_mem hv i as a _ _ ?_
        exact pushEdgeAt_self _ a _
          (by rw [pushEdgeAt_length, hgeom.1]; exact hjlen)
    · have hj2 : j ∈ as := by
        rcases List.mem_cons.mp hj with h1 | h1
        · exact absurd h1.symm ha
        · exact h1
      refine ih _ hj2 ?_
      split_ifs
      · exact hgeom
      · exact sameGeom_push _ _ _ _ (sameGeom_push _ _ _ _ hgeom)
      · exact hgeom

theorem offset_mem (dx dy : Int) (h1 : -1 ≤ dx) (h2 : dx ≤ 1) (h3 : -1 ≤ dy)
    (h4 : dy ≤ 1) : (dx, dy) ∈ neighborOffsets := by
  unfold neighborOffsets
  interval_cases dx <;> interval_cases dy <;> simp

theorem sweepNode_sameGeom (hv : ℚ → ℚ → ℚ → ℚ → ℚ)
    (grid : List (Int × List Nat)) (nodes ns : List NodeT) (i : Nat)
    (h : SameGeom nodes ns) : SameGeom nodes (sweepNode hv grid ns i) := by
  unfold sweepNode
  exact foldl_preserve (SameGeom nodes) _
    (fun b o hb => sweepCell_sameGeom hv i _ nodes b hb) neighborOffsets ns h

theorem sweepNode_mem (hv : ℚ → ℚ → ℚ → ℚ → ℚ)
    (grid : List (Int × List Nat)) (u : Nat) (e : EdgeT) (ns : List NodeT)
    (i : Nat) (h : e ∈ (ns.getD u default).outgoing) :
    e ∈ ((sweepNode hv grid ns i).getD u default).outgoing := by
  unfold sweepNode
  exact foldl_preserve (fun b => e ∈ (b.getD u default).outgoing) _
    (fun b o hb => sweepCell_mem hv i _ u e b hb) neighborOffsets ns h

/-- Generic fold lemma: once the distinguished element is processed the
target property holds and persists. -/
theorem foldl_hit {α β : Type} (P Q : β → Prop) (f : β → α → β) (x : α)
    (hP : ∀ (b : β) (a : α), P b → P (f b a))
    (hQstep : ∀ b : β, P b → Q (f b x))
    (hQ : ∀ (b : β) (a : α), Q b → Q (f b a)) :
    ∀ (l : List α) (b : β), x ∈ l → P b → Q (l.foldl f b) := by
  intro l
  induction l with
  | nil => intro b hx; cases hx
  | cons a as ih =>
    intro b hx hb
    rw [List.foldl_cons]
    rcases List.mem_cons.mp hx with rfl | hx2
    · exact foldl_preserve Q f hQ as _ (hQstep b hb)
    · exact ih _ hx2 (hP b a hb)

/-- The 3×3 sweep of node `i` reaches the bucket of any node `j` whose cell
coordinates differ from `i`'s by at most one in each axis. -/
theorem sweepNode_adds (hv : ℚ → ℚ → ℚ → ℚ → ℚ)
    (grid : List (Int × List Nat)) (nodes : List NodeT) (i j : Nat)
    (hij : i < j) (hjlen : j < nodes.length)
    (hbucket : j ∈ gridFind grid (cellKey (nodes.getD j default).lat
      (nodes.getD j default).lon))
    (hlat1 : -1 ≤ ⌊(nodes.getD j default).lat / cellSize⌋ -
      ⌊(nodes.getD i default).lat / cellSize⌋)
    (hlat2 : ⌊(nodes.getD j default).lat / cellSize⌋ -
      ⌊(nodes.getD i default).lat / cellSize⌋ ≤ 1)
    (hlon1 : -1 ≤ ⌊(nodes.getD j default).lon / cellSize⌋ -
      ⌊(nodes.getD i default).lon / cellSize⌋)
    (hlon2 : ⌊(nodes.getD j default).lon / cellSize⌋ -
      ⌊(nodes.getD i default).lon / cellSize⌋ ≤ 1)
    (hd1 : 0 < hv (nodes.getD i default).lat (nodes.getD i default).lon
      (nodes.getD j default).lat (nodes.getD j default).lon)
    (hd2 : hv (nodes.getD i default).lat (nodes.getD i default).lon
      (nodes.getD j default).lat (nodes.getD j default).lon ≤
      MAX_WALK_DISTANCE)
    (ns : List NodeT) (hgeom : SameGeom nodes ns) :
    (⟨j, hv (nodes.getD i default).lat (nodes.getD i default).lon
        (nodes.getD j default).lat (nodes.getD j default).lon /
        WALK_SPEED_MPS, "WALK", WALK⟩ : EdgeT) ∈
      ((sweepNode hv grid ns i).getD i default).outgoing ∧
    (⟨i, hv (nodes.getD i default).lat (nodes.getD i default).lon
        (nodes.getD j default).lat (nodes.getD j default).lon /
        WALK_SPEED_MPS, "WALK", WALK⟩ : EdgeT) ∈
      ((sweepNode hv grid ns i).getD j default).outgoing := by
  unfold sweepNode
  simp only []
  rw [(hgeom.2 i).1, (hgeom.2 i).2]
  refine foldl_hit (SameGeom nodes)
    (fun b =>
      (⟨j, hv (nodes.getD i default).lat (nodes.getD i default).lon
          (nodes.getD j default).lat (nodes.getD j default).lon /
          WALK_SPEED_MPS, "WALK", WALK⟩ : EdgeT) ∈
        (b.getD i default).outgoing ∧
      (⟨i, hv (nodes.getD i default).lat (nodes.getD i default).lon
          (nodes.getD j default).lat (nodes.getD j default).lon /
          WALK_SPEED_MPS, "WALK", WALK⟩ : EdgeT) ∈
        (b.getD j default).outgoing) _
    (⌊(nodes.getD j default).lon / cellSize⌋ -
       ⌊(nodes.getD i default).lon / cellSize⌋,
     ⌊(nodes.getD j default).lat / cellSize⌋ -
       ⌊(nodes.getD i default).lat / cellSize⌋)
    ?_ ?_ ?_ neighborOffsets ns
    (offset_mem _ _ hlon1 hlon2 hlat1 hlat2) hgeom
  · intro b o hb
    exact sweepCell_sameGeom hv i _ nodes b hb
  · intro b hb
    dsimp only
    rw [show (⌊(nodes.getD i default).lat / cellSize⌋ +
        (⌊(nodes.getD j default).lat / cellSize⌋ -
          ⌊(nodes.getD i default).lat / cellSize⌋)) * 1000000 +
        (⌊(nodes.getD i default).lon / cellSize⌋ +
        (⌊(nodes.getD j default).lon / cellSize⌋ -
          ⌊(nodes.getD i default).lon / cellSize⌋)) =
        cellKey (nodes.getD j default).lat (nodes.getD j default).lon from by
      unfold cellKey; ring]
    exact sweepCell_adds hv nodes i j hij hjlen hd1 hd2 _ b hbucket hb
  · intro b o hb
    exact ⟨sweepCell_mem hv i _ i _ b hb.1, sweepCell_mem hv i _ j _ b hb.2⟩

/-- C1, amended: `generateTransferEdges` adds the walking edge pair for
every pair `i < j` with walkable positive distance **whose grid cell
coordinates differ by at most one in each axis**.  The spec's stronger
claim — that the 3×3 sweep finds every in-range pair for all coordinates —
fails: the cell side is `1500/111000` degrees in longitude as well as
latitude, and away from the equator two stops within 1500 m can lie two
longitude cells apart, in which case no edge is created. -/
theorem C1_transfer_edges_amended (hv : ℚ → ℚ → ℚ → ℚ → ℚ)
    (nodes : List NodeT) (i j : Nat) (hij : i < j) (hjlen : j < nodes.length)
    (hlat1 : -1 ≤ ⌊(nodes.getD j default).lat / cellSize⌋ -
      ⌊(nodes.getD i default).lat / cellSize⌋)
    (hlat2 : ⌊(nodes.getD j default).lat / cellSize⌋ -
      ⌊(nodes.getD i default).lat / cellSize⌋ ≤ 1)
    (hlon1 : -1 ≤ ⌊(nodes.getD j default).lon / cellSize⌋ -
      ⌊(nodes.getD i default).lon / cellSize⌋)
    (hlon2 : ⌊(nodes.getD j default).lon / cellSize⌋ -
      ⌊(nodes.getD i default).lon / cellSize⌋ ≤ 1)
    (hd1 : 0 < hv (nodes.getD i default).lat (nodes.getD i default).lon
      (nodes.getD j default).lat (nodes.getD j default).lon)
    (hd2 : hv (nodes.getD i default).lat (nodes.getD i default).lon
      (nodes.getD j default).lat (nodes.getD j default).lon ≤
      MAX_WALK_DISTANCE) :
    (⟨j, hv (nodes.getD i default).lat (nodes.getD i default).lon
        (nodes.getD j default).lat (nodes.getD j default).lon /
        WALK_SPEED_MPS, "WALK", WALK⟩ : EdgeT) ∈
      (((generateTransferEdges hv nodes).getD i default)).outgoing ∧
    (⟨i, hv (nodes.getD i default).lat (nodes.getD i default).lon
        (nodes.getD j default).lat (nodes.getD j default).lon /
        WALK_SPEED_MPS, "WALK", WALK⟩ : EdgeT) ∈
      (((generateTransferEdges hv nodes).getD j default)).outgoing := by
  unfold generateTransferEdges
  simp only []
  refine foldl_hit (SameGeom nodes)
    (fun b =>
      (⟨j, hv (nodes.getD i default).lat (nodes.getD i default).lon
          (nodes.getD j default).lat (nodes.getD j default).lon /
          WALK_SPEED_MPS, "WALK", WALK⟩ : EdgeT) ∈
        (b.getD i default).outgoing ∧
      (⟨i, hv (nodes.getD i default).lat (nodes.getD i default).lon
          (nodes.getD j default).lat (nodes.getD j default).lon /
          WALK_SPEED_MPS, "WALK", WALK⟩ : EdgeT) ∈
        (b.getD j default).outgoing)
    (sweepNode hv (buildGrid nodes)) i ?_ ?_ ?_ (List.range nodes.length)
    nodes (List.mem_range.mpr (lt_trans hij hjlen))
    ⟨rfl, fun v => ⟨rfl, rfl⟩⟩
  · intro b a hb
    exact sweepNode_sameGeom hv (buildGrid nodes) nodes b a hb
  · intro b hb
    exact sweepNode_adds hv (buildGrid nodes) nodes i j hij hjlen
      (buildGrid_mem nodes j hjlen) hlat1 hlat2 hlon1 hlon2 hd1 hd2 b hb
  · intro b a hb
    exact ⟨sweepNode_mem hv (buildGrid nodes) i _ b a hb.1,
      sweepNode_mem hv (buildGrid nodes) j _ b a hb.2⟩

/-- Two stops in the same grid cell, 100 m apart under the constant
distance stand-in. -/
def nodesC1W : List NodeT :=
  [⟨"M_A", "A", 0, 0, []⟩, ⟨"M_B", "B", 0, 1/10000, []⟩]

/-- Witness for the amended C1 at a concrete input: the same-cell pair of
`nodesC1W` receives both walking edges. -/
theorem C1_transfer_edges_amended_witness :
    (⟨1, (100 : ℚ) / WALK_SPEED_MPS, "WALK", WALK⟩ : EdgeT) ∈
      (((generateTransferEdges (fun _ _ _ _ => (100 : ℚ))
        nodesC1W).getD 0 default)).outgoing ∧
    (⟨0, (100 : ℚ) / WALK_SPEED_MPS, "WALK", WALK⟩ : EdgeT) ∈
      (((generateTransferEdges (fun _ _ _ _ => (100 : ℚ))
        nodesC1W).getD 1 default)).outgoing :=
  C1_transfer_edges_amended (fun _ _ _ _ => 100) nodesC1W 0 1
    (by decide) (by decide)
    (by with_unfolding_all decide) (by with_unfolding_all decide)
    (by with_unfolding_all decide) (by with_unfolding_all decide)
    (by with_unfolding_all decide) (by with_unfolding_all decide)

theorem PI_SRC_lb : (3.141592 : ℝ) ≤ ((PI_SRC : ℚ) : ℝ) := by
  have h : (3.141592 : ℚ) ≤ PI_SRC := by unfold PI_SRC; norm_num
  have h2 := (Rat.cast_le (K := ℝ)).mpr h
  push_cast at h2
  exact h2

theorem PI_SRC_ub : ((PI_SRC : ℚ) : ℝ) ≤ 3.141593 := by
  have h : PI_SRC ≤ (3.141593 : ℚ) := by unfold PI_SRC; norm_num
  have h2 := (Rat.cast_le (K := ℝ)).mpr h
  push_cast at h2
  exact h2

theorem abs_sin_le_abs (x : ℝ) : |Real.sin x| ≤ |x| := by
  rcases eq_or_ne x 0 with rfl | h
  · simp
  · exact le_of_lt (Real.abs_sin_lt_abs h)

theorem abs_cos_sub_cos_le (x y : ℝ) : |Real.cos x - Real.cos y| ≤ |x - y| := by
  rw [Real.cos_sub_cos, abs_mul, abs_mul]
  have h1 : |(-2 : ℝ)| * |Real.sin ((x + y) / 2)| ≤ 2 :=
    le_trans (mul_le_mul le_rfl (Real.abs_sin_le_one _) (abs_nonneg _)
      (by norm_num)) (by norm_num)
  have h2 : |Real.sin ((x - y) / 2)| ≤ |x - y| / 2 := by
    have h3 := abs_sin_le_abs ((x - y) / 2)
    rwa [abs_div, abs_two] at h3
  calc |(-2 : ℝ)| * |Real.sin ((x + y) / 2)| * |Real.sin ((x - y) / 2)| ≤
      2 * (|x - y| / 2) :=
      mul_le_mul h1 h2 (abs_nonneg _)
        (by norm_num)
    _ = |x - y| := by ring

/-- With equal latitudes the `dLat` term of the haversine vanishes. -/
theorem haversineR_same_lat (lat lon1 lon2 : ℝ) :
    haversineR lat lon1 lat lon2 =
      (R_EARTH : ℝ) * (2 * atan2R
        (Real.sqrt (Real.sin (toRadiansR (lon2 - lon1) / 2) *
          Real.sin (toRadiansR (lon2 - lon1) / 2) *
          Real.cos (toRadiansR lat) * Real.cos (toRadiansR lat)))
        (Real.sqrt (1 - Real.sin (toRadiansR (lon2 - lon1) / 2) *
          Real.sin (toRadiansR (lon2 - lon1) / 2) *
          Real.cos (toRadiansR lat) * Real.cos (toRadiansR lat)))) := by
  unfold haversineR
  simp only []
  rw [sub_self, show toRadiansR 0 / 2 = 0 from by unfold toRadiansR; ring,
    Real.sin_zero]
  norm_num

/-- At latitude 60° the stops at longitudes 0.0135° and 0.0295° are about
890 m apart: a positive distance within the 1500 m walking threshold. -/
theorem haversineR_missed_bounds :
    0 < haversineR 60 (27 / 2000) 60 (59 / 2000) ∧
    haversineR 60 (27 / 2000) 60 (59 / 2000) ≤ 1500 := by
  have hp1 := PI_SRC_lb
  have hp2 := PI_SRC_ub
  have hpi1 := Real.pi_gt_d6
  have hpi2 := Real.pi_lt_d6
  rw [haversineR_same_lat]
  rw [show toRadiansR ((59 : ℝ) / 2000 - 27 / 2000) / 2 =
      ((PI_SRC : ℚ) : ℝ) / 22500 from by unfold toRadiansR; ring]
  rw [show toRadiansR (60 : ℝ) = ((PI_SRC : ℚ) : ℝ) / 3 from by
    unfold toRadiansR; ring]
  obtain ⟨S, hS⟩ : ∃ S : ℝ, S = Real.sin (((PI_SRC : ℚ) : ℝ) / 22500) :=
    ⟨_, rfl⟩
  obtain ⟨C, hC⟩ : ∃ C : ℝ, C = Real.cos (((PI_SRC : ℚ) : ℝ) / 3) := ⟨_, rfl⟩
  rw [← hS, ← hC]
  have hs_pos : 0 < S := by
    rw [hS]
    exact Real.sin_pos_of_pos_of_lt_pi (by linarith) (by linarith)
  have hs_le : S ≤ 0.0001397 := by
    rw [hS]
    exact le_trans (le_of_lt (Real.sin_lt (by linarith))) (by linarith)
  have hc_pos : 0 < C := by
    rw [hC]
    apply Real.cos_pos_of_mem_Ioo
    constructor
    · linarith
    · linarith
  have hc_le : C ≤ 0.5000004 := by
    have hlip := abs_cos_sub_cos_le (((PI_SRC : ℚ) : ℝ) / 3) (Real.pi / 3)
    rw [Real.cos_pi_div_three] at hlip
    have habs : |((PI_SRC : ℚ) : ℝ) / 3 - Real.pi / 3| ≤ 0.0000004 :=
      abs_le.mpr ⟨by linarith, by linarith⟩
    have h1 := le_trans (le_abs_self _) (le_trans hlip habs)
    rw [hC]
    linarith
  have hsc_pos : 0 < S * C := mul_pos hs_pos hc_pos
  have hsc_le : S * C ≤ 0.0000699 :=
    le_trans (mul_le_mul hs_le hc_le hc_pos.le (by norm_num)) (by norm_num)
  have hsqa : Real.sqrt (S * S * C * C) = S * C := by
    rw [show S * S * C * C = (S * C) * (S * C) from by ring]
    exact Real.sqrt_mul_self hsc_pos.le
  have ha_pos : 0 < S * S * C * C :=
    mul_pos (mul_pos (mul_pos hs_pos hs_pos) hc_pos) hc_pos
  have ha_le : S * S * C * C ≤ 0.0000000049 := by
    have h1 : (S * C) * (S * C) ≤ 0.0000699 * 0.0000699 :=
      mul_le_mul hsc_le hsc_le hsc_pos.le (by norm_num)
    nlinarith [h1]
  have hsq1 : (0.9 : ℝ) ≤ Real.sqrt (1 - S * S * C * C) := by
    have h1 : (0.81 : ℝ) ≤ 1 - S * S * C * C := by linarith
    calc (0.9 : ℝ) = Real.sqrt 0.81 := by
          rw [show (0.81 : ℝ) = 0.9 ^ 2 from by norm_num,
            Real.sqrt_sq (by norm_num)]
      _ ≤ Real.sqrt (1 - S * S * C * C) := Real.sqrt_le_sqrt h1
  have hpos : 0 < Real.sqrt (1 - S * S * C * C) :=
    lt_of_lt_of_le (by norm_num) hsq1
  rw [hsqa]
  unfold atan2R
  rw [if_pos hpos]
  have ht_pos : 0 < S * C / Real.sqrt (1 - S * S * C * C) :=
    div_pos hsc_pos hpos
  have ht_le : S * C / Real.sqrt (1 - S * S * C * C) ≤ 0.0000699 / 0.9 :=
    div_le_div (by norm_num) hsc_le (by norm_num) hsq1
  have harc_le := le_trans (arctan_le_of_nonneg ht_pos.le) ht_le
  have harc_pos : 0 < Real.arctan (S * C / Real.sqrt (1 - S * S * C * C)) := by
    have h := Real.arctan_strictMono ht_pos
    rwa [Real.arctan_zero] at h
  have hR : ((R_EARTH : ℚ) : ℝ) = 6371000 := by unfold R_EARTH; norm_num
  rw [hR]
  constructor
  · linarith
  · linarith

/-- Two metro stops at latitude 60° whose longitudes put them two grid
columns apart, though they are only about 890 m from each other. -/
def cexNodesC1 : List NodeT :=
  [⟨"M_A", "A", 60, 27 / 2000, []⟩, ⟨"M_B", "B", 60, 59 / 2000, []⟩]

theorem foldl_fix {α β : Type} (f : β → α → β) :
    ∀ (l : List α) (b : β), (∀ a ∈ l, ∀ y, f y a = y) → l.foldl f b = b := by
  intro l
  induction l with
  | nil => intro b _; rfl
  | cons a as ih =>
    intro b h
    rw [List.foldl_cons, h a (by simp) b]
    exact ih b (fun x hx y => h x (List.mem_cons_of_mem a hx) y)

/-- A bucket of already-processed indices (`i ≥ j`) changes nothing. -/
theorem sweepCell_skip (hv : ℚ → ℚ → ℚ → ℚ → ℚ) (i : Nat) :
    ∀ (bucket : List Nat) (ns : List NodeT), (∀ j ∈ bucket, i ≥ j) →
    sweepCell hv i bucket ns = ns := by
  intro bucket
  induction bucket with
  | nil => intro ns _; rfl
  | cons a as ih =>
    intro ns h
    rw [sweepCell_cons, if_pos (h a (by simp))]
    exact ih ns (fun j hj => h j (List.mem_cons_of_mem a hj))

/-- A 3×3 sweep whose visited buckets hold only already-processed indices
changes nothing. -/
theorem sweepNode_skip (hv : ℚ → ℚ → ℚ → ℚ → ℚ)
    (grid : List (Int × List Nat)) (ns : List NodeT) (i : Nat)
    (h : ∀ o ∈ neighborOffsets, ∀ j ∈ gridFind grid
      ((⌊(ns.getD i default).lat / cellSize⌋ + o.2) * 1000000 +
       (⌊(ns.getD i default).lon / cellSize⌋ + o.1)), i ≥ j) :
    sweepNode hv grid ns i = ns := by
  unfold sweepNode
  simp only []
  refine foldl_fix _ neighborOffsets ns ?_
  intro o ho y
  exact sweepCell_skip hv i _ y (h o ho)

/-- C1, counterexample to the literal claim: on `cexNodesC1` the sweep adds
no edge at all, for every distance function — in particular the real
haversine, whose value here is strictly between 0 and 1500 m — because the
stops' longitude cells differ by two and the 3×3 neighbourhood never
visits the partner's cell. -/
theorem C1_transfer_edges_counterexample :
    (∀ hq : ℚ → ℚ → ℚ → ℚ → ℚ,
      generateTransferEdges hq cexNodesC1 = cexNodesC1) ∧
    0 < haversineR 60 (27 / 2000) 60 (59 / 2000) ∧
    haversineR 60 (27 / 2000) 60 (59 / 2000) ≤ 1500 := by
  refine ⟨?_, haversineR_missed_bounds.1, haversineR_missed_bounds.2⟩
  intro hq
  unfold generateTransferEdges
  simp only []
  rw [show List.range cexNodesC1.length = [0, 1] from by
    with_unfolding_all decide]
  rw [List.foldl_cons, List.foldl_cons, List.foldl_nil]
  rw [sweepNode_skip hq (buildGrid cexNodesC1) cexNodesC1 0
    (by with_unfolding_all decide)]
  rw [sweepNode_skip hq (buildGrid cexNodesC1) cexNodesC1 1
    (by with_unfolding_all decide)]

/-! ### Termination of the A* loop (C10) -/

/-- Both possible relaxation costs (plain weight and weight plus transfer
penalty) of each edge of one adjacency list. -/
def edgeCosts : List EdgeT → List ℚ
  | [] => []
  | e :: es => e.weight :: (e.weight + TRANSFER_PENALTY) :: edgeCosts es

/-- All candidate relaxation costs of the graph. -/
def masterCosts (nodes : List NodeT) : List ℚ :=
  (List.range nodes.length).foldr
    (fun u acc => edgeCosts (nodes.getD u default).outgoing ++ acc) []

/-- All sums of a seed value plus at most `k` candidate costs: a finite
superset of every g-score the loop can record. -/
def sumsUpTo (seeds costs : List ℚ) : Nat → List ℚ
  | 0 => seeds
  | k + 1 =>
    sumsUpTo seeds costs k ++
      costs.foldr (fun c acc => (sumsUpTo seeds costs k).map (· + c) ++ acc) []

theorem seeds_mem_sumsUpTo (seeds costs : List ℚ) (s : ℚ) (hs : s ∈ seeds) :
    ∀ k : Nat, s ∈ sumsUpTo seeds costs k := by
  intro k
  induction k with
  | zero => exact hs
  | succ k2 ih =>
    rw [sumsUpTo]
    exact List.mem_append_left _ ih

theorem mem_foldr_map_add (S : List ℚ) (x c : ℚ) :
    ∀ costs : List ℚ, c ∈ costs → x ∈ S →
    x + c ∈ costs.foldr (fun c2 acc => S.map (· + c2) ++ acc) [] := by
  intro costs
  induction costs with
  | nil => intro h; cases h
  | cons a as ih =>
    intro hc hx
    rw [List.foldr_cons]
    rcases List.mem_cons.mp hc with rfl | h2
    · exact List.mem_append_left _ (List.mem_map.mpr ⟨x, hx, rfl⟩)
    · exact List.mem_append_right _ (ih h2 hx)

theorem sumsUpTo_add (seeds costs : List ℚ) (k : Nat) (x c : ℚ)
    (hx : x ∈ sumsUpTo seeds costs k) (hc : c ∈ costs) :
    x + c ∈ sumsUpTo seeds costs (k + 1) := by
  rw [sumsUpTo]
  exact List.mem_append_right _ (mem_foldr_map_add _ x c costs hc hx)

/-- Any seed plus the sum of at most `k` candidate costs is in the sum set. -/
theorem sum_mem_sumsUpTo (seeds costs : List ℚ) :
    ∀ (T : List ℚ) (k : Nat) (s : ℚ), s ∈ seeds → (∀ c ∈ T, c ∈ costs) →
    T.length ≤ k → s + T.sum ∈ sumsUpTo seeds costs k := by
  intro T
  induction T with
  | nil =>
    intro k s hs _ _
    rw [List.sum_nil, add_zero]
    exact seeds_mem_sumsUpTo seeds costs s hs k
  | cons c cs ih =>
    intro k s hs hT hlen
    cases k with
    | zero => exact absurd hlen (by simp)
    | succ k2 =>
      have h1 : s + (c :: cs).sum = s + cs.sum + c := by
        rw [List.sum_cons]
        ring
      rw [h1]
      refine sumsUpTo_add seeds costs k2 _ c ?_ (hT c (by simp))
      refine ih k2 s hs (fun c2 hc2 => hT c2 (List.mem_cons_of_mem c hc2)) ?_
      have h2 : (c :: cs).length = cs.length + 1 := rfl
      omega

theorem mem_edgeCosts (e : EdgeT) : ∀ l : List EdgeT, e ∈ l →
    e.weight ∈ edgeCosts l ∧
    e.weight + TRANSFER_PENALTY ∈ edgeCosts l := by
  intro l
  induction l with
  | nil => intro h; cases h
  | cons a as ih =>
    intro h
    rw [edgeCosts]
    rcases List.mem_cons.mp h with rfl | h2
    · exact ⟨List.mem_cons_self _ _,
        List.mem_cons_of_mem _ (List.mem_cons_self _ _)⟩
    · have h3 := ih h2
      exact ⟨List.mem_cons_of_mem _ (List.mem_cons_of_mem _ h3.1),
        List.mem_cons_of_mem _ (List.mem_cons_of_mem _ h3.2)⟩

theorem mem_foldr_blocks {α : Type} (f : α → List ℚ) :
    ∀ (l : List α) (a : α), a ∈ l → ∀ x ∈ f a,
    x ∈ l.foldr (fun a2 acc => f a2 ++ acc) [] := by
  intro l
  induction l with
  | nil => intro a h; cases h
  | cons b bs ih =>
    intro a h x hx
    rw [List.foldr_cons]
    rcases List.mem_cons.mp h with rfl | h2
    · exact List.mem_append_left _ hx
    · exact List.mem_append_right _ (ih a h2 x hx)

theorem mem_masterCosts (nodes : List NodeT) (u : Nat) (hu : u < nodes.length)
    (e : EdgeT) (he : e ∈ (nodes.getD u default).outgoing) :
    e.weight ∈ masterCosts nodes ∧
    e.weight + TRANSFER_PENALTY ∈ masterCosts nodes := by
  have h1 := mem_edgeCosts e _ he
  unfold masterCosts
  exact ⟨mem_foldr_blocks _ _ u (List.mem_range.mpr hu) _ h1.1,
    mem_foldr_blocks _ _ u (List.mem_range.mpr hu) _ h1.2⟩

theorem transferCost_cases (arrival : String) (e : EdgeT) :
    transferCost arrival e = e.weight ∨
    transferCost arrival e = e.weight + TRANSFER_PENALTY := by
  unfold transferCost
  split_ifs
  · exact Or.inr rfl
  · exact Or.inl rfl

theorem transferCost_pos (arrival : String) (e : EdgeT) (h : 0 < e.weight) :
    0 < transferCost arrival e := by
  have hp : (0 : ℚ) < TRANSFER_PENALTY := by norm_num [TRANSFER_PENALTY]
  rcases transferCost_cases arrival e with h2 | h2 <;> rw [h2]
  · exact h
  · linarith

theorem transferCost_mem_masterCosts (nodes : List NodeT) (u : Nat)
    (hu : u < nodes.length) (e : EdgeT)
    (he : e ∈ (nodes.getD u default).outgoing) (arrival : String) :
    transferCost arrival e ∈ masterCosts nodes := by
  have h1 := mem_masterCosts nodes u hu e he
  rcases transferCost_cases arrival e with h2 | h2 <;> rw [h2]
  · exact h1.1
  · exact h1.2

/-- Strict version of `countP` monotonicity: a witness counted by `q` but
not by `p` makes the count strictly larger. -/
theorem countP_lt_of_witness {α : Type} (p q : α → Bool) :
    ∀ (l : List α), (∀ a ∈ l, p a = true → q a = true) →
    ∀ x ∈ l, q x = true → p x = false →
    l.countP p < l.countP q := by
  intro l
  induction l with
  | nil => intro _ x hx; cases hx
  | cons a as ih =>
    intro himp x hx hqx hpx
    rw [List.countP_cons, List.countP_cons]
    rcases List.mem_cons.mp hx with rfl | h2
    · rw [hpx, hqx, if_neg Bool.false_ne_true, if_pos rfl]
      have h3 : as.countP p ≤ as.countP q :=
        List.countP_mono_left (fun y hy => himp y (List.mem_cons_of_mem _ hy))
      omega
    · have h3 := ih (fun y hy => himp y (List.mem_cons_of_mem _ hy)) x h2 hqx hpx
      have h4 : (if p a = true then 1 else 0) ≤ if q a = true then 1 else 0 := by
        split_ifs with hpa hqa
        · omega
        · exact absurd (himp a (List.mem_cons_self _ _) hpa) hqa
        · omega
        · omega
      omega

/-- Number of sum-set values strictly below a stored g-score. -/
def countBelow (S : List ℚ) (g : WithTop ℚ) : Nat :=
  S.countP (fun (x : ℚ) => decide ((x : WithTop ℚ) < g))

theorem countBelow_lt (S : List ℚ) (gOld : WithTop ℚ) (gNew : ℚ)
    (hmem : gNew ∈ S) (hlt : (gNew : WithTop ℚ) < gOld) :
    countBelow S (gNew : WithTop ℚ) < countBelow S gOld := by
  unfold countBelow
  refine countP_lt_of_witness _ _ S ?_ gNew hmem ?_ ?_
  · intro a _ ha
    rw [decide_eq_true_iff] at ha
    rw [decide_eq_true_iff]
    exact lt_trans ha hlt
  · rw [decide_eq_true_iff]
    exact hlt
  · rw [decide_eq_false_iff_not]
    exact lt_irrefl _

theorem countBelow_mono (S : List ℚ) (g1 g2 : WithTop ℚ) (h : g1 ≤ g2) :
    countBelow S g1 ≤ countBelow S g2 := by
  refine List.countP_mono_left ?_
  intro a _ ha
  rw [decide_eq_true_iff] at ha
  rw [decide_eq_true_iff]
  exact lt_of_lt_of_le ha h

/-- Sum over all nodes of the count of sum-set values below the stored
g-score. -/
def infoMeasure (S : List ℚ) (info : List PathInfoT) (n : Nat) : Nat :=
  (List.range n).foldr
    (fun v acc => countBelow S (info.getD v initInfo).g_score + acc) 0

/-- The termination measure: queue length plus twice the info measure. -/
def stateMeasure (S : List ℚ) (n : Nat) (st : SearchState) : Nat :=
  st.pq.length + 2 * infoMeasure S st.info n

theorem foldr_sum_le (f f2 : Nat → Nat) :
    ∀ l : List Nat, (∀ v ∈ l, f2 v ≤ f v) →
    l.foldr (fun v acc => f2 v + acc) 0 ≤ l.foldr (fun v acc => f v + acc) 0 := by
  intro l
  induction l with
  | nil => intro _; exact le_rfl
  | cons a as ih =>
    intro h
    rw [List.foldr_cons, List.foldr_cons]
    have h1 := h a (List.mem_cons_self _ _)
    have h2 := ih (fun v hv => h v (List.mem_cons_of_mem _ hv))
    omega

theorem foldr_sum_lt (f f2 : Nat → Nat) (v0 : Nat) :
    ∀ l : List Nat, v0 ∈ l → (∀ v ∈ l, f2 v ≤ f v) → f2 v0 < f v0 →
    l.foldr (fun v acc => f2 v + acc) 0 < l.foldr (fun v acc => f v + acc) 0 := by
  intro l
  induction l with
  | nil => intro h; cases h
  | cons a as ih =>
    intro hto hle hlt
    rw [List.foldr_cons, List.foldr_cons]
    rcases List.mem_cons.mp hto with rfl | h2
    · have h1 := foldr_sum_le f f2 as (fun v hv => hle v (List.mem_cons_of_mem _ hv))
      omega
    · have h1 := ih h2 (fun v hv => hle v (List.mem_cons_of_mem _ hv)) hlt
      have h2b := hle a (List.mem_cons_self _ _)
      omega

/-- All edge weights are strictly positive — what the loader guarantees:
transit edges include the 30 s dwell and walking edges require a positive
distance. -/
def WeightsPos (nodes : List NodeT) : Prop :=
  ∀ (u : Nat), ∀ e ∈ (nodes.getD u default).outgoing, 0 < e.weight

/-- Pointwise comparison of stored g-scores. -/
def InfoLe (info2 info : List PathInfoT) : Prop :=
  ∀ v : Nat, (info2.getD v initInfo).g_score ≤ (info.getD v initInfo).g_score

/-- Certificate of a queue entry: its g-score is a seed value plus the
costs of a relaxation chain with pairwise-distinct in-range targets, every
prefix of which is already recorded at least as cheap in `info`. -/
def QCert (nodes : List NodeT) (seeds : List ℚ) (info : List PathInfoT)
    (q : QEntry) : Prop :=
  q.u < nodes.length ∧
  ∃ s, s ∈ seeds ∧ ∃ T : List (Nat × ℚ),
    q.g_score = s + (T.map Prod.snd).sum ∧
    (T.map Prod.fst).Nodup ∧
    (∀ p ∈ T, p.1 < nodes.length ∧ p.2 ∈ masterCosts nodes ∧ 0 < p.2) ∧
    (∀ (k : Nat) (hk : k < T.length),
      (info.getD (T.get ⟨k, hk⟩).1 initInfo).g_score ≤
        ((s + ((T.take (k + 1)).map Prod.snd).sum : ℚ) : WithTop ℚ))

theorem qcert_mono (nodes : List NodeT) (seeds : List ℚ)
    (info info2 : List PathInfoT) (q : QEntry) (hle : InfoLe info2 info)
    (h : QCert nodes seeds info q) : QCert nodes seeds info2 q := by
  obtain ⟨hu, s, hs, T, hsum, hnd, hprops, hpre⟩ := h
  exact ⟨hu, s, hs, T, hsum, hnd, hprops,
    fun k hk => le_trans (hle _) (hpre k hk)⟩

theorem infoLe_set (info : List PathInfoT) (x : Nat) (pi : PathInfoT)
    (hle : pi.g_score ≤ (info.getD x initInfo).g_score) :
    InfoLe (info.set x pi) info := by
  intro v
  rw [getD_set]
  split_ifs with hc
  · rcases hc with ⟨rfl, -⟩
    exact hle
  · exact le_rfl

theorem nodup_lt_length_le (l : List Nat) (n : Nat) (hnd : l.Nodup)
    (hlt : ∀ x ∈ l, x < n) : l.length ≤ n := by
  have h1 : l ⊆ List.range n := fun x hx => List.mem_range.mpr (hlt x hx)
  have h2 := (hnd.subperm h1).length_le
  rwa [List.length_range] at h2

theorem get_append_last {α : Type} (l : List α) (a : α)
    (h : l.length < (l ++ [a]).length) : (l ++ [a]).get ⟨l.length, h⟩ = a := by
  induction l with
  | nil => rfl
  | cons x xs ih =>
    show (xs ++ [a]).get ⟨xs.length, _⟩ = a
    exact ih (by simp)

/-- Writing a strictly smaller sum-set score makes the info measure drop. -/
theorem infoMeasure_set_lt (S : List ℚ) (info : List PathInfoT) (n : Nat)
    (x : Nat) (hx : x < n) (hxlen : x < info.length) (pi : PathInfoT)
    (g2 : ℚ) (hg : pi.g_score = (g2 : WithTop ℚ)) (hmem : g2 ∈ S)
    (hlt : (g2 : WithTop ℚ) < (info.getD x initInfo).g_score) :
    infoMeasure S (info.set x pi) n < infoMeasure S info n := by
  unfold infoMeasure
  refine foldr_sum_lt _ _ x (List.range n) (List.mem_range.mpr hx) ?_ ?_
  · intro v hv
    rw [getD_set]
    split_ifs with hc
    · rcases hc with ⟨rfl, -⟩
      rw [hg]
      exact countBelow_mono S _ _ (le_of_lt hlt)
    · exact le_rfl
  · rw [getD_set, if_pos ⟨rfl, hxlen⟩, hg]
    exact countBelow_lt S _ g2 hmem hlt

/-- One relaxation step preserves the certificates and never increases the
measure (a push pays for its queue entry by dropping the info measure). -/
theorem relaxOne_term (hv : ℚ → ℚ → ℚ → ℚ → ℚ) (nodes : List NodeT)
    (dLat dLon : ℚ) (mask : Nat) (seeds : List ℚ) (top : QEntry)
    (st : SearchState) (e : EdgeT)
    (hmem : e ∈ (nodes.getD top.u default).outgoing)
    (hwpos : WeightsPos nodes) (hval : EdgesValid nodes)
    (hlen : st.info.length = nodes.length)
    (htop : QCert nodes seeds st.info top)
    (hq : ∀ q ∈ st.pq, QCert nodes seeds st.info q) :
    (relaxOne hv nodes dLat dLon mask top st e).info.length = nodes.length ∧
    QCert nodes seeds (relaxOne hv nodes dLat dLon mask top st e).info top ∧
    (∀ q ∈ (relaxOne hv nodes dLat dLon mask top st e).pq,
      QCert nodes seeds (relaxOne hv nodes dLat dLon mask top st e).info q) ∧
    stateMeasure (sumsUpTo seeds (masterCosts nodes) nodes.length)
        nodes.length (relaxOne hv nodes dLat dLon mask top st e) ≤
      stateMeasure (sumsUpTo seeds (masterCosts nodes) nodes.length)
        nodes.length st := by
  unfold relaxOne
  simp only []
  split_ifs with h1 h2
  · exact ⟨hlen, htop, hq, le_rfl⟩
  · -- push case
    have htgt : e.tgt < nodes.length := hval top.u e hmem
    have hc_pos : 0 < transferCost top.arrival_trip_id e :=
      transferCost_pos _ e (hwpos top.u e hmem)
    obtain ⟨htu, s, hs, T, hsum, hnd, hprops, hpre⟩ := htop
    -- the new target does not occur among the old targets
    have hfresh : ∀ (k : Nat) (hk : k < T.length), (T.get ⟨k, hk⟩).1 ≠ e.tgt := by
      intro k hk hceq
      have hp1 := hpre k hk
      rw [hceq] at hp1
      have hsplit : ((T.map Prod.snd)).sum =
          ((T.take (k + 1)).map Prod.snd).sum +
          ((T.drop (k + 1)).map Prod.snd).sum := by
        conv_lhs => rw [← List.take_append_drop (k + 1) T]
        rw [List.map_append, List.sum_append]
      have hdropnn : 0 ≤ ((T.drop (k + 1)).map Prod.snd).sum := by
        refine List.sum_nonneg ?_
        intro x hx
        rcases List.mem_map.mp hx with ⟨p, hp, rfl⟩
        exact (hprops p (List.drop_subset _ _ hp)).2.2.le
      have htake : ((T.take (k + 1)).map Prod.snd).sum ≤
          ((T.map Prod.snd)).sum := by linarith
      have hlt1 : ((s + ((T.take (k + 1)).map Prod.snd).sum : ℚ) : WithTop ℚ) ≤
          ((top.g_score : ℚ) : WithTop ℚ) := by
        rw [hsum, WithTop.coe_le_coe]
        linarith
      have hlt2 : ((top.g_score : ℚ) : WithTop ℚ) <
          ((top.g_score + transferCost top.arrival_trip_id e : ℚ) :
            WithTop ℚ) := by
        rw [WithTop.coe_lt_coe]
        linarith
      exact absurd (lt_trans (lt_of_lt_of_le h2.1 (le_trans hp1 hlt1)) hlt2)
        (lt_irrefl _)
    have hfresh2 : e.tgt ∉ T.map Prod.fst := by
      intro hmem2
      rcases List.mem_map.mp hmem2 with ⟨p, hp, heq⟩
      rcases List.mem_iff_get.mp hp with ⟨⟨k, hk⟩, rfl⟩
      exact hfresh k hk heq
    -- the extended certificate
    have hndT2 : ((T ++ [(e.tgt, transferCost top.arrival_trip_id e)]).map
        Prod.fst).Nodup := by
      rw [List.map_append]
      refine List.nodup_append.mpr ⟨hnd, List.nodup_singleton _, ?_⟩
      intro x hx hx2
      have hx3 : x = e.tgt := by simpa using hx2
      rw [hx3] at hx
      exact hfresh2 hx
    have hlen2 : (T ++ [(e.tgt, transferCost top.arrival_trip_id e)]).length =
        T.length + 1 := by
      rw [List.length_append]
      rfl
    have hTlen : (T ++ [(e.tgt, transferCost top.arrival_trip_id e)]).length ≤
        nodes.length := by
      have h3 := nodup_lt_length_le _ nodes.length hndT2 ?_
      · rwa [List.length_map] at h3
      · intro x hx
        rw [List.map_append] at hx
        rcases List.mem_append.mp hx with hx1 | hx1
        · rcases List.mem_map.mp hx1 with ⟨p, hp, rfl⟩
          exact (hprops p hp).1
        · have : x = e.tgt := by simpa using hx1
          rw [this]
          exact htgt
    have hnewsum : top.g_score + transferCost top.arrival_trip_id e =
        s + (((T ++ [(e.tgt, transferCost top.arrival_trip_id e)]).map
          Prod.snd)).sum := by
      rw [List.map_append, List.sum_append, hsum]
      simp only [List.map_cons, List.map_nil, List.sum_cons, List.sum_nil]
      ring
    have hnewmem : top.g_score + transferCost top.arrival_trip_id e ∈
        sumsUpTo seeds (masterCosts nodes) nodes.length := by
      rw [hnewsum]
      refine sum_mem_sumsUpTo seeds (masterCosts nodes) _ nodes.length s hs ?_ ?_
      · intro c hc
        rw [List.map_append] at hc
        rcases List.mem_append.mp hc with hc1 | hc1
        · rcases List.mem_map.mp hc1 with ⟨p, hp, rfl⟩
          exact (hprops p hp).2.1
        · have : c = transferCost top.arrival_trip_id e := by simpa using hc1
          rw [this]
          exact transferCost_mem_masterCosts nodes top.u htu e hmem _
      · rw [List.length_map]
        exact hTlen
    have hLe : InfoLe (st.info.set e.tgt
        ⟨((top.g_score + transferCost top.arrival_trip_id e : ℚ) : WithTop ℚ),
          Int.ofNat top.u, e.trip_id⟩) st.info := by
      refine infoLe_set st.info e.tgt _ ?_
      exact le_of_lt h2.1
    refine ⟨?_, ?_, ?_, ?_⟩
    · rw [List.length_set]
      exact hlen
    · exact qcert_mono nodes seeds st.info _ top hLe
        ⟨htu, s, hs, T, hsum, hnd, hprops, hpre⟩
    · intro q hq2
      rcases List.mem_append.mp hq2 with hold | hnew
      · exact qcert_mono nodes seeds st.info _ q hLe (hq q hold)
      · have hq3 : q = ⟨e.tgt, top.g_score + transferCost top.arrival_trip_id e,
            top.g_score + transferCost top.arrival_trip_id e +
              heuristicOf hv nodes dLat dLon e.tgt, e.trip_id⟩ := by
          simpa using hnew
        subst hq3
        refine ⟨htgt, s, hs,
          T ++ [(e.tgt, transferCost top.arrival_trip_id e)],
          hnewsum, hndT2, ?_, ?_⟩
        · intro p hp
          rcases List.mem_append.mp hp with hp1 | hp1
          · exact hprops p hp1
          · have : p = (e.tgt, transferCost top.arrival_trip_id e) := by
              simpa using hp1
            rw [this]
            exact ⟨htgt, transferCost_mem_masterCosts nodes top.u htu e hmem _,
              hc_pos⟩
        · intro k hk
          rcases Nat.lt_or_ge k T.length with hk2 | hk2
          · -- an old position
            have hget : ((T ++ [(e.tgt, transferCost top.arrival_trip_id e)]).get
                ⟨k, hk⟩).1 = (T.get ⟨k, hk2⟩).1 := by
              rw [List.get_append_left _ _ hk2]
            rw [hget]
            have htake2 : (T ++
                [(e.tgt, transferCost top.arrival_trip_id e)]).take (k + 1) =
                T.take (k + 1) := by
              rw [List.take_append_eq_append_take,
                Nat.sub_eq_zero_of_le hk2, List.take_zero, List.append_nil]
            rw [htake2]
            exact le_trans (hLe _) (hpre k hk2)
          · -- the new last position
            have hkeq : k = T.length := by
              rw [hlen2] at hk
              omega
            subst hkeq
            have hget : ((T ++ [(e.tgt, transferCost top.arrival_trip_id e)]).get
                ⟨T.length, hk⟩) = (e.tgt, transferCost top.arrival_trip_id e) :=
              get_append_last T _ hk
            rw [hget]
            have htake2 : (T ++
                [(e.tgt, transferCost top.arrival_trip_id e)]).take
                  (T.length + 1) =
                T ++ [(e.tgt, transferCost top.arrival_trip_id e)] :=
              List.take_all_of_le (by rw [hlen2])
            rw [htake2, ← hnewsum]
            rw [getD_set, if_pos ⟨rfl, by rw [hlen]; exact htgt⟩]
    · -- the measure does not grow
      unfold stateMeasure
      have him := infoMeasure_set_lt
        (sumsUpTo seeds (masterCosts nodes) nodes.length) st.info nodes.length
        e.tgt htgt (by rw [hlen]; exact htgt)
        ⟨((top.g_score + transferCost top.arrival_trip_id e : ℚ) : WithTop ℚ),
          Int.ofNat top.u, e.trip_id⟩
        (top.g_score + transferCost top.arrival_trip_id e) rfl hnewmem h2.1
      rw [List.length_append]
      simp only [List.length_cons, List.length_nil]
      omega
  · exact ⟨hlen, ⟨htop.1, htop.2⟩, hq, le_rfl⟩

theorem relaxEdges_term (hv : ℚ → ℚ → ℚ → ℚ → ℚ) (nodes : List NodeT)
    (dLat dLon : ℚ) (mask : Nat) (seeds : List ℚ) (top : QEntry)
    (hwpos : WeightsPos nodes) (hval : EdgesValid nodes) :
    ∀ (edges : List EdgeT) (st : SearchState),
    (∀ e ∈ edges, e ∈ (nodes.getD top.u default).outgoing) →
    st.info.length = nodes.length →
    QCert nodes seeds st.info top →
    (∀ q ∈ st.pq, QCert nodes seeds st.info q) →
    (relaxEdges hv nodes dLat dLon mask top st edges).info.length =
      nodes.length ∧
    (∀ q ∈ (relaxEdges hv nodes dLat dLon mask top st edges).pq,
      QCert nodes seeds
        (relaxEdges hv nodes dLat dLon mask top st edges).info q) ∧
    stateMeasure (sumsUpTo seeds (masterCosts nodes) nodes.length)
        nodes.length (relaxEdges hv nodes dLat dLon mask top st edges) ≤
      stateMeasure (sumsUpTo seeds (masterCosts nodes) nodes.length)
        nodes.length st := by
  intro edges
  induction edges with
  | nil => exact fun st _ hlen htop hq => ⟨hlen, hq, le_rfl⟩
  | cons e es ih =>
    intro st hsub hlen htop hq
    have hstep : relaxEdges hv nodes dLat dLon mask top st (e :: es) =
        relaxEdges hv nodes dLat dLon mask top
          (relaxOne hv nodes dLat dLon mask top st e) es := rfl
    rw [hstep]
    have h := relaxOne_term hv nodes dLat dLon mask seeds top st e
      (hsub e (by simp)) hwpos hval hlen htop hq
    have h2 := ih _ (fun e2 he2 => hsub e2 (List.mem_cons_of_mem e he2))
      h.1 h.2.1 h.2.2.1
    exact ⟨h2.1, h2.2.1, le_trans h2.2.2 h.2.2.2⟩

/-- Every successful loop iteration strictly decreases the measure. -/
theorem stepPop_term (hv : ℚ → ℚ → ℚ → ℚ → ℚ) (nodes : List NodeT)
    (dLat dLon : ℚ) (mask : Nat) (endWalk : List ℚ) (seeds : List ℚ)
    (st st1 : SearchState)
    (hwpos : WeightsPos nodes) (hval : EdgesValid nodes)
    (h : stepPop hv nodes dLat dLon mask endWalk st = some st1)
    (hlen : st.info.length = nodes.length)
    (hq : ∀ q ∈ st.pq, QCert nodes seeds st.info q) :
    st1.info.length = nodes.length ∧
    (∀ q ∈ st1.pq, QCert nodes seeds st1.info q) ∧
    stateMeasure (sumsUpTo seeds (masterCosts nodes) nodes.length)
        nodes.length st1 <
      stateMeasure (sumsUpTo seeds (masterCosts nodes) nodes.length)
        nodes.length st := by
  unfold stepPop at h
  rcases hqe : extractMin st.pq with - | ⟨top, rest⟩ <;> rw [hqe] at h
  · exact absurd h (by simp)
  simp only [Option.some.injEq] at h
  subst h
  have hmemq := extractMin_mem st.pq top rest hqe
  have hrest : ∀ q ∈ rest, QCert nodes seeds st.info q :=
    fun q hq2 => hq q (hmemq.2.1 q hq2)
  have htop := hq top hmemq.1
  have hplen : st.pq.length = rest.length + 1 := hmemq.2.2
  have hmrest : stateMeasure (sumsUpTo seeds (masterCosts nodes) nodes.length)
      nodes.length { st with pq := rest } + 1 =
      stateMeasure (sumsUpTo seeds (masterCosts nodes) nodes.length)
        nodes.length st := by
    unfold stateMeasure
    simp only []
    omega
  split_ifs with h1 h2 h3 h4
  · exact ⟨hlen, hrest, by omega⟩
  · exact ⟨hlen, hrest, by omega⟩
  · have h5 := relaxEdges_term hv nodes dLat dLon mask seeds top hwpos hval
      (nodes.getD top.u default).outgoing
      ⟨st.info, rest,
        ((top.g_score + endWalk.getD top.u (-1) / WALK_SPEED_MPS : ℚ) :
          WithTop ℚ), Int.ofNat top.u⟩
      (fun e2 he2 => he2) hlen htop hrest
    refine ⟨h5.1, h5.2.1, ?_⟩
    have h6 := h5.2.2
    have h7 : stateMeasure (sumsUpTo seeds (masterCosts nodes) nodes.length)
        nodes.length
        (⟨st.info, rest,
          ((top.g_score + endWalk.getD top.u (-1) / WALK_SPEED_MPS : ℚ) :
            WithTop ℚ), Int.ofNat top.u⟩ : SearchState) =
        stateMeasure (sumsUpTo seeds (masterCosts nodes) nodes.length)
          nodes.length { st with pq := rest } := rfl
    omega
  · have h5 := relaxEdges_term hv nodes dLat dLon mask seeds top hwpos hval
      (nodes.getD top.u default).outgoing { st with pq := rest }
      (fun e2 he2 => he2) hlen htop hrest
    exact ⟨h5.1, h5.2.1, by omega⟩
  · have h5 := relaxEdges_term hv nodes dLat dLon mask seeds top hwpos hval
      (nodes.getD top.u default).outgoing { st with pq := rest }
      (fun e2 he2 => he2) hlen htop hrest
    exact ⟨h5.1, h5.2.1, by omega⟩

/-- With more fuel than the measure, the loop drains its queue. -/
theorem runLoop_term (hv : ℚ → ℚ → ℚ → ℚ → ℚ) (nodes : List NodeT)
    (dLat dLon : ℚ) (mask : Nat) (endWalk : List ℚ) (seeds : List ℚ)
    (hwpos : WeightsPos nodes) (hval : EdgesValid nodes) :
    ∀ (fuel : Nat) (st : SearchState),
    st.info.length = nodes.length →
    (∀ q ∈ st.pq, QCert nodes seeds st.info q) →
    stateMeasure (sumsUpTo seeds (masterCosts nodes) nodes.length)
      nodes.length st < fuel →
    (runLoop hv nodes dLat dLon mask endWalk fuel st).2 = true := by
  intro fuel
  induction fuel with
  | zero => intro st _ _ hm; exact absurd hm (by omega)
  | succ n2 ih =>
    intro st hlen hq hm
    rw [runLoop]
    rcases hs : stepPop hv nodes dLat dLon mask endWalk st with - | st1
    · rfl
    · have h := stepPop_term hv nodes dLat dLon mask endWalk seeds st st1
        hwpos hval hs hlen hq
      exact ih st1 h.1 h.2.1 (by omega)

/-- During seeding every queue entry's g-score is one of the seed values. -/
theorem seedFold_cert (hv : ℚ → ℚ → ℚ → ℚ → ℚ) (nodes : List NodeT)
    (dLat dLon : ℚ) (seeds : List ℚ) :
    ∀ (sns : List (Nat × ℚ)) (st : SearchState),
    (∀ sn ∈ sns, sn.1 < nodes.length ∧ sn.2 / WALK_SPEED_MPS ∈ seeds) →
    st.info.length = nodes.length →
    (∀ q ∈ st.pq, q.u < nodes.length ∧ q.g_score ∈ seeds) →
    (sns.foldl (seedStart hv nodes dLat dLon) st).info.length =
      nodes.length ∧
    (∀ q ∈ (sns.foldl (seedStart hv nodes dLat dLon) st).pq,
      q.u < nodes.length ∧ q.g_score ∈ seeds) := by
  intro sns
  induction sns with
  | nil => exact fun st _ hlen hq => ⟨hlen, hq⟩
  | cons sn rest ih =>
    intro st hsns hlen hq
    rw [List.foldl_cons]
    refine ih _ (fun x hx => hsns x (List.mem_cons_of_mem _ hx)) ?_ ?_
    · show (st.info.set sn.1 _).length = nodes.length
      rw [List.length_set]
      exact hlen
    · intro q hq2
      unfold seedStart at hq2
      rcases List.mem_append.mp hq2 with hold | hnew
      · exact hq q hold
      · have hq3 : q = ⟨sn.1, sn.2 / WALK_SPEED_MPS, sn.2 / WALK_SPEED_MPS +
            heuristicOf hv nodes dLat dLon sn.1, "WALK"⟩ := by simpa using hnew
        subst hq3
        exact ⟨(hsns sn (by simp)).1, (hsns sn (by simp)).2⟩

/-- A seed-valued entry carries the empty certificate. -/
theorem seedCert_qcert (nodes : List NodeT) (seeds : List ℚ)
    (info : List PathInfoT) (q : QEntry)
    (h : q.u < nodes.length ∧ q.g_score ∈ seeds) :
    QCert nodes seeds info q :=
  ⟨h.1, q.g_score, h.2, [], by simp, by simp,
    fun p hp => absurd hp (List.not_mem_nil p),
    fun k hk => absurd hk (by simp)⟩

/-- C10: on every graph with strictly positive edge weights and in-range
edge targets — what the loader produces — `Pathfinder::FindPath`
terminates: some finite fuel lets the embedded A* loop drain its queue, so
the C++ `while` loop cannot run forever. -/
theorem C10_termination (hv : ℚ → ℚ → ℚ → ℚ → ℚ) (g : GraphT)
    (sLat sLon dLat dLon : ℚ) (mask : Nat) (label : String)
    (hwpos : WeightsPos g.nodes) (hval : EdgesValid g.nodes) :
    ∃ fuel : Nat,
      (FindPathAux hv fuel g sLat sLon dLat dLon mask label).2 = true := by
  unfold FindPathAux
  simp only []
  by_cases hc1 : (pickCandidates hv g.nodes sLat sLon dLat dLon mask
      [MAX_WALK_DISTANCE, 2500, 4000, 6000]).1 = [] ∨
      (pickCandidates hv g.nodes sLat sLon dLat dLon mask
        [MAX_WALK_DISTANCE, 2500, 4000, 6000]).2 = []
  · refine ⟨0, ?_⟩
    rw [if_pos hc1]
    split_ifs <;> rfl
  · obtain ⟨st0, hst0⟩ : ∃ st0 : SearchState, st0 =
        (pickCandidates hv g.nodes sLat sLon dLat dLon mask
          [MAX_WALK_DISTANCE, 2500, 4000, 6000]).1.foldl
          (seedStart hv g.nodes dLat dLon)
          ⟨List.replicate g.nodes.length initInfo, [],
            if hv sLat sLon dLat dLon ≤ MAX_WALK_DISTANCE * 2 then
              ((hv sLat sLon dLat dLon / WALK_SPEED_MPS : ℚ) : WithTop ℚ)
            else ⊤,
            if hv sLat sLon dLat dLon ≤ MAX_WALK_DISTANCE * 2 then -2
            else -1⟩ := ⟨_, rfl⟩
    have hprops := pickCandidates_props hv g.nodes sLat sLon dLat dLon mask
      [MAX_WALK_DISTANCE, 2500, 4000, 6000]
    have hseed := seedFold_cert hv g.nodes dLat dLon
      ((pickCandidates hv g.nodes sLat sLon dLat dLon mask
        [MAX_WALK_DISTANCE, 2500, 4000, 6000]).1.map
        (fun sn => sn.2 / WALK_SPEED_MPS))
      (pickCandidates hv g.nodes sLat sLon dLat dLon mask
        [MAX_WALK_DISTANCE, 2500, 4000, 6000]).1
      (⟨List.replicate g.nodes.length initInfo, [],
        if hv sLat sLon dLat dLon ≤ MAX_WALK_DISTANCE * 2 then
          ((hv sLat sLon dLat dLon / WALK_SPEED_MPS : ℚ) : WithTop ℚ)
        else ⊤,
        if hv sLat sLon dLat dLon ≤ MAX_WALK_DISTANCE * 2 then -2
        else -1⟩ : SearchState)
      (fun sn hsn => ⟨hprops.1.1 sn hsn,
        List.mem_map.mpr ⟨sn, hsn, rfl⟩⟩)
      (List.length_replicate _ _)
      (fun q hq => absurd hq (List.not_mem_nil q))
    rw [← hst0] at hseed
    refine ⟨stateMeasure (sumsUpTo
      ((pickCandidates hv g.nodes sLat sLon dLat dLon mask
        [MAX_WALK_DISTANCE, 2500, 4000, 6000]).1.map
        (fun sn => sn.2 / WALK_SPEED_MPS))
      (masterCosts g.nodes) g.nodes.length) g.nodes.length st0 + 1, ?_⟩
    rw [if_neg hc1]
    rw [← hst0]
    have hterm := runLoop_term hv g.nodes dLat dLon mask
      (mkEndWalk g.nodes.length
        (pickCandidates hv g.nodes sLat sLon dLat dLon mask
          [MAX_WALK_DISTANCE, 2500, 4000, 6000]).2)
      ((pickCandidates hv g.nodes sLat sLon dLat dLon mask
        [MAX_WALK_DISTANCE, 2500, 4000, 6000]).1.map
        (fun sn => sn.2 / WALK_SPEED_MPS))
      hwpos hval
      (stateMeasure (sumsUpTo
        ((pickCandidates hv g.nodes sLat sLon dLat dLon mask
          [MAX_WALK_DISTANCE, 2500, 4000, 6000]).1.map
          (fun sn => sn.2 / WALK_SPEED_MPS))
        (masterCosts g.nodes) g.nodes.length) g.nodes.length st0 + 1)
      st0 hseed.1
      (fun q hq => seedCert_qcert g.nodes _ st0.info q (hseed.2 q hq))
      (by omega)
    split_ifs <;> exact hterm

/-- Witness for C10 at a concrete input: the bus-only query on `gC4`
terminates. -/
theorem C10_termination_witness :
    ∃ fuel : Nat,
      (FindPathAux hvC4 fuel gC4 0 0 0 1 (BUS ||| WALK) "bus_only").2 =
        true :=
  C10_termination hvC4 gC4 0 0 0 1 (BUS ||| WALK) "bus_only"
    (by
      intro u e he
      rcases u with - | u1
      · obtain rfl := List.mem_singleton.mp he
        with_unfolding_all decide
      · rcases u1 with - | n2
        · exact absurd he (List.not_mem_nil e)
        · exact absurd he (List.not_mem_nil e))
    (by
      intro u e he
      rcases u with - | u1
      · obtain rfl := List.mem_singleton.mp he
        with_unfolding_all decide
      · rcases u1 with - | n2
        · exact absurd he (List.not_mem_nil e)
        · exact absurd he (List.not_mem_nil e))

end Wsnly
